import Mathlib

/-!
# void-slice: the resolution / traversal engine

A shallow embedding of `internal/parse/tokens.go`, `internal/index/index.go`,
`internal/fsutil/copy.go` and `internal/core/core.go`, followed by theorems about it.

Modelling conventions.

* Go strings are Lean `String`s; the functions of package `strings` that the code uses are
  written over `String.data` by structural recursion.
* Go maps are association lists read with `List.lookup` (the first binding of a key wins, and
  an assignment conses a new binding), Go sets (`map[string]struct{}`) are duplicate-free lists.
* The operating system is a record of oracles, `World`: what `os.ReadDir`, `filepath.WalkDir`,
  `os.ReadFile`, `os.Stat`, the steps of `fsutil.CopyFile` and `encoding/xml` answer.  Paths
  below the export root are addressed by bucket name and slash-separated relative path.
  The oracles do not change during a run (the output directory lies outside the export tree).
* Messages built with `fmt` are kept structured (`Warning`, `RunError`).
* The work-stack loop takes a step budget; `fuelBound` computes a budget that always suffices
  (theorem `loop_terminates`), and `Run` uses it.
-/

namespace VoidSlice

/-! ## Package `strings` -/

/-- The predicate `unicode.IsSpace`. -/
def isSpace (c : Char) : Bool :=
  let n := c.toNat
  n == 9 || n == 10 || n == 11 || n == 12 || n == 13 || n == 32 || n == 0x85 || n == 0xA0 ||
  n == 0x1680 || (0x2000 ≤ n && n ≤ 0x200A) || n == 0x2028 || n == 0x2029 || n == 0x202F ||
  n == 0x205F || n == 0x3000

/-- Strip the characters satisfying `p` from both ends. -/
def trimChars (p : Char → Bool) (cs : List Char) : List Char :=
  ((cs.dropWhile p).reverse.dropWhile p).reverse

/-- A model of `strings.TrimSpace`. -/
def trimSpace (s : String) : String := ⟨trimChars isSpace s.data⟩

/-- A model of `strings.HasPrefix`. -/
def hasPrefix (s pre : String) : Bool := pre.data.isPrefixOf s.data

/-- A model of `strings.HasSuffix`. -/
def hasSuffix (s suf : String) : Bool := suf.data.reverse.isPrefixOf s.data.reverse

/-- A model of `strings.TrimSuffix`. -/
def trimSuffix (s suf : String) : String :=
  if hasSuffix s suf then ⟨s.data.take (s.data.length - suf.data.length)⟩ else s

/-- A model of `strings.Contains(s, "/")`. -/
def containsSlash (s : String) : Bool := s.data.contains '/'

/-- Byte-wise string order of Go (`sort.Strings`), which on valid UTF-8 is the lexicographic
order of the code points. -/
def leChars : List Char → List Char → Bool
  | [], _ => true
  | _ :: _, [] => false
  | a :: as, b :: bs => a.toNat < b.toNat || (a.toNat == b.toNat && leChars as bs)

/-- The order `a <= b` on Go strings. -/
def strLe (a b : String) : Prop := leChars a.data b.data = true

instance : DecidableRel strLe := fun a b => inferInstanceAs (Decidable (leChars a.data b.data = true))

/-- A model of `sort.Strings`. -/
def sortStrings (l : List String) : List String := l.insertionSort strLe

/-! ## `internal/parse/tokens.go` -/

/-- The character class of `tokenRe`: ASCII letters, digits, `_`, `.`, `/` and `-`. -/
def isTokenChar (c : Char) : Bool :=
  let n := c.toNat
  (65 ≤ n && n ≤ 90) || (97 ≤ n && n ≤ 122) || (48 ≤ n && n ≤ 57) ||
  c == '_' || c == '.' || c == '/' || c == '-'

/-- The successive leftmost-longest matches of `tokenRe`, one or more characters of the
class: `cur` is the run being read, last character first. -/
def findAllRuns : List Char → List Char → List (List Char)
  | [], cur => if cur.isEmpty then [] else [cur.reverse]
  | c :: cs, cur =>
    if isTokenChar c then findAllRuns cs (c :: cur)
    else if cur.isEmpty then findAllRuns cs []
    else cur.reverse :: findAllRuns cs []

/-- The cutset of `strings.Trim(t, "\"';,(){}[]")`. -/
def isCutChar (c : Char) : Bool :=
  c == '"' || c == '\'' || c == ';' || c == ',' || c == '(' || c == ')' ||
  c == '{' || c == '}' || c == '[' || c == ']'

/-- The body of the loop of `Extract` on one raw match. -/
def extractOne (t : List Char) : Option String :=
  if !t.contains '/' then none
  else
    let t1 := trimChars isCutChar t
    if t1.isEmpty then none else some ⟨t1⟩

/-- A model of `parse.Extract`. -/
def Extract (text : String) : List String :=
  (findAllRuns text.data []).filterMap extractOne

/-! ## The operating system and `encoding/xml` -/

/-- A start element as `encoding/xml` reports it: local name and attributes (local name, value)
in document order. -/
structure XmlElem where
  tag : String
  attrs : List (String × String)
  deriving DecidableEq, Repr

/-- What `xml.Unmarshal` sees of a document: the root element and its direct child elements. -/
structure XmlDoc where
  root : XmlElem
  children : List XmlElem
  deriving DecidableEq, Repr

/-- One call of the `filepath.WalkDir` callback: the path components below the bucket
directory, whether the entry is a directory, whether the walk reported an error for it. -/
structure WalkEntry where
  rel : List String
  isDir : Bool
  walkErr : Bool
  deriving DecidableEq, Repr

/-- The answers of the operating system and of `encoding/xml`. -/
structure World where
  /-- The entries `os.ReadDir(ExportRoot)` returns, name and `IsDir()`; `none` on error. -/
  readDir : Option (List (String × Bool))
  /-- The callback invocations of `filepath.WalkDir(ExportRoot/bucket, ...)`, in walk order. -/
  walkDir : String → List WalkEntry
  /-- The answer of `os.ReadFile(ExportRoot/bucket/rel)`; `none` on error. -/
  readFile : String → String → Option String
  /-- Whether `os.Stat(ExportRoot/bucket/rel)` succeeds. -/
  stat : String → String → Bool
  /-- Whether `os.Open(ExportRoot/bucket/rel)` succeeds. -/
  openSrc : String → String → Bool
  /-- Whether `os.MkdirAll(filepath.Dir(OutDir/bucket/rel))` succeeds. -/
  mkdirAll : String → String → Bool
  /-- Whether `os.Create(OutDir/bucket/rel)` succeeds. -/
  create : String → String → Bool
  /-- Whether `io.Copy` from the source to the destination succeeds. -/
  ioCopy : String → String → Bool
  /-- Whether `out.Sync()` succeeds. -/
  sync : String → String → Bool
  /-- The document `encoding/xml` reads from the bytes; `none` on a syntax error. -/
  xmlDoc : String → Option XmlDoc

/-! ## `internal/fsutil/copy.go` -/

/-- The step at which `CopyFile` fails. -/
inductive CopyError
  | openSrc | mkdirDst | createDst | copy | sync
  deriving DecidableEq, Repr

/-- A model of `fsutil.CopyFile` from `ExportRoot/bucket/rel` to `OutDir/bucket/rel`. -/
def CopyFile (w : World) (bucket rel : String) : Option CopyError :=
  if !w.openSrc bucket rel then some .openSrc
  else if !w.mkdirAll bucket rel then some .mkdirDst
  else if !w.create bucket rel then some .createDst
  else if !w.ioCopy bucket rel then some .copy
  else if !w.sync bucket rel then some .sync
  else none

/-! ## `internal/index/index.go` -/

/-- The type `index.Resource`. -/
structure Resource where
  Name : String
  RelDeclPath : String
  RelXMLPath : String
  deriving DecidableEq, Repr

/-- The type `map[string]index.Resource`. -/
abbrev Index := List (String × Resource)

/-- The value of an attribute `name` after `encoding/xml` has assigned the attributes of one
start element in order to a string field that held `init`. -/
def attrName (init : String) (attrs : List (String × String)) : String :=
  attrs.foldl (fun acc a => if a.1 = "name" then a.2 else acc) init

/-- The field `w.Info.Name` after `xml.Unmarshal(data, &w)` with `w` an `xmlWrapper`: the root
element is matched against the wrapper itself and `Info` against its child elements named
`ResourceInfo`. -/
def wrapperName (d : XmlDoc) : String :=
  d.children.foldl (fun acc e => if e.tag = "ResourceInfo" then attrName acc e.attrs else acc) ""

/-- The path of a walk entry relative to the bucket directory, slash separated
(`filepath.Rel(bucketDir, path)` followed by `filepath.ToSlash`). -/
def relPath (e : WalkEntry) : String := "/".intercalate e.rel

/-- A model of `filepath.Base` of the path of a walk entry. -/
def basePath (e : WalkEntry) : String := e.rel.getLastD ""

/-- The callback that `index.Load` passes to `filepath.WalkDir`; an error carries the refused
relative path. -/
def loadVisit (w : World) (bucket : String) (idx : Index) (e : WalkEntry) : Except String Index :=
  if e.walkErr || e.isDir then .ok idx
  else if !hasSuffix (relPath e) ".decl.xml" then .ok idx
  else
    match w.readFile bucket (relPath e) with
    | none => .ok idx
    | some data =>
      match w.xmlDoc data with
      | none => .ok idx
      | some doc =>
        if wrapperName doc = "" then .ok idx
        else
          let relXML := relPath e
          let relDecl := trimSuffix relXML ".xml"
          if hasPrefix relXML ".." || hasPrefix relDecl ".." then .error relXML
          else .ok ((wrapperName doc,
            { Name := wrapperName doc, RelDeclPath := relDecl, RelXMLPath := relXML }) :: idx)

/-- The walk of `index.Load`: it stops at the first error of the callback. -/
def loadWalk (w : World) (bucket : String) : Index → List WalkEntry → Except String Index
  | idx, [] => .ok idx
  | idx, e :: es =>
    match loadVisit w bucket idx e with
    | .error p => .error p
    | .ok idx1 => loadWalk w bucket idx1 es

/-- A model of `index.Load(filepath.Join(ExportRoot, bucket))`. -/
def Load (w : World) (bucket : String) : Except String Index :=
  loadWalk w bucket [] (w.walkDir bucket)

/-! ## `internal/core/core.go`: types -/

deriving instance DecidableEq for Except

/-- The type `core.Options`. -/
structure Options where
  ExportRoot : String
  Entry : String
  OutDir : String
  MaxDepth : Int
  deriving DecidableEq, Repr

/-- The strings appended to `Result.Warnings`, by format. -/
inductive Warning
  /-- The text `depth limit exceeded (%d) at %s/%s`: max depth, bucket, name. -/
  | depthLimit (maxDepth : Int) (bucket name : String)
  /-- The text `failed to read %s: %v`: the decl path as bucket and relative path. -/
  | readFailed (bucket rel : String)
  /-- The text `ambiguous reference %q found in multiple buckets; choosing %s`. -/
  | ambiguous (token bucket : String)
  /-- The text `entry exists in multiple buckets; processing all: %s`. -/
  | entryMultiple (entry : String)
  /-- The text `entry filename exists in multiple buckets; processing all: %s`. -/
  | entryFileMultiple (entry : String)
  deriving DecidableEq, Repr

/-- Whether the warning is a `depth limit exceeded` warning. -/
def Warning.isDepthLimit : Warning → Bool
  | .depthLimit _ _ _ => true
  | _ => false

/-- Whether the warning is one of the two `multiple buckets` warnings of `resolveEntry`. -/
def Warning.isMultipleBuckets : Warning → Bool
  | .entryMultiple _ => true
  | .entryFileMultiple _ => true
  | _ => false

/-- The errors `Run` returns, by origin. -/
inductive RunError
  | exportRootRequired
  | entryRequired
  | outDirRequired
  /-- The text `list buckets: %w`. -/
  | listBuckets
  /-- The text `no bucket directories found under export root: %s`. -/
  | noBuckets
  /-- The text `load index for %s: %w`: bucket and refused relative path. -/
  | loadIndex (bucket rel : String)
  /-- The text `entry canonical name not found in any bucket index: %s`. -/
  | entryNotFound (entry : String)
  /-- The text `entry file found but could not read canonical name from xml (%s): %w`. -/
  | entryXmlUnreadable (bucket rel : String)
  /-- The text `entry exported filename not found in any bucket directory: %s`. -/
  | entryFileNotFound (entry : String)
  /-- An error of `fsutil.CopyFile`, returned by `copyOne`. -/
  | copyFailed (bucket rel : String) (step : CopyError)
  /-- The step budget of the work-stack loop ran out (theorem `Run_fuel` shows that `Run`
  never returns this). -/
  | fuelExhausted
  deriving DecidableEq, Repr

/-- The type `core.Result`. -/
structure Result where
  RootsProcessed : Nat
  VisitedNodes : Nat
  CopiedDecl : Nat
  CopiedXML : Nat
  UnresolvedUnique : Nat
  Unresolved : List String
  Warnings : List Warning
  deriving DecidableEq, Repr

/-- The zero value of `core.Result` (`var res Result`). -/
def Result.empty : Result :=
  { RootsProcessed := 0, VisitedNodes := 0, CopiedDecl := 0, CopiedXML := 0,
    UnresolvedUnique := 0, Unresolved := [], Warnings := [] }

/-- The type `core.node`. -/
structure node where
  Bucket : String
  Name : String
  Depth : Int
  deriving DecidableEq, Repr

/-- The type `core.resolved`. -/
structure resolved where
  Bucket : String
  Resource : Resource
  deriving DecidableEq, Repr

/-- The type `map[string]map[string]index.Resource`. -/
abbrev ByBucket := List (String × Index)

/-- The map read `byBucket[bucket][name]`; a missing bucket reads as an empty index. -/
def lookup2 (byBucket : ByBucket) (bucket name : String) : Option Resource :=
  match byBucket.lookup bucket with
  | none => none
  | some idx => idx.lookup name

/-- The visited / copied key `n.Bucket + "::" + n.Name`. -/
def nodeKey (bucket name : String) : String := bucket ++ "::" ++ name

/-! ## `internal/core/core.go`: entry resolution -/

/-- A model of `listBuckets`. -/
def listBuckets (w : World) : Option (List String) :=
  match w.readDir with
  | none => none
  | some ents => some ((ents.filter (fun e => e.2)).map (fun e => e.1))

/-- A model of `canonicalFromXML(ExportRoot/bucket/rel)`; `none` stands for an error. -/
def canonicalFromXML (w : World) (bucket rel : String) : Option String :=
  match w.readFile bucket rel with
  | none => none
  | some data =>
    match w.xmlDoc data with
    | none => none
    | some doc =>
      if doc.root.tag ≠ "ResourceInfo" then none
      else if trimSpace (attrName "" doc.root.attrs) = "" then none
      else some (attrName "" doc.root.attrs)

/-- The assignment `byBucket[bucket][name] = r` (the bucket has an index). -/
def insertResource (byBucket : ByBucket) (bucket name : String) (r : Resource) : ByBucket :=
  byBucket.map (fun e => if e.1 = bucket then (e.1, (name, r) :: e.2) else e)

/-- The callback that `resolveEntry` passes to `filepath.WalkDir` in canonical-name mode,
acting on the roots found so far and on `byBucket`. -/
def entryVisit (w : World) (entry bucket : String) (acc : List node × ByBucket) (e : WalkEntry) :
    List node × ByBucket :=
  if e.walkErr || e.isDir || !hasSuffix (relPath e) ".decl.xml" then acc
  else
    match canonicalFromXML w bucket (relPath e) with
    | none => acc
    | some name =>
      let roots := if name = entry then acc.1 ++ [{ Bucket := bucket, Name := name, Depth := 0 }]
        else acc.1
      let byBucket :=
        match lookup2 acc.2 bucket name with
        | some _ => acc.2
        | none => insertResource acc.2 bucket name
            { Name := name, RelDeclPath := trimSuffix (basePath e) ".xml", RelXMLPath := basePath e }
      (roots, byBucket)

/-- The loop over the buckets of `resolveEntry` in canonical-name mode. -/
def entryScan (w : World) (entry : String) (buckets : List String) (byBucket : ByBucket) :
    List node × ByBucket :=
  buckets.foldl (fun acc b => (w.walkDir b).foldl (entryVisit w entry b) acc) ([], byBucket)

/-- The loop over the buckets of `resolveEntry` in exported-filename mode. The sidecar path is
`filepath.Join(ExportRoot, b, entry) + ".xml"`, read here as `entry ++ ".xml"` in bucket `b`
(for the entries `.` and `..`, which `Join` cleans away, the oracle at that address stands
for the path the code builds). -/
def entryFiles (w : World) (entry : String) : List String → List node → Except RunError (List node)
  | [], roots => .ok roots
  | b :: bs, roots =>
    if !w.stat b entry then entryFiles w entry bs roots
    else
      match canonicalFromXML w b (entry ++ ".xml") with
      | none => .error (.entryXmlUnreadable b (entry ++ ".xml"))
      | some canon => entryFiles w entry bs (roots ++ [{ Bucket := b, Name := canon, Depth := 0 }])

/-- A model of `resolveEntry`: roots, warnings, and `byBucket` as the call leaves it. -/
def resolveEntry (w : World) (buckets : List String) (byBucket : ByBucket) (entry0 : String) :
    Except RunError (List node × List Warning × ByBucket) :=
  let entry := trimSpace entry0
  if containsSlash entry then
    let found := entryScan w entry buckets byBucket
    if found.1.length = 0 then .error (.entryNotFound entry)
    else if found.1.length > 1 then .ok (found.1, [.entryMultiple entry], found.2)
    else .ok (found.1, [], found.2)
  else
    match entryFiles w entry buckets [] with
    | .error e => .error e
    | .ok roots =>
      if roots.length = 0 then .error (.entryFileNotFound entry)
      else if roots.length > 1 then .ok (roots, [.entryFileMultiple entry], byBucket)
      else .ok (roots, [], byBucket)

/-! ## `internal/core/core.go`: traversal -/

/-- A model of `resolveTokenAcrossBuckets`: the chosen match and the warning, if any. -/
def resolveTokenAcrossBuckets (buckets : List String) (byBucket : ByBucket) (token : String) :
    Option resolved × Option Warning :=
  match buckets.filterMap (fun b => (lookup2 byBucket b token).map (fun r => resolved.mk b r)) with
  | [] => (none, none)
  | [f] => (some f, none)
  | f :: _ :: _ => (some f, some (.ambiguous token f.Bucket))

/-- A model of `copyOne`: the decl file is copied first, then the sidecar. -/
def copyOne (w : World) (bucket : String) (r : Resource) : Option RunError :=
  match CopyFile w bucket r.RelDeclPath with
  | some e => some (.copyFailed bucket r.RelDeclPath e)
  | none =>
    match CopyFile w bucket r.RelXMLPath with
    | some e => some (.copyFailed bucket r.RelXMLPath e)
    | none => none

/-- The run-scoped state of the traversal. `copyCalls` and `expanded` are not variables of
the program: they record the successful calls of `copyOne` (bucket, name, resource) and the
nodes whose decl was read and tokenised (bucket, name, tokens), latest first. -/
structure TravState where
  visited : List String
  unresolvedSet : List String
  copied : List String
  warnings : List Warning
  copyCalls : List (String × String × Resource)
  expanded : List (String × String × List String)
  deriving DecidableEq, Repr

/-- The assignment `set[k] = struct{}{}`. -/
def setInsert (k : String) (s : List String) : List String :=
  if k ∈ s then s else k :: s

/-- The loop `for _, tok := range toks` of `Run`, acting on the unresolved set, the warnings
and the stack (top first). -/
def pushTokens (buckets : List String) (byBucket : ByBucket) (depth : Int) :
    List String → List String × List Warning × List node → List String × List Warning × List node
  | [], acc => acc
  | tok :: toks, (unres, warns, stack) =>
    let rw := resolveTokenAcrossBuckets buckets byBucket tok
    let warns1 := match rw.2 with
      | some wn => warns ++ [wn]
      | none => warns
    match rw.1 with
    | none => pushTokens buckets byBucket depth toks (setInsert tok unres, warns1, stack)
    | some rr =>
      pushTokens buckets byBucket depth toks
        (unres, warns1, { Bucket := rr.Bucket, Name := rr.Resource.Name, Depth := depth + 1 } :: stack)

/-- Lines 124 to 147 of `Run`: read the decl of the node and push its resolved tokens. -/
def expandNode (w : World) (buckets : List String) (byBucket : ByBucket) (st : TravState)
    (n : node) (r : Resource) (stack : List node) : TravState × List node :=
  match w.readFile n.Bucket r.RelDeclPath with
  | none =>
    ({ st with warnings := st.warnings ++ [.readFailed n.Bucket r.RelDeclPath] }, stack)
  | some data =>
    let acc := pushTokens buckets byBucket n.Depth (Extract data)
      (st.unresolvedSet, st.warnings, stack)
    ({ st with unresolvedSet := acc.1, warnings := acc.2.1,
               expanded := (n.Bucket, n.Name, Extract data) :: st.expanded }, acc.2.2)

/-- How one iteration of the work-stack loop ends: it goes on with a state and a stack, or
`Run` returns an error. -/
inductive BodyOut
  | next (st : TravState) (stack : List node)
  | fail (st : TravState) (err : RunError)
  deriving DecidableEq, Repr

/-- The body of the loop `for len(stack) > 0` of `Run` (lines 96 to 147), for the popped
node `n` and the rest of the stack. -/
def loopBody (w : World) (maxDepth : Int) (buckets : List String) (byBucket : ByBucket)
    (st : TravState) (n : node) (stack : List node) : BodyOut :=
  if nodeKey n.Bucket n.Name ∈ st.visited then .next st stack
  else if n.Depth > maxDepth then
    .next { st with visited := nodeKey n.Bucket n.Name :: st.visited,
                    warnings := st.warnings ++ [.depthLimit maxDepth n.Bucket n.Name] } stack
  else
    match lookup2 byBucket n.Bucket n.Name with
    | none =>
      .next { st with visited := nodeKey n.Bucket n.Name :: st.visited,
                      unresolvedSet := setInsert n.Name st.unresolvedSet } stack
    | some r =>
      if nodeKey n.Bucket n.Name ∈ st.copied then
        let out := expandNode w buckets byBucket
          { st with visited := nodeKey n.Bucket n.Name :: st.visited } n r stack
        .next out.1 out.2
      else
        match copyOne w n.Bucket r with
        | some e => .fail { st with visited := nodeKey n.Bucket n.Name :: st.visited } e
        | none =>
          let out := expandNode w buckets byBucket
            { st with visited := nodeKey n.Bucket n.Name :: st.visited,
                      copied := nodeKey n.Bucket n.Name :: st.copied,
                      copyCalls := (n.Bucket, n.Name, r) :: st.copyCalls } n r stack
          .next out.1 out.2

/-- How the work-stack loop ends. -/
inductive LoopOut
  | done (st : TravState)
  | failed (st : TravState) (err : RunError)
  | outOfFuel
  deriving DecidableEq, Repr

/-- The loop `for len(stack) > 0` of `Run`, with a step budget; the stack has its top first. -/
def loop (w : World) (maxDepth : Int) (buckets : List String) (byBucket : ByBucket) :
    Nat → TravState → List node → LoopOut
  | _, st, [] => .done st
  | 0, _, _ :: _ => .outOfFuel
  | fuel + 1, st, n :: stack =>
    match loopBody w maxDepth buckets byBucket st n stack with
    | .fail st1 e => .failed st1 e
    | .next st1 stack1 => loop w maxDepth buckets byBucket fuel st1 stack1

/-- The loop `for _, root := range roots` of `Run`: one work stack per root. -/
def forRoots (w : World) (maxDepth : Int) (buckets : List String) (byBucket : ByBucket)
    (fuel : Nat) : TravState → List node → LoopOut
  | st, [] => .done st
  | st, root :: roots =>
    match loop w maxDepth buckets byBucket fuel st
        [{ Bucket := root.Bucket, Name := root.Name, Depth := 0 }] with
    | .done st1 => forRoots w maxDepth buckets byBucket fuel st1 roots
    | out => out

/-- The number of tokens of the decl of a resource (none when it cannot be read). -/
def tokenCount (w : World) (bucket : String) (r : Resource) : Nat :=
  match w.readFile bucket r.RelDeclPath with
  | none => 0
  | some data => (Extract data).length

/-- All bindings of `byBucket` as (bucket, name, resource). -/
def flatIndex : ByBucket → List (String × String × Resource)
  | [] => []
  | e :: rest => e.2.map (fun kr => (e.1, kr.1, kr.2)) ++ flatIndex rest

/-- A step budget for one work stack: one pop for the root and one for every token of every
indexed resource. -/
def fuelBound (w : World) (byBucket : ByBucket) : Nat :=
  1 + ((flatIndex byBucket).map (fun e => tokenCount w e.1 e.2.2)).sum

/-- What `Run` has computed before the traversal starts. -/
structure Prepared where
  maxDepth : Int
  buckets : List String
  byBucket : ByBucket
  roots : List node
  warns : List Warning
  deriving DecidableEq, Repr

/-- The loop `for _, b := range buckets` of `Run` that builds `byBucket`. -/
def loadAll (w : World) : List String → Except RunError ByBucket
  | [] => .ok []
  | b :: bs =>
    match Load w b with
    | .error p => .error (.loadIndex b p)
    | .ok idx =>
      match loadAll w bs with
      | .error e => .error e
      | .ok rest => .ok ((b, idx) :: rest)

/-- The part of `Run` before the traversal (lines 50 to 86). -/
def prepare (w : World) (opts : Options) : Except RunError Prepared :=
  if trimSpace opts.ExportRoot = "" then .error .exportRootRequired
  else if trimSpace opts.Entry = "" then .error .entryRequired
  else if trimSpace opts.OutDir = "" then .error .outDirRequired
  else
    let maxDepth := if opts.MaxDepth ≤ 0 then 10 else opts.MaxDepth
    match listBuckets w with
    | none => .error .listBuckets
    | some buckets0 =>
      if buckets0.length = 0 then .error .noBuckets
      else
        let buckets := sortStrings buckets0
        match loadAll w buckets with
        | .error e => .error e
        | .ok byBucket0 =>
          match resolveEntry w buckets byBucket0 opts.Entry with
          | .error e => .error e
          | .ok (roots, warns, byBucket) =>
            .ok { maxDepth := maxDepth, buckets := buckets, byBucket := byBucket,
                  roots := roots, warns := warns }

/-- The state in which the traversal starts. -/
def initState (warns : List Warning) : TravState :=
  { visited := [], unresolvedSet := [], copied := [], warnings := warns,
    copyCalls := [], expanded := [] }

/-- The traversal of `Run` (lines 88 to 149). -/
def traverse (w : World) (p : Prepared) : LoopOut :=
  forRoots w p.maxDepth p.buckets p.byBucket (fuelBound w p.byBucket) (initState p.warns) p.roots

/-- The `Result` of a completed traversal (lines 151 to 161). -/
def finish (p : Prepared) (st : TravState) : Result :=
  { RootsProcessed := p.roots.length,
    VisitedNodes := st.visited.length,
    CopiedDecl := st.copied.length,
    CopiedXML := st.copied.length,
    UnresolvedUnique := st.unresolvedSet.length,
    Unresolved := sortStrings st.unresolvedSet,
    Warnings := st.warnings }

/-- A model of `core.Run`: the `Result` and the error (`none` for `nil`). -/
def Run (w : World) (opts : Options) : Result × Option RunError :=
  match prepare w opts with
  | .error e => (Result.empty, some e)
  | .ok p =>
    match traverse w p with
    | .done st => (finish p st, none)
    | .failed st e =>
      ({ Result.empty with RootsProcessed := p.roots.length, Warnings := st.warnings }, some e)
    | .outOfFuel => (Result.empty, some .fuelExhausted)

/-! ## Notions used in the statements -/

/-- The nodes that the token loop pushes for the tokens `toks` of a node of depth `depth`,
in token order. -/
def childNodes (buckets : List String) (byBucket : ByBucket) (depth : Int)
    (toks : List String) : List node :=
  toks.filterMap (fun tok =>
    (resolveTokenAcrossBuckets buckets byBucket tok).1.map
      (fun rr => { Bucket := rr.Bucket, Name := rr.Resource.Name, Depth := depth + 1 }))

/-- The state in which the loop ended, if it ended. -/
def LoopOut.finalState : LoopOut → Option TravState
  | .done st => some st
  | .failed st _ => some st
  | .outOfFuel => none

/-- The (bucket, name) pairs of the successful `copyOne` calls of a state. -/
def copiedPairs (st : TravState) : List (String × String) :=
  st.copyCalls.map (fun c => (c.1, c.2.1))

/-- The (bucket, name) pairs of the nodes a state records as expanded. -/
def expandedPairs (st : TravState) : List (String × String) :=
  st.expanded.map (fun c => (c.1, c.2.1))

/-- The unvisited bindings of the index weigh their token counts: together with the height
of the stack this is what every iteration of the loop decreases. -/
def pendingTokens (w : World) (byBucket : ByBucket) (visited : List String) : Nat :=
  (((flatIndex byBucket).filter (fun e => decide (nodeKey e.1 e.2.1 ∉ visited))).map
    (fun e => tokenCount w e.1 e.2.2)).sum

/-- The bookkeeping invariant of the traversal state. -/
structure Book (st : TravState) : Prop where
  visNodup : st.visited.Nodup
  copiedSub : st.copied.Sublist st.visited
  copyKeys : st.copyCalls.map (fun c => nodeKey c.1 c.2.1) = st.copied
  expSub : (st.expanded.map (fun c => nodeKey c.1 c.2.1)).Sublist st.visited
  unresNodup : st.unresolvedSet.Nodup

/-! ## Export trees for the concrete scenarios -/

/-- One asset of a test tree: the files `bucket/file.decl` (absent when `decl` is `none`) and
`bucket/file.decl.xml`, the latter written as the tests of `core_test.go` write it. -/
structure Asset where
  bucket : String
  file : String
  name : String
  classname : String
  decl : Option String
  deriving DecidableEq, Repr

/-- The sidecar text the tests write for an asset. -/
def Asset.sidecar (a : Asset) : String :=
  "<ResourceInfo name=\"" ++ a.name ++ "\" classname=\"" ++ a.classname ++
    "\" isCompressed=\"true\" />"

/-- The document `encoding/xml` reads from the sidecar text of an asset: one root element
`ResourceInfo` with three attributes and no child. -/
def Asset.doc (a : Asset) : XmlDoc :=
  { root := { tag := "ResourceInfo",
              attrs := [("name", a.name), ("classname", a.classname), ("isCompressed", "true")] },
    children := [] }

/-- The content of `bucket/rel` in a test tree. -/
def treeFile (assets : List Asset) (bucket rel : String) : Option String :=
  match assets.find? (fun a => a.bucket == bucket && (rel == a.file ++ ".decl.xml"
      || (rel == a.file ++ ".decl" && a.decl.isSome))) with
  | none => none
  | some a => if rel = a.file ++ ".decl.xml" then some a.sidecar else a.decl

/-- The walk of one bucket of a test tree: the bucket directory, then the files. -/
def treeWalk (assets : List Asset) (bucket : String) : List WalkEntry :=
  { rel := [], isDir := true, walkErr := false } ::
    ((assets.filter (fun a => a.bucket == bucket)).map (fun a =>
      (if a.decl.isSome then [{ rel := [a.file ++ ".decl"], isDir := false, walkErr := false }]
        else []) ++
      [({ rel := [a.file ++ ".decl.xml"], isDir := false, walkErr := false } : WalkEntry)])).flatten

/-- The world of a test tree with the given bucket directories and assets, and a writable
output directory: a file can be read, opened and found exactly when it exists. -/
def treeWorld (buckets : List String) (assets : List Asset) : World where
  readDir := some (buckets.map (fun b => (b, true)))
  walkDir := treeWalk assets
  readFile := treeFile assets
  stat := fun b rel => (treeFile assets b rel).isSome
  openSrc := fun b rel => (treeFile assets b rel).isSome
  mkdirAll := fun _ _ => true
  create := fun _ _ => true
  ioCopy := fun _ _ => true
  sync := fun _ _ => true
  xmlDoc := fun s => (assets.find? (fun a => a.sidecar == s)).map Asset.doc

/-- The tree of `TestRun_CanonicalEntry_CopiesTransitiveAcrossBuckets_CollectsUnresolved`. -/
def scenario1Assets : List Asset :=
  [ { bucket := "game1", file := "A", name := "models/a/a.asset", classname := "X",
      decl := some "ref components/b/b.rulehandler\nref sounds/ui/click.wav\n" },
    { bucket := "game2", file := "B", name := "components/b/b.rulehandler", classname := "Y",
      decl := some "ref models/c/c.png" },
    { bucket := "game2", file := "C", name := "models/c/c.png", classname := "Z",
      decl := some "// no refs" } ]

/-- The world of scenario 1. -/
def scenario1World : World := treeWorld ["game1", "game2"] scenario1Assets

/-- The options of scenario 1. -/
def scenario1Opts : Options :=
  { ExportRoot := "Export", Entry := "models/a/a.asset", OutDir := "out", MaxDepth := 10 }

/-- What `Run` has prepared in scenario 1 when the traversal starts. -/
def scenario1Prepared : Prepared :=
  { maxDepth := 10, buckets := ["game1", "game2"],
    byBucket :=
      [("game1", [("models/a/a.asset",
          { Name := "models/a/a.asset", RelDeclPath := "A.decl", RelXMLPath := "A.decl.xml" })]),
       ("game2", [("models/c/c.png",
          { Name := "models/c/c.png", RelDeclPath := "C.decl", RelXMLPath := "C.decl.xml" }),
         ("components/b/b.rulehandler",
          { Name := "components/b/b.rulehandler", RelDeclPath := "B.decl",
            RelXMLPath := "B.decl.xml" })])],
    roots := [{ Bucket := "game1", Name := "models/a/a.asset", Depth := 0 }],
    warns := [] }

/-- A tree with a reference cycle and a diamond: `x/a` references `x/b` and `x/c`, both
reference `x/d`, and `x/d` references `x/a`. -/
def cycleAssets : List Asset :=
  [ { bucket := "g", file := "A", name := "x/a", classname := "X", decl := some "x/b x/c" },
    { bucket := "g", file := "B", name := "x/b", classname := "X", decl := some "x/d" },
    { bucket := "g", file := "C", name := "x/c", classname := "X", decl := some "x/d" },
    { bucket := "g", file := "D", name := "x/d", classname := "X", decl := some "x/a" } ]

/-- The world of the cyclic tree. -/
def cycleWorld : World := treeWorld ["g"] cycleAssets

/-- The options of the run on the cyclic tree. -/
def cycleOpts : Options :=
  { ExportRoot := "Export", Entry := "x/a", OutDir := "out", MaxDepth := 10 }

/-- The expansion records of a state are truthful: each names an indexed node whose decl was
read, with the tokens of that decl, and every token of it that resolves in no bucket is in
the unresolved set. -/
def ExpandedOK (w : World) (buckets : List String) (byBucket : ByBucket) (st : TravState) :
    Prop :=
  ∀ e ∈ st.expanded, ∃ r data, lookup2 byBucket e.1 e.2.1 = some r
    ∧ w.readFile e.1 r.RelDeclPath = some data ∧ e.2.2 = Extract data
    ∧ ∀ tok ∈ e.2.2, (resolveTokenAcrossBuckets buckets byBucket tok).1 = none
        → tok ∈ st.unresolvedSet

/-- The state in which the traversal of `Run w opts` ended: `none` when `Run` returned before
the traversal. -/
def runFinal (w : World) (opts : Options) : Option TravState :=
  match prepare w opts with
  | .error _ => none
  | .ok p => (traverse w p).finalState

/-- What `Run` has prepared on the cyclic tree when the traversal starts. -/
def cyclePrepared : Prepared :=
  { maxDepth := 10, buckets := ["g"],
    byBucket :=
      [("g", [("x/d", { Name := "x/d", RelDeclPath := "D.decl", RelXMLPath := "D.decl.xml" }),
              ("x/c", { Name := "x/c", RelDeclPath := "C.decl", RelXMLPath := "C.decl.xml" }),
              ("x/b", { Name := "x/b", RelDeclPath := "B.decl", RelXMLPath := "B.decl.xml" }),
              ("x/a", { Name := "x/a", RelDeclPath := "A.decl", RelXMLPath := "A.decl.xml" })])],
    roots := [{ Bucket := "g", Name := "x/a", Depth := 0 }],
    warns := [] }

/-- The state in which the traversal of the cyclic tree ends. -/
def cycleFinal : TravState :=
  { visited := ["g::x/b", "g::x/d", "g::x/c", "g::x/a"],
    unresolvedSet := [],
    copied := ["g::x/b", "g::x/d", "g::x/c", "g::x/a"],
    warnings := [],
    copyCalls :=
      [("g", "x/b", { Name := "x/b", RelDeclPath := "B.decl", RelXMLPath := "B.decl.xml" }),
       ("g", "x/d", { Name := "x/d", RelDeclPath := "D.decl", RelXMLPath := "D.decl.xml" }),
       ("g", "x/c", { Name := "x/c", RelDeclPath := "C.decl", RelXMLPath := "C.decl.xml" }),
       ("g", "x/a", { Name := "x/a", RelDeclPath := "A.decl", RelXMLPath := "A.decl.xml" })],
    expanded := [("g", "x/b", ["x/d"]), ("g", "x/d", ["x/a"]), ("g", "x/c", ["x/d"]),
                 ("g", "x/a", ["x/b", "x/c"])] }

/-- The state in which the traversal of scenario 1 ends. -/
def scenario1Final : TravState :=
  { visited := ["game2::models/c/c.png", "game2::components/b/b.rulehandler",
                "game1::models/a/a.asset"],
    unresolvedSet := ["//", "sounds/ui/click.wav"],
    copied := ["game2::models/c/c.png", "game2::components/b/b.rulehandler",
               "game1::models/a/a.asset"],
    warnings := [],
    copyCalls :=
      [("game2", "models/c/c.png",
          { Name := "models/c/c.png", RelDeclPath := "C.decl", RelXMLPath := "C.decl.xml" }),
       ("game2", "components/b/b.rulehandler",
          { Name := "components/b/b.rulehandler", RelDeclPath := "B.decl",
            RelXMLPath := "B.decl.xml" }),
       ("game1", "models/a/a.asset",
          { Name := "models/a/a.asset", RelDeclPath := "A.decl", RelXMLPath := "A.decl.xml" })],
    expanded := [("game2", "models/c/c.png", ["//"]),
                 ("game2", "components/b/b.rulehandler", ["models/c/c.png"]),
                 ("game1", "models/a/a.asset",
                    ["components/b/b.rulehandler", "sounds/ui/click.wav"])] }

/-! ## The reference graph -/

/-- The (bucket, name) pairs that the traversal pushes when it expands the pair `x`: none
when `x` is not indexed or its decl cannot be read, else the resolved tokens of its decl. -/
def childPairs (w : World) (buckets : List String) (byBucket : ByBucket)
    (x : String × String) : List (String × String) :=
  match lookup2 byBucket x.1 x.2 with
  | none => []
  | some r =>
    match w.readFile x.1 r.RelDeclPath with
    | none => []
    | some data =>
      (childNodes buckets byBucket 0 (Extract data)).map (fun c => (c.Bucket, c.Name))

/-- The pairs reachable from the root nodes by a reference path of at most `k` edges
(with repetitions). -/
def reachWithin (w : World) (p : Prepared) : Nat → List (String × String)
  | 0 => p.roots.map (fun n => (n.Bucket, n.Name))
  | k + 1 => reachWithin w p k ++
      ((reachWithin w p k).map (childPairs w p.buckets p.byBucket)).flatten

/-- The pair `x` is reachable from the root nodes along references. -/
def Reach (w : World) (p : Prepared) (x : String × String) : Prop :=
  ∃ k, x ∈ reachWithin w p k

/-- A tree in which two nodes share a visited key: bucket `a` holds the resource `b::c/d`,
whose decl references `c/d`, and bucket `a::b` holds the resource `c/d`. -/
def collisionAssets : List Asset :=
  [ { bucket := "a", file := "E", name := "b::c/d", classname := "X", decl := some "ref c/d" },
    { bucket := "a::b", file := "F", name := "c/d", classname := "X", decl := some "end" } ]

/-- The world of the tree with the shared key. -/
def collisionWorld : World := treeWorld ["a", "a::b"] collisionAssets

/-- The options of the run on the tree with the shared key. -/
def collisionOpts : Options :=
  { ExportRoot := "Export", Entry := "b::c/d", OutDir := "out", MaxDepth := 10 }

/-- What `Run` has prepared on the tree with the shared key. -/
def collisionPrepared : Prepared :=
  { maxDepth := 10, buckets := ["a", "a::b"],
    byBucket :=
      [("a", [("b::c/d", { Name := "b::c/d", RelDeclPath := "E.decl", RelXMLPath := "E.decl.xml" })]),
       ("a::b", [("c/d", { Name := "c/d", RelDeclPath := "F.decl", RelXMLPath := "F.decl.xml" })])],
    roots := [{ Bucket := "a", Name := "b::c/d", Depth := 0 }],
    warns := [] }

/-- The state in which the traversal of the tree with the shared key ends. -/
def collisionFinal : TravState :=
  { visited := ["a::b::c/d"],
    unresolvedSet := [],
    copied := ["a::b::c/d"],
    warnings := [],
    copyCalls :=
      [("a", "b::c/d", { Name := "b::c/d", RelDeclPath := "E.decl", RelXMLPath := "E.decl.xml" })],
    expanded := [("a", "b::c/d", ["c/d"])] }

/-- A tree in which the entry is in two buckets and the decl file of the second is absent:
only its sidecar exists. -/
def missingDeclAssets : List Asset :=
  [ { bucket := "game1", file := "A", name := "models/a/a.asset", classname := "X",
      decl := some "end" },
    { bucket := "game2", file := "A", name := "models/a/a.asset", classname := "X",
      decl := none } ]

/-- The world of the tree with the absent decl file. -/
def missingDeclWorld : World := treeWorld ["game1", "game2"] missingDeclAssets

/-- A tree with the buckets `a` and `a::b` in which no two nodes share a visited key: `a` holds
`x/e`, whose decl references `c/d`, and `a::b` holds `c/d`. -/
def colonAssets : List Asset :=
  [ { bucket := "a", file := "E", name := "x/e", classname := "X", decl := some "ref c/d" },
    { bucket := "a::b", file := "F", name := "c/d", classname := "X", decl := some "end" } ]

/-- The world of the tree with the buckets `a` and `a::b`. -/
def colonWorld : World := treeWorld ["a", "a::b"] colonAssets

/-- The options of the run on `colonWorld`. -/
def colonOpts : Options :=
  { ExportRoot := "Export", Entry := "x/e", OutDir := "out", MaxDepth := 10 }

/-- What `Run` has prepared on `colonWorld` when the traversal starts. -/
def colonPrepared : Prepared :=
  { maxDepth := 10, buckets := ["a", "a::b"],
    byBucket :=
      [("a", [("x/e", { Name := "x/e", RelDeclPath := "E.decl", RelXMLPath := "E.decl.xml" })]),
       ("a::b", [("c/d", { Name := "c/d", RelDeclPath := "F.decl", RelXMLPath := "F.decl.xml" })])],
    roots := [{ Bucket := "a", Name := "x/e", Depth := 0 }],
    warns := [] }

/-- The state in which the traversal on `colonWorld` ends. -/
def colonFinal : TravState :=
  { visited := ["a::b::c/d", "a::x/e"], unresolvedSet := [],
    copied := ["a::b::c/d", "a::x/e"], warnings := [],
    copyCalls :=
      [("a::b", "c/d", { Name := "c/d", RelDeclPath := "F.decl", RelXMLPath := "F.decl.xml" }),
       ("a", "x/e", { Name := "x/e", RelDeclPath := "E.decl", RelXMLPath := "E.decl.xml" })],
    expanded := [("a::b", "c/d", []), ("a", "x/e", ["c/d"])] }

/-- No two nodes with buckets of the list share the visited key `bucket + "::" + name`. -/
def KeysDistinct (buckets : List String) : Prop :=
  ∀ b ∈ buckets, ∀ b1 ∈ buckets, ∀ n n1 : String,
    nodeKey b n = nodeKey b1 n1 → b = b1 ∧ n = n1

/-- No two nodes of the reference graph, the pairs reachable from the roots, share the
visited key `bucket + "::" + name`. -/
def NodesDistinct (w : World) (p : Prepared) : Prop :=
  ∀ x y, Reach w p x → Reach w p y → nodeKey x.1 x.2 = nodeKey y.1 y.2 → x = y

/-- The warnings hold no `depth limit exceeded` warning. -/
def noDepthWarning (ws : List Warning) : Prop := ∀ x ∈ ws, x.isDepthLimit = false

instance (ws : List Warning) : Decidable (noDepthWarning ws) :=
  inferInstanceAs (Decidable (∀ x ∈ ws, x.isDepthLimit = false))

/-- The invariant of the traversal that relates the state and the stack to the reference
graph, as long as no node has been pruned. -/
structure Closure (w : World) (p : Prepared) (st : TravState) (stack : List node) : Prop where
  stackReach : ∀ n ∈ stack, Reach w p (n.Bucket, n.Name)
  visitedReach : ∀ k ∈ st.visited, ∃ x, Reach w p x ∧ nodeKey x.1 x.2 = k
  closed : ∀ x, Reach w p x → nodeKey x.1 x.2 ∈ st.visited →
    ∀ y ∈ childPairs w p.buckets p.byBucket x,
      nodeKey y.1 y.2 ∈ st.visited ∨ ∃ m ∈ stack, (m.Bucket, m.Name) = y
  copiedAll : ∀ x, Reach w p x → nodeKey x.1 x.2 ∈ st.visited →
    (lookup2 p.byBucket x.1 x.2).isSome = true → x ∈ copiedPairs st
  copiedSound : ∀ c ∈ st.copyCalls,
    Reach w p (c.1, c.2.1) ∧ lookup2 p.byBucket c.1 c.2.1 = some c.2.2

/-- A chain of three resources in one bucket, `c/n0` referencing `c/n1` referencing `c/n2`. -/
def chain3Assets : List Asset :=
  [ { bucket := "g", file := "N0", name := "c/n0", classname := "X", decl := some "ref c/n1" },
    { bucket := "g", file := "N1", name := "c/n1", classname := "X", decl := some "ref c/n2" },
    { bucket := "g", file := "N2", name := "c/n2", classname := "X", decl := some "end" } ]

/-- The world of the chain of three. -/
def chain3World : World := treeWorld ["g"] chain3Assets

/-- The options of the run on the chain of three: entry `c/n0`, max depth 1. -/
def chain3Opts : Options :=
  { ExportRoot := "Export", Entry := "c/n0", OutDir := "out", MaxDepth := 1 }

/-- What `Run` has prepared on the chain of three. -/
def chain3Prepared : Prepared :=
  { maxDepth := 1, buckets := ["g"],
    byBucket :=
      [("g", [("c/n2", { Name := "c/n2", RelDeclPath := "N2.decl", RelXMLPath := "N2.decl.xml" }),
              ("c/n1", { Name := "c/n1", RelDeclPath := "N1.decl", RelXMLPath := "N1.decl.xml" }),
              ("c/n0", { Name := "c/n0", RelDeclPath := "N0.decl", RelXMLPath := "N0.decl.xml" })])],
    roots := [{ Bucket := "g", Name := "c/n0", Depth := 0 }],
    warns := [] }

/-- Every resource of the index is bound to its own name. -/
def IndexNamed (byBucket : ByBucket) : Prop :=
  ∀ e ∈ byBucket, ∀ kr ∈ e.2, kr.2.Name = kr.1

/-- The state of the traversal of a chain `r 0 -> r 1 -> ...` of bucket `b` after the first
`k` resources have been copied and expanded. -/
def chainState (b : String) (r : Nat → String) (res : Nat → Resource)
    (warns : List Warning) : Nat → TravState
  | 0 => initState warns
  | k + 1 =>
    { visited := nodeKey b (r k) :: (chainState b r res warns k).visited,
      unresolvedSet := [],
      copied := nodeKey b (r k) :: (chainState b r res warns k).copied,
      warnings := warns,
      copyCalls := (b, r k, res k) :: (chainState b r res warns k).copyCalls,
      expanded := (b, r k, [r (k + 1)]) :: (chainState b r res warns k).expanded }

/-- The state in which the traversal of the chain ends under max depth `d`: the resources
`r 0` to `r d` are copied and expanded, `r (d + 1)` is visited and pruned. -/
def chainFinal (b : String) (r : Nat → String) (res : Nat → Resource)
    (warns : List Warning) (d : Nat) : TravState :=
  { chainState b r res warns (d + 1) with
    visited := nodeKey b (r (d + 1)) :: (chainState b r res warns (d + 1)).visited,
    warnings := warns ++ [.depthLimit d b (r (d + 1))] }

/-- The names of the chain of `TestRun_DepthLimitWarns`: `models/chain/nodeA`, `nodeB`, ... -/
def chain12Name (i : Nat) : String :=
  "models/chain/node" ++ String.singleton (Char.ofNat (65 + i))

/-- The exported file stems of the chain of `TestRun_DepthLimitWarns`: `A`, `B`, ... -/
def chain12File (i : Nat) : String := String.singleton (Char.ofNat (65 + i))

/-- The resources of the chain of `TestRun_DepthLimitWarns` as `resolveEntry` indexes them. -/
def chain12Res (i : Nat) : Resource :=
  { Name := chain12Name i, RelDeclPath := chain12File i ++ ".decl",
    RelXMLPath := chain12File i ++ ".decl.xml" }

/-- The tree of `TestRun_DepthLimitWarns`: twelve resources, each referencing the next. -/
def chain12Assets : List Asset :=
  (List.range 12).map (fun i =>
    { bucket := "game1", file := chain12File i, name := chain12Name i, classname := "X",
      decl := some (if i < 11 then "ref " ++ chain12Name (i + 1) else "// end") })

/-- The world of `TestRun_DepthLimitWarns`. -/
def chain12World : World := treeWorld ["game1"] chain12Assets

/-- The options of `TestRun_DepthLimitWarns`. -/
def chain12Opts : Options :=
  { ExportRoot := "Export", Entry := chain12Name 0, OutDir := "out", MaxDepth := 10 }

/-- What `Run` has prepared in `TestRun_DepthLimitWarns`. -/
def chain12Prepared : Prepared :=
  { maxDepth := 10, buckets := ["game1"],
    byBucket := [("game1", ((List.range 12).map (fun i => (chain12Name i, chain12Res i))).reverse)],
    roots := [{ Bucket := "game1", Name := chain12Name 0, Depth := 0 }],
    warns := [] }

/-! ## Spec 4.3 in its own words -/

/-- The maximal runs of token characters of a text: the pieces between the characters that
are not token characters, the empty pieces left out. -/
def maximalRuns (cs : List Char) : List (List Char) :=
  (cs.splitOnP (fun c => !isTokenChar c)).filter (fun r => !r.isEmpty)

/-- The extraction as spec 4.3 words it: the maximal runs of token characters in text order,
those with a `/` kept, each stripped of the surrounding cutset characters, the empty results
discarded. -/
def ExtractSpec (text : String) : List String :=
  ((((maximalRuns text.data).filter (fun r => r.contains '/')).map
      (trimChars isCutChar)).filter (fun r => !r.isEmpty)).map String.mk

/-- The string `strings.Join(toks, sep)` for a separator of one character. -/
def joinTokens (sep : Char) (toks : List String) : String :=
  ⟨List.intercalate [sep] (toks.map String.data)⟩

/-! ## Notions for the statements about indexing -/

/-- The name under which `index.Load` would index a walk entry: `none` for the entries its
callback skips (walk error, directory, other suffix, unreadable, unparsable, no name). -/
def loadName (w : World) (bucket : String) (e : WalkEntry) : Option String :=
  if e.walkErr || e.isDir then none
  else if !hasSuffix (relPath e) ".decl.xml" then none
  else
    match w.readFile bucket (relPath e) with
    | none => none
    | some data =>
      match w.xmlDoc data with
      | none => none
      | some doc => if wrapperName doc = "" then none else some (wrapperName doc)

/-- The test with which `index.Load` refuses a relative path: the string prefix `..`. -/
def refusedPath (e : WalkEntry) : Bool :=
  hasPrefix (relPath e) ".." || hasPrefix (trimSuffix (relPath e) ".xml") ".."

/-- The relative path of a walk entry escapes the bucket root: its first component is the
parent directory. -/
def escapesRoot (e : WalkEntry) : Bool := e.rel.head? == some ".."

/-- The sidecar text of the fixtures that `index.Load` can index: the element `ResourceInfo`
is a child of the root element. -/
def wrappedSidecar (name : String) : String :=
  "<Wrapper><ResourceInfo name=\"" ++ name ++ "\" /></Wrapper>"

/-- The document `encoding/xml` reads from `wrappedSidecar name`. -/
def wrappedDoc (name : String) : XmlDoc :=
  { root := { tag := "Wrapper", attrs := [] },
    children := [{ tag := "ResourceInfo", attrs := [("name", name)] }] }

/-- A bucket `game1` that holds, directly in the bucket directory, the files `..a.decl` and
`..a.decl.xml`; the sidecar names the resource `m/a`. -/
def dotNameWorld : World where
  readDir := some [("game1", true)]
  walkDir := fun b =>
    if b = "game1" then
      [{ rel := [], isDir := true, walkErr := false },
       { rel := ["..a.decl"], isDir := false, walkErr := false },
       { rel := ["..a.decl.xml"], isDir := false, walkErr := false }]
    else []
  readFile := fun b rel =>
    if b = "game1" ∧ rel = "..a.decl.xml" then some (wrappedSidecar "m/a")
    else if b = "game1" ∧ rel = "..a.decl" then some "end"
    else none
  stat := fun b rel => b = "game1" ∧ (rel = "..a.decl.xml" ∨ rel = "..a.decl")
  openSrc := fun b rel => b = "game1" ∧ (rel = "..a.decl.xml" ∨ rel = "..a.decl")
  mkdirAll := fun _ _ => true
  create := fun _ _ => true
  ioCopy := fun _ _ => true
  sync := fun _ _ => true
  xmlDoc := fun s => if s = wrappedSidecar "m/a" then some (wrappedDoc "m/a") else none

/-- A bucket `game1` whose one asset lies in the subdirectory `sub`: the files
`sub/A.decl` and `sub/A.decl.xml`, the sidecar written as the tests write it. -/
def nestedWorld : World where
  readDir := some [("game1", true)]
  walkDir := fun b =>
    if b = "game1" then
      [{ rel := [], isDir := true, walkErr := false },
       { rel := ["sub"], isDir := true, walkErr := false },
       { rel := ["sub", "A.decl"], isDir := false, walkErr := false },
       { rel := ["sub", "A.decl.xml"], isDir := false, walkErr := false }]
    else []
  readFile := fun b rel =>
    if b = "game1" ∧ rel = "sub/A.decl.xml" then
      some "<ResourceInfo name=\"models/a/a.asset\" classname=\"X\" isCompressed=\"true\" />"
    else if b = "game1" ∧ rel = "sub/A.decl" then some "end"
    else none
  stat := fun b rel => b = "game1" ∧ (rel = "sub/A.decl.xml" ∨ rel = "sub/A.decl" ∨ rel = "sub")
  openSrc := fun b rel => b = "game1" ∧ (rel = "sub/A.decl.xml" ∨ rel = "sub/A.decl")
  mkdirAll := fun _ _ => true
  create := fun _ _ => true
  ioCopy := fun _ _ => true
  sync := fun _ _ => true
  xmlDoc := fun s =>
    if s = "<ResourceInfo name=\"models/a/a.asset\" classname=\"X\" isCompressed=\"true\" />"
    then some { root := { tag := "ResourceInfo",
                          attrs := [("name", "models/a/a.asset"), ("classname", "X"),
                                    ("isCompressed", "true")] },
                children := [] }
    else none

/-! ## Notions for the statements about entry resolution -/

/-- The walk entry is a sidecar that `resolveEntry` reads in canonical-name mode and whose
canonical name is the entry. -/
def matchesEntry (w : World) (entry bucket : String) (e : WalkEntry) : Bool :=
  !(e.walkErr || e.isDir || !hasSuffix (relPath e) ".decl.xml")
    && (canonicalFromXML w bucket (relPath e) == some entry)

/-- The buckets that contain at least one sidecar with the canonical name `entry`. -/
def matchingBuckets (w : World) (entry : String) (buckets : List String) : List String :=
  buckets.filter (fun b => (w.walkDir b).any (matchesEntry w entry b))

/-- A tree whose one bucket holds two sidecars with the same canonical name. -/
def duplicateAssets : List Asset :=
  [ { bucket := "game1", file := "A", name := "models/a/a.asset", classname := "X",
      decl := some "end" },
    { bucket := "game1", file := "A2", name := "models/a/a.asset", classname := "X",
      decl := some "end" } ]

/-- The world of the tree with the duplicated canonical name. -/
def duplicateWorld : World := treeWorld ["game1"] duplicateAssets

/-- A tree in which the exported file `A.decl` is in two buckets, both sidecars written as
the tests write them. -/
def twinAssets : List Asset :=
  [ { bucket := "game1", file := "A", name := "models/a/a.asset", classname := "X",
      decl := some "end" },
    { bucket := "game2", file := "A", name := "models/a/a.asset", classname := "X",
      decl := some "end" } ]

/-- The world of the tree with `A.decl` in two buckets. -/
def twinWorld : World := treeWorld ["game1", "game2"] twinAssets

/-- The options of a run with the exported filename `A.decl` as entry. -/
def filenameOpts : Options :=
  { ExportRoot := "Export", Entry := "A.decl", OutDir := "out", MaxDepth := 10 }

/-- Every document `encoding/xml` reads in this world is a lone root element, as the sidecars
`<ResourceInfo name="N" ... />` of the test fixtures are. -/
def RootOnly (w : World) : Prop :=
  ∀ data doc, w.xmlDoc data = some doc → doc.children = []


/-- Two buckets that know the name `models/a/a.asset`: `game1` holds `A.decl` with a sidecar
written as the tests write it, `game2` holds `B.decl` with a sidecar that `index.Load` can
index. -/
def strayWorld : World where
  readDir := some [("game1", true), ("game2", true)]
  walkDir := fun b =>
    if b = "game1" then
      [{ rel := [], isDir := true, walkErr := false },
       { rel := ["A.decl"], isDir := false, walkErr := false },
       { rel := ["A.decl.xml"], isDir := false, walkErr := false }]
    else if b = "game2" then
      [{ rel := [], isDir := true, walkErr := false },
       { rel := ["B.decl"], isDir := false, walkErr := false },
       { rel := ["B.decl.xml"], isDir := false, walkErr := false }]
    else []
  readFile := fun b rel =>
    if b = "game1" ∧ rel = "A.decl.xml" then
      some "<ResourceInfo name=\"models/a/a.asset\" classname=\"X\" isCompressed=\"true\" />"
    else if b = "game2" ∧ rel = "B.decl.xml" then some (wrappedSidecar "models/a/a.asset")
    else if (b = "game1" ∧ rel = "A.decl") ∨ (b = "game2" ∧ rel = "B.decl") then some "end"
    else none
  stat := fun b rel =>
    (b = "game1" ∧ (rel = "A.decl.xml" ∨ rel = "A.decl"))
      ∨ (b = "game2" ∧ (rel = "B.decl.xml" ∨ rel = "B.decl"))
  openSrc := fun b rel =>
    (b = "game1" ∧ (rel = "A.decl.xml" ∨ rel = "A.decl"))
      ∨ (b = "game2" ∧ (rel = "B.decl.xml" ∨ rel = "B.decl"))
  mkdirAll := fun _ _ => true
  create := fun _ _ => true
  ioCopy := fun _ _ => true
  sync := fun _ _ => true
  xmlDoc := fun s =>
    if s = "<ResourceInfo name=\"models/a/a.asset\" classname=\"X\" isCompressed=\"true\" />"
    then some { root := { tag := "ResourceInfo",
                          attrs := [("name", "models/a/a.asset"), ("classname", "X"),
                                    ("isCompressed", "true")] },
                children := [] }
    else if s = wrappedSidecar "models/a/a.asset" then some (wrappedDoc "models/a/a.asset")
    else none

/-- What `Run` has prepared on `strayWorld` for the entry `A.decl`. -/
def strayPrepared : Prepared :=
  { maxDepth := 10, buckets := ["game1", "game2"],
    byBucket :=
      [("game1", []),
       ("game2", [("models/a/a.asset",
          { Name := "models/a/a.asset", RelDeclPath := "B.decl", RelXMLPath := "B.decl.xml" })])],
    roots := [{ Bucket := "game1", Name := "models/a/a.asset", Depth := 0 }],
    warns := [] }


/-! ## Spec 4.4 in its own words: one work stack -/

/-- The nodes `Run` starts from: the roots at depth 0, in the order of `resolveEntry`. -/
def rootNodes (roots : List node) : List node :=
  roots.map (fun root => { Bucket := root.Bucket, Name := root.Name, Depth := 0 })

/-- Step 2 of spec 4.4 from a given work stack (top first): the loop of `Run` on this one
stack, with the state of a fresh run and a step budget that covers every stack of the roots. -/
def singleStack (w : World) (p : Prepared) (stack : List node) : LoopOut :=
  loop w p.maxDepth p.buckets p.byBucket (p.roots.length + fuelBound w p.byBucket)
    (initState p.warns) stack

/-- Spec 4.4 as worded: every root is pushed onto the one stack, in the order of the root list,
before any node is popped; the root pushed last is then on top. -/
def specTraverse (w : World) (p : Prepared) : LoopOut :=
  singleStack w p (rootNodes p.roots).reverse

/-- A tree in which the entry `x/e` is in two buckets; the root of `game1` reaches `x/c` by
two references, the root of `game2` by one. -/
def rootOrderAssets : List Asset :=
  [ { bucket := "game1", file := "E", name := "x/e", classname := "X", decl := some "ref x/a" },
    { bucket := "game1", file := "A", name := "x/a", classname := "X", decl := some "ref x/c" },
    { bucket := "game1", file := "C", name := "x/c", classname := "X", decl := some "end" },
    { bucket := "game2", file := "E", name := "x/e", classname := "X", decl := some "ref x/c" } ]

/-- The world of the tree with the entry in two buckets. -/
def rootOrderWorld : World := treeWorld ["game1", "game2"] rootOrderAssets

/-- The options of the run on `rootOrderWorld`: entry `x/e`, max depth 1. -/
def rootOrderOpts : Options :=
  { ExportRoot := "Export", Entry := "x/e", OutDir := "out", MaxDepth := 1 }

/-- What `Run` has prepared on `rootOrderWorld` when the traversal starts. -/
def rootOrderPrepared : Prepared :=
  { maxDepth := 1, buckets := ["game1", "game2"],
    byBucket :=
      [("game1",
        [("x/c", { Name := "x/c", RelDeclPath := "C.decl", RelXMLPath := "C.decl.xml" }),
         ("x/a", { Name := "x/a", RelDeclPath := "A.decl", RelXMLPath := "A.decl.xml" }),
         ("x/e", { Name := "x/e", RelDeclPath := "E.decl", RelXMLPath := "E.decl.xml" })]),
       ("game2",
        [("x/e", { Name := "x/e", RelDeclPath := "E.decl", RelXMLPath := "E.decl.xml" })])],
    roots := [{ Bucket := "game1", Name := "x/e", Depth := 0 },
              { Bucket := "game2", Name := "x/e", Depth := 0 }],
    warns := [.entryMultiple "x/e"] }


theorem pushTokens_stack (buckets : List String) (byBucket : ByBucket) (depth : Int)
    (toks : List String) (unres : List String) (warns : List Warning) (stack : List node) :
    (pushTokens buckets byBucket depth toks (unres, warns, stack)).2.2
      = (childNodes buckets byBucket depth toks).reverse ++ stack := by
  induction toks generalizing unres warns stack with
  | nil => simp [pushTokens, childNodes]
  | cons tok toks ih =>
    unfold pushTokens
    cases h : (resolveTokenAcrossBuckets buckets byBucket tok).1 with
    | none => simp [h, ih, childNodes]
    | some rr => simp [h, ih, childNodes]

theorem childNodes_length_le (buckets : List String) (byBucket : ByBucket) (depth : Int)
    (toks : List String) : (childNodes buckets byBucket depth toks).length ≤ toks.length := by
  unfold childNodes
  exact List.length_filterMap_le _ _

theorem setInsert_nodup {k : String} {s : List String} (h : s.Nodup) : (setInsert k s).Nodup := by
  unfold setInsert
  split
  · exact h
  · exact List.nodup_cons.mpr ⟨by assumption, h⟩

theorem mem_setInsert {k x : String} {s : List String} : x ∈ setInsert k s ↔ x = k ∨ x ∈ s := by
  unfold setInsert
  split
  · constructor
    · exact Or.inr
    · rintro (h | h)
      · subst h; assumption
      · exact h
  · simp

theorem pushTokens_unres_nodup (buckets : List String) (byBucket : ByBucket) (depth : Int)
    (toks : List String) (unres : List String) (warns : List Warning) (stack : List node)
    (h : unres.Nodup) :
    (pushTokens buckets byBucket depth toks (unres, warns, stack)).1.Nodup := by
  induction toks generalizing unres warns stack with
  | nil => simpa [pushTokens] using h
  | cons tok toks ih =>
    unfold pushTokens
    cases h1 : (resolveTokenAcrossBuckets buckets byBucket tok).1 with
    | none => simpa [h1] using ih _ _ _ (setInsert_nodup h)
    | some rr => simpa [h1] using ih _ _ _ h

theorem pushTokens_unres_mono (buckets : List String) (byBucket : ByBucket) (depth : Int)
    (toks : List String) (unres : List String) (warns : List Warning) (stack : List node)
    (x : String) (h : x ∈ unres) :
    x ∈ (pushTokens buckets byBucket depth toks (unres, warns, stack)).1 := by
  induction toks generalizing unres warns stack with
  | nil => simpa [pushTokens] using h
  | cons tok toks ih =>
    unfold pushTokens
    cases h1 : (resolveTokenAcrossBuckets buckets byBucket tok).1 with
    | none => simpa [h1] using ih _ _ _ (mem_setInsert.mpr (Or.inr h))
    | some rr => simpa [h1] using ih _ _ _ h

theorem pushTokens_unres_complete (buckets : List String) (byBucket : ByBucket) (depth : Int)
    (toks : List String) (unres : List String) (warns : List Warning) (stack : List node)
    (tok : String) (hmem : tok ∈ toks)
    (hun : (resolveTokenAcrossBuckets buckets byBucket tok).1 = none) :
    tok ∈ (pushTokens buckets byBucket depth toks (unres, warns, stack)).1 := by
  induction toks generalizing unres warns stack with
  | nil => simp at hmem
  | cons t toks ih =>
    unfold pushTokens
    rcases List.mem_cons.mp hmem with heq | hin
    · subst heq
      simp only [hun]
      exact pushTokens_unres_mono _ _ _ _ _ _ _ _ (mem_setInsert.mpr (Or.inl rfl))
    · cases h1 : (resolveTokenAcrossBuckets buckets byBucket t).1 with
      | none => simpa [h1] using ih _ _ _ hin
      | some rr => simpa [h1] using ih _ _ _ hin

theorem pushTokens_unres_sound (buckets : List String) (byBucket : ByBucket) (depth : Int)
    (toks : List String) (unres : List String) (warns : List Warning) (stack : List node)
    (x : String)
    (h : x ∈ (pushTokens buckets byBucket depth toks (unres, warns, stack)).1) :
    x ∈ unres ∨ (x ∈ toks ∧ (resolveTokenAcrossBuckets buckets byBucket x).1 = none) := by
  induction toks generalizing unres warns stack with
  | nil => left; simpa [pushTokens] using h
  | cons t toks ih =>
    unfold pushTokens at h
    cases h1 : (resolveTokenAcrossBuckets buckets byBucket t).1 with
    | none =>
      simp only [h1] at h
      rcases ih _ _ _ h with h2 | h2
      · rcases mem_setInsert.mp h2 with h3 | h3
        · subst h3; right; exact ⟨List.mem_cons_self _ _, h1⟩
        · left; exact h3
      · right; exact ⟨List.mem_cons_of_mem _ h2.1, h2.2⟩
    | some rr =>
      simp only [h1] at h
      rcases ih _ _ _ h with h2 | h2
      · left; exact h2
      · right; exact ⟨List.mem_cons_of_mem _ h2.1, h2.2⟩

theorem pushTokens_warns (buckets : List String) (byBucket : ByBucket) (depth : Int)
    (toks : List String) (unres : List String) (warns : List Warning) (stack : List node) :
    ∃ extra, (pushTokens buckets byBucket depth toks (unres, warns, stack)).2.1 = warns ++ extra
      ∧ ∀ x ∈ extra, x.isDepthLimit = false := by
  induction toks generalizing unres warns stack with
  | nil => exact ⟨[], by simp [pushTokens]⟩
  | cons tok toks ih =>
    unfold pushTokens
    have key : ∀ (ws1 : List Warning) (u1 : List String) (s1 : List node),
        (∃ e1, ws1 = warns ++ e1 ∧ ∀ x ∈ e1, x.isDepthLimit = false) →
        ∃ extra, (pushTokens buckets byBucket depth toks (u1, ws1, s1)).2.1 = warns ++ extra
          ∧ ∀ x ∈ extra, x.isDepthLimit = false := by
      rintro ws1 u1 s1 ⟨e1, he1, hd1⟩
      obtain ⟨e2, he2, hd2⟩ := ih u1 ws1 s1
      refine ⟨e1 ++ e2, by rw [he2, he1, List.append_assoc], ?_⟩
      intro x hx
      rcases List.mem_append.mp hx with h | h
      · exact hd1 x h
      · exact hd2 x h
    have hw : ∃ e1, (match (resolveTokenAcrossBuckets buckets byBucket tok).2 with
        | some wn => warns ++ [wn]
        | none => warns) = warns ++ e1 ∧ ∀ x ∈ e1, x.isDepthLimit = false := by
      cases h2 : (resolveTokenAcrossBuckets buckets byBucket tok).2 with
      | none => exact ⟨[], by simp⟩
      | some wn =>
        refine ⟨[wn], rfl, ?_⟩
        intro x hx
        have hx1 : x = wn := by simpa using hx
        subst hx1
        unfold resolveTokenAcrossBuckets at h2
        split at h2 <;> simp at h2
        subst h2
        rfl
    cases h1 : (resolveTokenAcrossBuckets buckets byBucket tok).1 with
    | none => simpa [h1] using key _ _ _ hw
    | some rr => simpa [h1] using key _ _ _ hw

/-! ### Bookkeeping of the loop body -/

theorem expandNode_visited (w : World) (buckets : List String) (byBucket : ByBucket)
    (st : TravState) (n : node) (r : Resource) (stack : List node) :
    (expandNode w buckets byBucket st n r stack).1.visited = st.visited
    ∧ (expandNode w buckets byBucket st n r stack).1.copied = st.copied
    ∧ (expandNode w buckets byBucket st n r stack).1.copyCalls = st.copyCalls := by
  unfold expandNode
  cases w.readFile n.Bucket r.RelDeclPath <;> simp

theorem expandNode_expanded (w : World) (buckets : List String) (byBucket : ByBucket)
    (st : TravState) (n : node) (r : Resource) (stack : List node) :
    (expandNode w buckets byBucket st n r stack).1.expanded = st.expanded
    ∨ ∃ toks, (expandNode w buckets byBucket st n r stack).1.expanded
        = (n.Bucket, n.Name, toks) :: st.expanded := by
  unfold expandNode
  cases w.readFile n.Bucket r.RelDeclPath with
  | none => left; rfl
  | some data => right; exact ⟨Extract data, rfl⟩

theorem expandNode_unres_nodup (w : World) (buckets : List String) (byBucket : ByBucket)
    (st : TravState) (n : node) (r : Resource) (stack : List node)
    (h : st.unresolvedSet.Nodup) :
    (expandNode w buckets byBucket st n r stack).1.unresolvedSet.Nodup := by
  unfold expandNode
  cases w.readFile n.Bucket r.RelDeclPath with
  | none => simpa using h
  | some data => simpa using pushTokens_unres_nodup _ _ _ _ _ _ _ h

theorem expandNode_book (w : World) (buckets : List String) (byBucket : ByBucket)
    (st : TravState) (n : node) (r : Resource) (stack : List node)
    (hv : st.visited.Nodup) (hc : st.copied.Sublist st.visited)
    (hk : st.copyCalls.map (fun c => nodeKey c.1 c.2.1) = st.copied)
    (he : (st.expanded.map (fun c => nodeKey c.1 c.2.1)).Sublist st.visited.tail)
    (hhead : st.visited.head? = some (nodeKey n.Bucket n.Name))
    (hu : st.unresolvedSet.Nodup) :
    Book (expandNode w buckets byBucket st n r stack).1 := by
  obtain ⟨h1, h2, h3⟩ := expandNode_visited w buckets byBucket st n r stack
  refine ⟨by rw [h1]; exact hv, by rw [h1, h2]; exact hc, by rw [h2, h3]; exact hk, ?_,
    expandNode_unres_nodup w buckets byBucket st n r stack hu⟩
  rw [h1]
  cases hvis : st.visited with
  | nil => simp [hvis] at hhead
  | cons k ks =>
    rw [hvis] at he hhead
    simp only [List.tail_cons] at he
    simp only [List.head?_cons, Option.some.injEq] at hhead
    rcases expandNode_expanded w buckets byBucket st n r stack with h | ⟨toks, h⟩
    · rw [h]; exact List.Sublist.cons _ he
    · rw [h, List.map_cons, hhead]
      exact List.Sublist.cons₂ _ he

theorem loopBody_book (w : World) (maxDepth : Int) (buckets : List String) (byBucket : ByBucket)
    (st : TravState) (n : node) (stack : List node) (hb : Book st) :
    (∀ st1 stack1, loopBody w maxDepth buckets byBucket st n stack = .next st1 stack1 → Book st1)
    ∧ (∀ st1 e, loopBody w maxDepth buckets byBucket st n stack = .fail st1 e → Book st1) := by
  obtain ⟨hv, hc, hk, he, hu⟩ := hb
  unfold loopBody
  by_cases hvis : nodeKey n.Bucket n.Name ∈ st.visited
  · simp only [hvis, if_true]
    constructor
    · intro st1 stack1 h
      injection h with h1 h2
      subst h1
      exact ⟨hv, hc, hk, he, hu⟩
    · intro st1 e h
      cases h
  · have hv1 : (nodeKey n.Bucket n.Name :: st.visited).Nodup := List.nodup_cons.mpr ⟨hvis, hv⟩
    have hncop : nodeKey n.Bucket n.Name ∉ st.copied := fun h => hvis (hc.subset h)
    simp only [hvis, if_false]
    by_cases hd : n.Depth > maxDepth
    · simp only [hd, if_true]
      constructor
      · intro st1 stack1 h
        injection h with h1 h2
        subst h1
        exact ⟨hv1, List.Sublist.cons _ hc, hk, List.Sublist.cons _ he, hu⟩
      · intro st1 e h
        cases h
    · simp only [hd, if_false]
      cases hl : lookup2 byBucket n.Bucket n.Name with
      | none =>
        simp only
        constructor
        · intro st1 stack1 h
          injection h with h1 h2
          subst h1
          exact ⟨hv1, List.Sublist.cons _ hc, hk, List.Sublist.cons _ he, setInsert_nodup hu⟩
        · intro st1 e h
          cases h
      | some r =>
        simp only [hncop, if_false]
        cases hcp : copyOne w n.Bucket r with
        | some e =>
          simp only
          constructor
          · intro st1 stack1 h
            cases h
          · intro st1 e1 h
            injection h with h1 h2
            subst h1
            exact ⟨hv1, List.Sublist.cons _ hc, hk, List.Sublist.cons _ he, hu⟩
        | none =>
          simp only
          constructor
          · intro st1 stack1 h
            injection h with h1 h2
            subst h1
            apply expandNode_book
            · exact hv1
            · exact List.Sublist.cons₂ _ hc
            · simp [hk]
            · simpa using he
            · rfl
            · exact hu
          · intro st1 e h
            cases h

theorem loop_book (w : World) (maxDepth : Int) (buckets : List String) (byBucket : ByBucket)
    (fuel : Nat) (st : TravState) (stack : List node) (hb : Book st) (st1 : TravState)
    (h : (loop w maxDepth buckets byBucket fuel st stack).finalState = some st1) : Book st1 := by
  induction fuel generalizing st stack with
  | zero =>
    cases stack with
    | nil => simp [loop, LoopOut.finalState] at h; subst h; exact hb
    | cons n stack => simp [loop, LoopOut.finalState] at h
  | succ fuel ih =>
    cases stack with
    | nil => simp [loop, LoopOut.finalState] at h; subst h; exact hb
    | cons n stack =>
      unfold loop at h
      have hstep := loopBody_book w maxDepth buckets byBucket st n stack hb
      cases hbody : loopBody w maxDepth buckets byBucket st n stack with
      | fail st2 e =>
        rw [hbody] at h
        simp [LoopOut.finalState] at h
        subst h
        exact hstep.2 _ _ hbody
      | next st2 stack2 =>
        rw [hbody] at h
        exact ih st2 stack2 (hstep.1 _ _ hbody) h

theorem forRoots_book (w : World) (maxDepth : Int) (buckets : List String) (byBucket : ByBucket)
    (fuel : Nat) (st : TravState) (roots : List node) (hb : Book st) (st1 : TravState)
    (h : (forRoots w maxDepth buckets byBucket fuel st roots).finalState = some st1) :
    Book st1 := by
  induction roots generalizing st with
  | nil => simp [forRoots, LoopOut.finalState] at h; subst h; exact hb
  | cons root roots ih =>
    unfold forRoots at h
    cases hl : loop w maxDepth buckets byBucket fuel st
        [{ Bucket := root.Bucket, Name := root.Name, Depth := 0 }] with
    | done st2 =>
      rw [hl] at h
      exact ih st2 (loop_book w maxDepth buckets byBucket fuel st _ hb st2
        (by rw [hl]; rfl)) h
    | failed st2 e =>
      rw [hl] at h
      simp [LoopOut.finalState] at h
      subst h
      exact loop_book w maxDepth buckets byBucket fuel st _ hb st2 (by rw [hl]; rfl)
    | outOfFuel =>
      rw [hl] at h
      simp [LoopOut.finalState] at h

theorem initState_book (warns : List Warning) : Book (initState warns) :=
  ⟨List.nodup_nil, List.Sublist.slnil, rfl, List.Sublist.slnil, List.nodup_nil⟩

theorem traverse_book (w : World) (p : Prepared) (st : TravState)
    (h : (traverse w p).finalState = some st) : Book st :=
  forRoots_book w p.maxDepth p.buckets p.byBucket _ _ p.roots (initState_book p.warns) st h

/-! ### Termination of the work-stack loop -/

theorem lookup_mem {β : Type} (k : String) (l : List (String × β)) (v : β)
    (h : l.lookup k = some v) : (k, v) ∈ l := by
  induction l with
  | nil => simp [List.lookup] at h
  | cons e es ih =>
    obtain ⟨k1, v1⟩ := e
    by_cases hk : k = k1
    · subst hk
      simp [List.lookup] at h
      subst h
      exact List.mem_cons_self _ _
    · have hne : (k == k1) = false := by simpa using hk
      simp only [List.lookup, hne] at h
      exact List.mem_cons_of_mem _ (ih h)

theorem lookup2_mem_flat (byBucket : ByBucket) (b n : String) (r : Resource)
    (h : lookup2 byBucket b n = some r) : (b, n, r) ∈ flatIndex byBucket := by
  unfold lookup2 at h
  cases hb : byBucket.lookup b with
  | none => simp [hb] at h
  | some idx =>
    simp only [hb] at h
    have h1 := lookup_mem b byBucket idx hb
    have h2 := lookup_mem n idx r h
    clear hb h
    induction byBucket with
    | nil => simp at h1
    | cons e es ih =>
      simp only [flatIndex, List.mem_append, List.mem_map]
      rcases List.mem_cons.mp h1 with h3 | h3
      · left
        subst h3
        exact ⟨(n, r), h2, rfl⟩
      · right
        exact ih h3

theorem sum_filter_le_of_imp {α : Type} (f : α → Nat) (p q : α → Bool) (l : List α)
    (hqp : ∀ y, q y = true → p y = true) :
    ((l.filter q).map f).sum ≤ ((l.filter p).map f).sum := by
  induction l with
  | nil => simp
  | cons a l ih =>
    by_cases hq : q a = true
    · have hp := hqp a hq
      simp only [List.filter_cons, hq, hp, if_true, List.map_cons, List.sum_cons]
      omega
    · by_cases hp : p a = true
      · simp only [List.filter_cons, hq, hp, if_true, List.map_cons, List.sum_cons]
        simp only [Bool.false_eq_true, if_false]
        omega
      · simp only [List.filter_cons, hq, hp]
        simpa using ih

theorem sum_filter_add_le {α : Type} (f : α → Nat) (p q : α → Bool) (l : List α) (x : α)
    (hqp : ∀ y, q y = true → p y = true) (hx : x ∈ l) (hpx : p x = true) (hqx : q x = false) :
    ((l.filter q).map f).sum + f x ≤ ((l.filter p).map f).sum := by
  induction l with
  | nil => simp at hx
  | cons a l ih =>
    rcases List.mem_cons.mp hx with h | h
    · subst h
      have := sum_filter_le_of_imp f p q l hqp
      simp only [List.filter_cons, hqx, hpx, if_true, List.map_cons, List.sum_cons]
      simp only [Bool.false_eq_true, if_false]
      omega
    · have ih1 := ih h
      by_cases hq : q a = true
      · have hp := hqp a hq
        simp only [List.filter_cons, hq, hp, if_true, List.map_cons, List.sum_cons]
        omega
      · by_cases hp : p a = true
        · simp only [List.filter_cons, hq, hp, if_true, List.map_cons, List.sum_cons]
          simp only [Bool.false_eq_true, if_false]
          omega
        · simp only [List.filter_cons, hq, hp]
          simpa using ih1

theorem pendingTokens_cons_le (w : World) (byBucket : ByBucket) (k : String)
    (visited : List String) :
    pendingTokens w byBucket (k :: visited) ≤ pendingTokens w byBucket visited := by
  unfold pendingTokens
  apply sum_filter_le_of_imp
  intro y hy
  simp only [decide_eq_true_eq, List.mem_cons, not_or] at hy ⊢
  exact hy.2

theorem pendingTokens_le_fuelBound (w : World) (byBucket : ByBucket) (visited : List String) :
    1 + pendingTokens w byBucket visited ≤ fuelBound w byBucket := by
  unfold pendingTokens fuelBound
  have h := sum_filter_le_of_imp (fun e : String × String × Resource => tokenCount w e.1 e.2.2)
    (fun _ => true) (fun e => decide (nodeKey e.1 e.2.1 ∉ visited)) (flatIndex byBucket)
    (fun _ _ => rfl)
  simp only [List.filter_true] at h
  omega

theorem pendingTokens_expand (w : World) (byBucket : ByBucket) (b n : String) (r : Resource)
    (visited : List String) (hl : lookup2 byBucket b n = some r)
    (hvis : nodeKey b n ∉ visited) :
    pendingTokens w byBucket (nodeKey b n :: visited) + tokenCount w b r
      ≤ pendingTokens w byBucket visited := by
  unfold pendingTokens
  have h := sum_filter_add_le (fun e : String × String × Resource => tokenCount w e.1 e.2.2)
    (fun e => decide (nodeKey e.1 e.2.1 ∉ visited))
    (fun e => decide (nodeKey e.1 e.2.1 ∉ nodeKey b n :: visited))
    (flatIndex byBucket) (b, n, r)
    (by
      intro y hy
      simp only [decide_eq_true_eq, List.mem_cons, not_or] at hy ⊢
      exact hy.2)
    (lookup2_mem_flat byBucket b n r hl)
    (by simpa using hvis)
    (by simp)
  exact h

theorem expandNode_stack_le (w : World) (buckets : List String) (byBucket : ByBucket)
    (st : TravState) (n : node) (r : Resource) (stack : List node) :
    (expandNode w buckets byBucket st n r stack).2.length
      ≤ tokenCount w n.Bucket r + stack.length := by
  unfold expandNode tokenCount
  cases w.readFile n.Bucket r.RelDeclPath with
  | none => simp
  | some data =>
    simp only [pushTokens_stack, List.length_append, List.length_reverse]
    have := childNodes_length_le buckets byBucket n.Depth (Extract data)
    omega

theorem loopBody_decreases (w : World) (maxDepth : Int) (buckets : List String)
    (byBucket : ByBucket) (st : TravState) (n : node) (stack : List node)
    (st1 : TravState) (stack1 : List node)
    (h : loopBody w maxDepth buckets byBucket st n stack = .next st1 stack1) :
    stack1.length + pendingTokens w byBucket st1.visited
      < (n :: stack).length + pendingTokens w byBucket st.visited := by
  unfold loopBody at h
  by_cases hvis : nodeKey n.Bucket n.Name ∈ st.visited
  · simp only [hvis, if_true] at h
    injection h with h1 h2
    subst h1; subst h2
    simp
  · have hle := pendingTokens_cons_le w byBucket (nodeKey n.Bucket n.Name) st.visited
    simp only [hvis, if_false] at h
    by_cases hd : n.Depth > maxDepth
    · simp only [hd, if_true] at h
      injection h with h1 h2
      subst h1; subst h2
      simp only [List.length_cons]
      omega
    · simp only [hd, if_false] at h
      cases hl : lookup2 byBucket n.Bucket n.Name with
      | none =>
        simp only [hl] at h
        injection h with h1 h2
        subst h1; subst h2
        simp only [List.length_cons]
        omega
      | some r =>
        have hexp := pendingTokens_expand w byBucket n.Bucket n.Name r st.visited hl hvis
        simp only [hl] at h
        by_cases hcop : nodeKey n.Bucket n.Name ∈ st.copied
        · simp only [hcop, if_true] at h
          injection h with h1 h2
          subst h1; subst h2
          have hs := expandNode_stack_le w buckets byBucket
            { st with visited := nodeKey n.Bucket n.Name :: st.visited } n r stack
          rw [(expandNode_visited w buckets byBucket _ n r stack).1]
          simp only [List.length_cons]
          omega
        · simp only [hcop, if_false] at h
          cases hcp : copyOne w n.Bucket r with
          | some e => simp [hcp] at h
          | none =>
            simp only [hcp] at h
            injection h with h1 h2
            subst h1; subst h2
            have hs := expandNode_stack_le w buckets byBucket
              { st with visited := nodeKey n.Bucket n.Name :: st.visited,
                        copied := nodeKey n.Bucket n.Name :: st.copied,
                        copyCalls := (n.Bucket, n.Name, r) :: st.copyCalls } n r stack
            rw [(expandNode_visited w buckets byBucket _ n r stack).1]
            simp only [List.length_cons]
            omega

theorem loop_terminates (w : World) (maxDepth : Int) (buckets : List String)
    (byBucket : ByBucket) (fuel : Nat) (st : TravState) (stack : List node)
    (h : stack.length + pendingTokens w byBucket st.visited ≤ fuel) :
    loop w maxDepth buckets byBucket fuel st stack ≠ .outOfFuel := by
  induction fuel generalizing st stack with
  | zero =>
    cases stack with
    | nil => simp [loop]
    | cons n stack => simp at h
  | succ fuel ih =>
    cases stack with
    | nil => simp [loop]
    | cons n stack =>
      unfold loop
      cases hbody : loopBody w maxDepth buckets byBucket st n stack with
      | fail st2 e => simp
      | next st2 stack2 =>
        have hd := loopBody_decreases w maxDepth buckets byBucket st n stack st2 stack2 hbody
        exact ih st2 stack2 (by omega)

theorem forRoots_terminates (w : World) (maxDepth : Int) (buckets : List String)
    (byBucket : ByBucket) (st : TravState) (roots : List node) :
    forRoots w maxDepth buckets byBucket (fuelBound w byBucket) st roots ≠ .outOfFuel := by
  induction roots generalizing st with
  | nil => simp [forRoots]
  | cons root roots ih =>
    unfold forRoots
    have hl := loop_terminates w maxDepth buckets byBucket (fuelBound w byBucket) st
      [{ Bucket := root.Bucket, Name := root.Name, Depth := 0 }]
      (by
        have := pendingTokens_le_fuelBound w byBucket st.visited
        simp only [List.length_singleton]
        omega)
    cases hlo : loop w maxDepth buckets byBucket (fuelBound w byBucket) st
        [{ Bucket := root.Bucket, Name := root.Name, Depth := 0 }] with
    | done st2 => exact ih st2
    | failed st2 e => simp
    | outOfFuel => exact absurd hlo hl

/-! ### Case analysis of the loop body and induction over the loop -/

theorem loopBody_next_cases (w : World) (maxDepth : Int) (buckets : List String)
    (byBucket : ByBucket) (st : TravState) (n : node) (stack : List node)
    (st1 : TravState) (stack1 : List node)
    (h : loopBody w maxDepth buckets byBucket st n stack = .next st1 stack1) :
    (nodeKey n.Bucket n.Name ∈ st.visited ∧ st1 = st ∧ stack1 = stack)
    ∨ (nodeKey n.Bucket n.Name ∉ st.visited ∧ n.Depth > maxDepth
        ∧ st1 = { st with visited := nodeKey n.Bucket n.Name :: st.visited,
                          warnings := st.warnings ++ [.depthLimit maxDepth n.Bucket n.Name] }
        ∧ stack1 = stack)
    ∨ (nodeKey n.Bucket n.Name ∉ st.visited ∧ ¬ n.Depth > maxDepth
        ∧ lookup2 byBucket n.Bucket n.Name = none
        ∧ st1 = { st with visited := nodeKey n.Bucket n.Name :: st.visited,
                          unresolvedSet := setInsert n.Name st.unresolvedSet }
        ∧ stack1 = stack)
    ∨ (nodeKey n.Bucket n.Name ∉ st.visited ∧ ¬ n.Depth > maxDepth
        ∧ ∃ r, lookup2 byBucket n.Bucket n.Name = some r
          ∧ ∃ st2, ((nodeKey n.Bucket n.Name ∈ st.copied
                ∧ st2 = { st with visited := nodeKey n.Bucket n.Name :: st.visited })
              ∨ (nodeKey n.Bucket n.Name ∉ st.copied ∧ copyOne w n.Bucket r = none
                ∧ st2 = { st with visited := nodeKey n.Bucket n.Name :: st.visited,
                                  copied := nodeKey n.Bucket n.Name :: st.copied,
                                  copyCalls := (n.Bucket, n.Name, r) :: st.copyCalls }))
            ∧ st1 = (expandNode w buckets byBucket st2 n r stack).1
            ∧ stack1 = (expandNode w buckets byBucket st2 n r stack).2) := by
  unfold loopBody at h
  by_cases hvis : nodeKey n.Bucket n.Name ∈ st.visited
  · simp only [hvis, if_true] at h
    injection h with h1 h2
    exact Or.inl ⟨hvis, h1.symm, h2.symm⟩
  · simp only [hvis, if_false] at h
    by_cases hd : n.Depth > maxDepth
    · simp only [hd, if_true] at h
      injection h with h1 h2
      exact Or.inr (Or.inl ⟨hvis, hd, h1.symm, h2.symm⟩)
    · simp only [hd, if_false] at h
      cases hl : lookup2 byBucket n.Bucket n.Name with
      | none =>
        simp only [hl] at h
        injection h with h1 h2
        exact Or.inr (Or.inr (Or.inl ⟨hvis, hd, rfl, h1.symm, h2.symm⟩))
      | some r =>
        simp only [hl] at h
        refine Or.inr (Or.inr (Or.inr ⟨hvis, hd, r, rfl, ?_⟩))
        by_cases hcop : nodeKey n.Bucket n.Name ∈ st.copied
        · simp only [hcop, if_true] at h
          injection h with h1 h2
          exact ⟨_, Or.inl ⟨hcop, rfl⟩, h1.symm, h2.symm⟩
        · simp only [hcop, if_false] at h
          cases hcp : copyOne w n.Bucket r with
          | some e => simp [hcp] at h
          | none =>
            simp only [hcp] at h
            injection h with h1 h2
            exact ⟨_, Or.inr ⟨hcop, rfl, rfl⟩, h1.symm, h2.symm⟩

theorem loopBody_fail_cases (w : World) (maxDepth : Int) (buckets : List String)
    (byBucket : ByBucket) (st : TravState) (n : node) (stack : List node)
    (st1 : TravState) (e : RunError)
    (h : loopBody w maxDepth buckets byBucket st n stack = .fail st1 e) :
    nodeKey n.Bucket n.Name ∉ st.visited ∧ ¬ n.Depth > maxDepth
      ∧ ∃ r, lookup2 byBucket n.Bucket n.Name = some r ∧ copyOne w n.Bucket r = some e
        ∧ st1 = { st with visited := nodeKey n.Bucket n.Name :: st.visited } := by
  unfold loopBody at h
  by_cases hvis : nodeKey n.Bucket n.Name ∈ st.visited
  · simp [hvis] at h
  · simp only [hvis, if_false] at h
    by_cases hd : n.Depth > maxDepth
    · simp [hd] at h
    · simp only [hd, if_false] at h
      cases hl : lookup2 byBucket n.Bucket n.Name with
      | none => simp [hl] at h
      | some r =>
        simp only [hl] at h
        by_cases hcop : nodeKey n.Bucket n.Name ∈ st.copied
        · simp [hcop] at h
        · simp only [hcop, if_false] at h
          cases hcp : copyOne w n.Bucket r with
          | none => simp [hcp] at h
          | some e1 =>
            simp only [hcp] at h
            injection h with h1 h2
            subst h2
            exact ⟨hvis, hd, r, rfl, hcp, h1.symm⟩

theorem loop_induction (w : World) (maxDepth : Int) (buckets : List String)
    (byBucket : ByBucket) (P : TravState → Prop)
    (hnext : ∀ st n stack st1 stack1, P st →
      loopBody w maxDepth buckets byBucket st n stack = .next st1 stack1 → P st1)
    (hfail : ∀ st n stack st1 e, P st →
      loopBody w maxDepth buckets byBucket st n stack = .fail st1 e → P st1)
    (fuel : Nat) (st : TravState) (stack : List node) (h0 : P st) (st1 : TravState)
    (h : (loop w maxDepth buckets byBucket fuel st stack).finalState = some st1) : P st1 := by
  induction fuel generalizing st stack with
  | zero =>
    cases stack with
    | nil => simp [loop, LoopOut.finalState] at h; subst h; exact h0
    | cons n stack => simp [loop, LoopOut.finalState] at h
  | succ fuel ih =>
    cases stack with
    | nil => simp [loop, LoopOut.finalState] at h; subst h; exact h0
    | cons n stack =>
      unfold loop at h
      cases hbody : loopBody w maxDepth buckets byBucket st n stack with
      | fail st2 e =>
        rw [hbody] at h
        simp [LoopOut.finalState] at h
        subst h
        exact hfail _ _ _ _ _ h0 hbody
      | next st2 stack2 =>
        rw [hbody] at h
        exact ih st2 stack2 (hnext _ _ _ _ _ h0 hbody) h

theorem forRoots_induction (w : World) (maxDepth : Int) (buckets : List String)
    (byBucket : ByBucket) (P : TravState → Prop)
    (hnext : ∀ st n stack st1 stack1, P st →
      loopBody w maxDepth buckets byBucket st n stack = .next st1 stack1 → P st1)
    (hfail : ∀ st n stack st1 e, P st →
      loopBody w maxDepth buckets byBucket st n stack = .fail st1 e → P st1)
    (fuel : Nat) (st : TravState) (roots : List node) (h0 : P st) (st1 : TravState)
    (h : (forRoots w maxDepth buckets byBucket fuel st roots).finalState = some st1) :
    P st1 := by
  induction roots generalizing st with
  | nil => simp [forRoots, LoopOut.finalState] at h; subst h; exact h0
  | cons root roots ih =>
    unfold forRoots at h
    cases hl : loop w maxDepth buckets byBucket fuel st
        [{ Bucket := root.Bucket, Name := root.Name, Depth := 0 }] with
    | done st2 =>
      rw [hl] at h
      exact ih st2 (loop_induction w maxDepth buckets byBucket P hnext hfail fuel st _ h0 st2
        (by rw [hl]; rfl)) h
    | failed st2 e =>
      rw [hl] at h
      simp [LoopOut.finalState] at h
      subst h
      exact loop_induction w maxDepth buckets byBucket P hnext hfail fuel st _ h0 st2
        (by rw [hl]; rfl)
    | outOfFuel =>
      rw [hl] at h
      simp [LoopOut.finalState] at h

/-! ### Truthfulness of the expansion records -/

theorem expandNode_expandedOK (w : World) (buckets : List String) (byBucket : ByBucket)
    (st : TravState) (n : node) (r : Resource) (stack : List node)
    (hl : lookup2 byBucket n.Bucket n.Name = some r)
    (h : ExpandedOK w buckets byBucket st) :
    ExpandedOK w buckets byBucket (expandNode w buckets byBucket st n r stack).1 := by
  unfold expandNode
  cases hr : w.readFile n.Bucket r.RelDeclPath with
  | none => exact h
  | some data =>
    intro e he
    simp only [List.mem_cons] at he
    rcases he with he | he
    · subst he
      refine ⟨r, data, hl, hr, rfl, ?_⟩
      intro tok htok hnone
      exact pushTokens_unres_complete _ _ _ _ _ _ _ tok htok hnone
    · obtain ⟨r1, d1, h1, h2, h3, h4⟩ := h e he
      refine ⟨r1, d1, h1, h2, h3, ?_⟩
      intro tok htok hnone
      exact pushTokens_unres_mono _ _ _ _ _ _ _ tok (h4 tok htok hnone)

theorem expandedOK_of_eq (w : World) (buckets : List String) (byBucket : ByBucket)
    (st st1 : TravState) (he : st1.expanded = st.expanded)
    (hu : ∀ x ∈ st.unresolvedSet, x ∈ st1.unresolvedSet)
    (h : ExpandedOK w buckets byBucket st) : ExpandedOK w buckets byBucket st1 := by
  intro e hmem
  rw [he] at hmem
  obtain ⟨r1, d1, h1, h2, h3, h4⟩ := h e hmem
  exact ⟨r1, d1, h1, h2, h3, fun tok htok hnone => hu _ (h4 tok htok hnone)⟩

theorem loopBody_expandedOK (w : World) (maxDepth : Int) (buckets : List String)
    (byBucket : ByBucket) (st : TravState) (n : node) (stack : List node)
    (st1 : TravState) (stack1 : List node) (h0 : ExpandedOK w buckets byBucket st)
    (h : loopBody w maxDepth buckets byBucket st n stack = .next st1 stack1) :
    ExpandedOK w buckets byBucket st1 := by
  rcases loopBody_next_cases w maxDepth buckets byBucket st n stack st1 stack1 h with
    ⟨_, h1, _⟩ | ⟨_, _, h1, _⟩ | ⟨_, _, _, h1, _⟩ | ⟨_, _, r, hl, st2, hst2, h1, _⟩
  · subst h1; exact h0
  · subst h1; exact expandedOK_of_eq w buckets byBucket st _ rfl (fun _ hx => hx) h0
  · subst h1
    exact expandedOK_of_eq w buckets byBucket st _ rfl
      (fun x hx => mem_setInsert.mpr (Or.inr hx)) h0
  · subst h1
    apply expandNode_expandedOK w buckets byBucket st2 n r stack hl
    rcases hst2 with ⟨_, h2⟩ | ⟨_, _, h2⟩
    · subst h2; exact expandedOK_of_eq w buckets byBucket st _ rfl (fun _ hx => hx) h0
    · subst h2; exact expandedOK_of_eq w buckets byBucket st _ rfl (fun _ hx => hx) h0

theorem traverse_expandedOK (w : World) (p : Prepared) (st : TravState)
    (h : (traverse w p).finalState = some st) : ExpandedOK w p.buckets p.byBucket st := by
  refine forRoots_induction w p.maxDepth p.buckets p.byBucket
    (ExpandedOK w p.buckets p.byBucket) ?_ ?_ _ (initState p.warns) p.roots ?_ st h
  · intro st n stack st1 stack1 h0 hb
    exact loopBody_expandedOK w p.maxDepth p.buckets p.byBucket st n stack st1 stack1 h0 hb
  · intro st n stack st1 e h0 hb
    obtain ⟨_, _, r, _, _, h1⟩ := loopBody_fail_cases w p.maxDepth p.buckets p.byBucket
      st n stack st1 e hb
    subst h1
    exact expandedOK_of_eq w p.buckets p.byBucket st _ rfl (fun _ hx => hx) h0
  · intro e he
    simp [initState] at he

/-! ### Independence of the step budget -/

theorem loop_fuel_succ (w : World) (maxDepth : Int) (buckets : List String)
    (byBucket : ByBucket) (fuel : Nat) (st : TravState) (stack : List node)
    (h : loop w maxDepth buckets byBucket fuel st stack ≠ .outOfFuel) :
    loop w maxDepth buckets byBucket (fuel + 1) st stack
      = loop w maxDepth buckets byBucket fuel st stack := by
  induction fuel generalizing st stack with
  | zero =>
    cases stack with
    | nil => simp [loop]
    | cons n stack => simp [loop] at h
  | succ fuel ih =>
    cases stack with
    | nil => simp [loop]
    | cons n stack =>
      rw [loop] at h
      rw [loop]
      conv_rhs => rw [loop]
      cases hbody : loopBody w maxDepth buckets byBucket st n stack with
      | fail st2 e => rfl
      | next st2 stack2 =>
        rw [hbody] at h
        exact ih st2 stack2 h

theorem loop_fuel_le (w : World) (maxDepth : Int) (buckets : List String)
    (byBucket : ByBucket) (fuel fuel1 : Nat) (st : TravState) (stack : List node)
    (h : loop w maxDepth buckets byBucket fuel st stack ≠ .outOfFuel) (hle : fuel ≤ fuel1) :
    loop w maxDepth buckets byBucket fuel1 st stack
      = loop w maxDepth buckets byBucket fuel st stack := by
  induction hle with
  | refl => rfl
  | step _ ih =>
    rw [loop_fuel_succ _ _ _ _ _ _ _ (by rw [ih]; exact h), ih]

theorem forRoots_fuel_le (w : World) (maxDepth : Int) (buckets : List String)
    (byBucket : ByBucket) (fuel : Nat) (st : TravState) (roots : List node)
    (hle : fuelBound w byBucket ≤ fuel) :
    forRoots w maxDepth buckets byBucket fuel st roots
      = forRoots w maxDepth buckets byBucket (fuelBound w byBucket) st roots := by
  induction roots generalizing st with
  | nil => simp [forRoots]
  | cons root roots ih =>
    have hl := loop_terminates w maxDepth buckets byBucket (fuelBound w byBucket) st
      [{ Bucket := root.Bucket, Name := root.Name, Depth := 0 }]
      (by
        have := pendingTokens_le_fuelBound w byBucket st.visited
        simp only [List.length_singleton]
        omega)
    unfold forRoots
    rw [loop_fuel_le w maxDepth buckets byBucket _ fuel st _ hl hle]
    cases hlo : loop w maxDepth buckets byBucket (fuelBound w byBucket) st
        [{ Bucket := root.Bucket, Name := root.Name, Depth := 0 }] with
    | done st2 => exact ih st2
    | failed st2 e => rfl
    | outOfFuel => rfl

theorem traverse_finalState_isSome (w : World) (p : Prepared) :
    ∃ st, (traverse w p).finalState = some st := by
  have h := forRoots_terminates w p.maxDepth p.buckets p.byBucket (initState p.warns) p.roots
  unfold traverse
  cases hf : forRoots w p.maxDepth p.buckets p.byBucket (fuelBound w p.byBucket)
      (initState p.warns) p.roots with
  | done st => exact ⟨st, rfl⟩
  | failed st e => exact ⟨st, rfl⟩
  | outOfFuel => exact absurd hf h

theorem nodup_of_map_nodup {α β : Type} (f : α → β) (l : List α) (h : (l.map f).Nodup) :
    l.Nodup := List.Nodup.of_map f h

theorem copiedPairs_nodup (st : TravState) (hb : Book st) : (copiedPairs st).Nodup := by
  have h1 : st.copied.Nodup := List.Nodup.sublist hb.copiedSub hb.visNodup
  rw [← hb.copyKeys] at h1
  apply nodup_of_map_nodup (fun x : String × String => nodeKey x.1 x.2)
  simpa [copiedPairs, List.map_map] using h1

theorem expandedPairs_nodup (st : TravState) (hb : Book st) : (expandedPairs st).Nodup := by
  have h1 := List.Nodup.sublist hb.expSub hb.visNodup
  apply nodup_of_map_nodup (fun x : String × String => nodeKey x.1 x.2)
  simpa [expandedPairs, List.map_map] using h1

theorem runFinal_book (w : World) (opts : Options) (st : TravState)
    (h : runFinal w opts = some st) : Book st := by
  unfold runFinal at h
  cases hp : prepare w opts with
  | error e => simp [hp] at h
  | ok p =>
    simp only [hp] at h
    exact traverse_book w p st h

/-! ### C2, C3, C4 -/

/-- C2 (copy-once, cycle safety). In every run of `Run`, whatever the reference graph, the
trace of `copyOne` calls of the traversal holds no (bucket, name) pair twice. -/
theorem copyOne_at_most_once (w : World) (opts : Options) (st : TravState)
    (h : runFinal w opts = some st) : (copiedPairs st).Nodup :=
  copiedPairs_nodup st (runFinal_book w opts st h)

/-- Witness of C2 on the tree with a reference cycle and a diamond. -/
theorem copyOne_at_most_once_witness :
    runFinal cycleWorld cycleOpts = some cycleFinal
      ∧ (copiedPairs cycleFinal).Nodup :=
  ⟨by decide, copyOne_at_most_once cycleWorld cycleOpts cycleFinal (by decide)⟩

/-- C3 (termination). For all indices, decl contents and roots the work-stack loops of `Run`
end within the budget `fuelBound` (in `done` or `failed`, never out of fuel), a larger
budget gives the same outcome, and the final state records no (bucket, name) pair twice
as expanded. -/
theorem traversal_terminates (w : World) (p : Prepared) :
    (∃ st, (traverse w p).finalState = some st ∧ (expandedPairs st).Nodup)
    ∧ ∀ fuel, fuelBound w p.byBucket ≤ fuel →
        forRoots w p.maxDepth p.buckets p.byBucket fuel (initState p.warns) p.roots
          = traverse w p := by
  constructor
  · obtain ⟨st, hst⟩ := traverse_finalState_isSome w p
    exact ⟨st, hst, expandedPairs_nodup st (traverse_book w p st hst)⟩
  · intro fuel hle
    exact forRoots_fuel_le w p.maxDepth p.buckets p.byBucket fuel _ _ hle

theorem loadAll_error (w : World) (bs : List String) (e : RunError)
    (h : loadAll w bs = .error e) : ∃ b rel, e = .loadIndex b rel := by
  induction bs with
  | nil => simp [loadAll] at h
  | cons b bs ih =>
    unfold loadAll at h
    cases hl : Load w b with
    | error rel =>
      simp only [hl] at h
      injection h with h1
      exact ⟨b, rel, h1.symm⟩
    | ok idx =>
      simp only [hl] at h
      cases hr : loadAll w bs with
      | error e1 =>
        simp only [hr] at h
        injection h with h1
        subst h1
        exact ih hr
      | ok rest => simp [hr] at h

theorem entryFiles_error (w : World) (entry : String) (bs : List String) (roots : List node)
    (e : RunError) (h : entryFiles w entry bs roots = .error e) :
    ∃ b rel, e = .entryXmlUnreadable b rel := by
  induction bs generalizing roots with
  | nil => simp [entryFiles] at h
  | cons b bs ih =>
    unfold entryFiles at h
    by_cases hs : w.stat b entry = true
    · simp only [hs, Bool.not_true, Bool.false_eq_true, if_false] at h
      cases hc : canonicalFromXML w b (entry ++ ".xml") with
      | none =>
        simp only [hc] at h
        injection h with h1
        exact ⟨b, _, h1.symm⟩
      | some canon =>
        simp only [hc] at h
        exact ih _ h
    · simp only [hs, Bool.not_false, if_true] at h
      exact ih _ h

theorem resolveEntry_error (w : World) (buckets : List String) (byBucket : ByBucket)
    (entry0 : String) (e : RunError) (h : resolveEntry w buckets byBucket entry0 = .error e) :
    e ≠ .fuelExhausted := by
  unfold resolveEntry at h
  by_cases hc : containsSlash (trimSpace entry0) = true
  · simp only [hc, if_true] at h
    split at h
    · injection h with h1; subst h1; simp
    · split at h <;> simp at h
  · simp only [hc, Bool.false_eq_true, if_false] at h
    cases hf : entryFiles w (trimSpace entry0) buckets [] with
    | error e1 =>
      simp only [hf] at h
      injection h with h1
      subst h1
      obtain ⟨b, rel, h2⟩ := entryFiles_error w _ _ _ _ hf
      subst h2
      simp
    | ok roots =>
      simp only [hf] at h
      split at h
      · injection h with h1; subst h1; simp
      · split at h <;> simp at h

theorem prepare_error (w : World) (opts : Options) (e : RunError)
    (h : prepare w opts = .error e) : e ≠ .fuelExhausted := by
  unfold prepare at h
  split at h
  · injection h with h1; subst h1; simp
  · split at h
    · injection h with h1; subst h1; simp
    · split at h
      · injection h with h1; subst h1; simp
      · cases hb : listBuckets w with
        | none => simp only [hb] at h; injection h with h1; subst h1; simp
        | some buckets0 =>
          simp only [hb] at h
          split at h
          · injection h with h1; subst h1; simp
          · cases hl : loadAll w (sortStrings buckets0) with
            | error e1 =>
              simp only [hl] at h
              injection h with h1
              subst h1
              obtain ⟨b, rel, h2⟩ := loadAll_error w _ _ hl
              subst h2
              simp
            | ok byBucket0 =>
              simp only [hl] at h
              cases hr : resolveEntry w (sortStrings buckets0) byBucket0 opts.Entry with
              | error e1 =>
                simp only [hr] at h
                injection h with h1
                subst h1
                exact resolveEntry_error w _ _ _ _ hr
              | ok v => simp [hr] at h

theorem copyOne_error (w : World) (b : String) (r : Resource) (e : RunError)
    (h : copyOne w b r = some e) : ∃ rel step, e = .copyFailed b rel step := by
  unfold copyOne at h
  cases h1 : CopyFile w b r.RelDeclPath with
  | some c =>
    simp only [h1] at h
    injection h with h2
    exact ⟨_, _, h2.symm⟩
  | none =>
    simp only [h1] at h
    cases h3 : CopyFile w b r.RelXMLPath with
    | some c =>
      simp only [h3] at h
      injection h with h2
      exact ⟨_, _, h2.symm⟩
    | none => simp [h3] at h

theorem loop_failed_error (w : World) (maxDepth : Int) (buckets : List String)
    (byBucket : ByBucket) (fuel : Nat) (st : TravState) (stack : List node)
    (st1 : TravState) (e : RunError)
    (h : loop w maxDepth buckets byBucket fuel st stack = .failed st1 e) :
    ∃ b rel step, e = .copyFailed b rel step := by
  induction fuel generalizing st stack with
  | zero =>
    cases stack with
    | nil => simp [loop] at h
    | cons n stack => simp [loop] at h
  | succ fuel ih =>
    cases stack with
    | nil => simp [loop] at h
    | cons n stack =>
      unfold loop at h
      cases hbody : loopBody w maxDepth buckets byBucket st n stack with
      | fail st2 e2 =>
        rw [hbody] at h
        injection h with h1 h2
        subst h2
        obtain ⟨_, _, r, _, hc, _⟩ := loopBody_fail_cases w maxDepth buckets byBucket
          st n stack st2 e2 hbody
        obtain ⟨rel, step, h3⟩ := copyOne_error w n.Bucket r e2 hc
        exact ⟨_, _, _, h3⟩
      | next st2 stack2 =>
        rw [hbody] at h
        exact ih st2 stack2 h

theorem forRoots_failed_error (w : World) (maxDepth : Int) (buckets : List String)
    (byBucket : ByBucket) (fuel : Nat) (st : TravState) (roots : List node)
    (st1 : TravState) (e : RunError)
    (h : forRoots w maxDepth buckets byBucket fuel st roots = .failed st1 e) :
    ∃ b rel step, e = .copyFailed b rel step := by
  induction roots generalizing st with
  | nil => simp [forRoots] at h
  | cons root roots ih =>
    unfold forRoots at h
    cases hl : loop w maxDepth buckets byBucket fuel st
        [{ Bucket := root.Bucket, Name := root.Name, Depth := 0 }] with
    | done st2 =>
      rw [hl] at h
      exact ih st2 h
    | failed st2 e2 =>
      rw [hl] at h
      injection h with h1 h2
      subst h2
      exact loop_failed_error w maxDepth buckets byBucket fuel st _ st2 e2 hl
    | outOfFuel =>
      rw [hl] at h
      cases h

theorem Run_fuel (w : World) (opts : Options) : (Run w opts).2 ≠ some .fuelExhausted := by
  unfold Run
  cases hp : prepare w opts with
  | error e =>
    simp only
    intro h
    injection h with h1
    exact prepare_error w opts e hp h1
  | ok p =>
    simp only
    obtain ⟨st, hst⟩ := traverse_finalState_isSome w p
    cases ht : traverse w p with
    | done st1 => simp
    | failed st1 e =>
      simp only
      intro h
      injection h with h1
      subst h1
      obtain ⟨b, rel, step, h2⟩ := forRoots_failed_error w _ _ _ _ _ _ st1 _ ht
      cases h2
    | outOfFuel => simp [ht, LoopOut.finalState] at hst


theorem resolve_none_of_absent (buckets : List String) (byBucket : ByBucket) (tok : String)
    (h : ∀ b ∈ buckets, lookup2 byBucket b tok = none) :
    (resolveTokenAcrossBuckets buckets byBucket tok).1 = none := by
  unfold resolveTokenAcrossBuckets
  have hnil : buckets.filterMap
      (fun b => (lookup2 byBucket b tok).map (fun r => resolved.mk b r)) = [] := by
    rw [List.filterMap_eq_nil_iff]
    intro b hb
    simp [h b hb]
  rw [hnil]

theorem Run_of_done (w : World) (opts : Options) (p : Prepared) (st : TravState)
    (hp : prepare w opts = .ok p) (ht : traverse w p = .done st) :
    Run w opts = (finish p st, none) := by
  unfold Run
  simp only [hp, ht]

/-- C4 (unresolved completeness and uniqueness). In a successful run, a token that `Extract`
yields from the decl of an expanded node and that is a key of no bucket index occurs exactly
once in `Result.Unresolved`. -/
theorem unresolved_complete_unique (w : World) (opts : Options) (p : Prepared)
    (st : TravState) (hp : prepare w opts = .ok p) (ht : traverse w p = .done st)
    (b n : String) (r : Resource) (data tok : String)
    (hexp : (b, n) ∈ expandedPairs st)
    (hl : lookup2 p.byBucket b n = some r) (hr : w.readFile b r.RelDeclPath = some data)
    (htok : tok ∈ Extract data)
    (habs : ∀ bk ∈ p.buckets, lookup2 p.byBucket bk tok = none) :
    (Run w opts).2 = none
      ∧ ((Run w opts).1.Unresolved.filter (fun u => decide (u = tok))).length = 1 := by
  have hfin : (traverse w p).finalState = some st := by rw [ht]; rfl
  have hbook := traverse_book w p st hfin
  have hok := traverse_expandedOK w p st hfin
  rw [Run_of_done w opts p st hp ht]
  refine ⟨rfl, ?_⟩
  simp only [expandedPairs, List.mem_map] at hexp
  obtain ⟨e, he, heq⟩ := hexp
  obtain ⟨r1, d1, h1, h2, h3, h4⟩ := hok e he
  have hb1 : e.1 = b := congrArg Prod.fst heq
  have hn1 : e.2.1 = n := congrArg Prod.snd heq
  rw [hb1, hn1, hl] at h1
  injection h1 with h1
  subst h1
  rw [hb1, hr] at h2
  injection h2 with h2
  subst h2
  have hmem : tok ∈ st.unresolvedSet :=
    h4 tok (by rw [h3]; exact htok) (resolve_none_of_absent _ _ _ habs)
  have hperm : (sortStrings st.unresolvedSet).Perm st.unresolvedSet :=
    List.perm_insertionSort _ _
  have hnd : (sortStrings st.unresolvedSet).Nodup := hperm.nodup_iff.mpr hbook.unresNodup
  have hmem1 : tok ∈ sortStrings st.unresolvedSet := hperm.mem_iff.mpr hmem
  have hcount := List.count_eq_one_of_mem hnd hmem1
  simp only [finish]
  rw [List.count, List.countP_eq_length_filter] at hcount
  rw [← hcount]
  congr 1

/-- Witness of C4 on scenario 1: the token `sounds/ui/click.wav` of the decl of
`models/a/a.asset`. -/
theorem unresolved_complete_unique_witness :
    (Run scenario1World scenario1Opts).2 = none
      ∧ ((Run scenario1World scenario1Opts).1.Unresolved.filter
          (fun u => decide (u = "sounds/ui/click.wav"))).length = 1 :=
  unresolved_complete_unique scenario1World scenario1Opts scenario1Prepared scenario1Final
    (by decide) (by decide) "game1" "models/a/a.asset"
    { Name := "models/a/a.asset", RelDeclPath := "A.decl", RelXMLPath := "A.decl.xml" }
    "ref components/b/b.rulehandler\nref sounds/ui/click.wav\n" "sounds/ui/click.wav"
    (by decide) (by decide) (by decide) (by decide) (by decide)


/-! ### C6: cross-bucket lookup -/

theorem leChars_refl (a : List Char) : leChars a a = true := by
  induction a with
  | nil => rfl
  | cons c cs ih => simp [leChars, ih]

theorem strLe_refl (a : String) : strLe a a := leChars_refl a.data

theorem found_buckets (buckets : List String) (byBucket : ByBucket) (token : String) :
    (buckets.filterMap (fun b => (lookup2 byBucket b token).map (fun r => resolved.mk b r))).map
        (fun f => f.Bucket)
      = buckets.filter (fun b => (lookup2 byBucket b token).isSome) := by
  induction buckets with
  | nil => rfl
  | cons b bs ih =>
    cases h : lookup2 byBucket b token with
    | none => simp [List.filterMap_cons, List.filter_cons, h, ih]
    | some r => simp [List.filterMap_cons, List.filter_cons, h, ih]

theorem found_lookup (buckets : List String) (byBucket : ByBucket) (token : String)
    (f : resolved)
    (h : f ∈ buckets.filterMap
      (fun b => (lookup2 byBucket b token).map (fun r => resolved.mk b r))) :
    f.Bucket ∈ buckets ∧ lookup2 byBucket f.Bucket token = some f.Resource := by
  rw [List.mem_filterMap] at h
  obtain ⟨b, hb, hf⟩ := h
  cases hl : lookup2 byBucket b token with
  | none => simp [hl] at hf
  | some r =>
    simp only [hl, Option.map_some', Option.some.injEq] at hf
    subst hf
    exact ⟨hb, hl⟩

/-- C6 (ambiguity determinism). On a sorted bucket list, with `holders` the buckets whose
index has the token: with two or more holders `resolveTokenAcrossBuckets` returns a holder
that is smallest in the string order, together with the one ambiguity warning naming the
token and that bucket; with exactly one holder it returns that bucket and no warning; with
none it reports not-found and no warning. -/
theorem resolveToken_deterministic (buckets : List String) (byBucket : ByBucket)
    (token : String) (hs : buckets.Sorted strLe) :
    (2 ≤ (buckets.filter (fun b => (lookup2 byBucket b token).isSome)).length →
      ∃ b0 r, resolveTokenAcrossBuckets buckets byBucket token
          = (some { Bucket := b0, Resource := r }, some (.ambiguous token b0))
        ∧ lookup2 byBucket b0 token = some r ∧ b0 ∈ buckets
        ∧ ∀ b ∈ buckets, (lookup2 byBucket b token).isSome → strLe b0 b)
    ∧ (∀ b0, buckets.filter (fun b => (lookup2 byBucket b token).isSome) = [b0] →
      ∃ r, resolveTokenAcrossBuckets buckets byBucket token
          = (some { Bucket := b0, Resource := r }, none)
        ∧ lookup2 byBucket b0 token = some r)
    ∧ (buckets.filter (fun b => (lookup2 byBucket b token).isSome) = [] →
      resolveTokenAcrossBuckets buckets byBucket token = (none, none)) := by
  have hfb := found_buckets buckets byBucket token
  have hfl := found_lookup buckets byBucket token
  have hsub : (buckets.filter (fun b => (lookup2 byBucket b token).isSome)).Pairwise strLe :=
    List.Pairwise.sublist (List.filter_sublist _) hs
  unfold resolveTokenAcrossBuckets
  cases hfound : buckets.filterMap
      (fun b => (lookup2 byBucket b token).map (fun r => resolved.mk b r)) with
  | nil =>
    rw [hfound] at hfb
    simp only [List.map_nil] at hfb
    rw [← hfb]
    refine ⟨by simp, by simp, fun _ => rfl⟩
  | cons f rest =>
    rw [hfound] at hfb hfl
    have hf := hfl f (List.mem_cons_self _ _)
    cases rest with
    | nil =>
      simp only [List.map_cons, List.map_nil] at hfb
      rw [← hfb]
      refine ⟨by simp, ?_, by simp⟩
      intro b0 hb0
      simp only [List.cons.injEq, and_true] at hb0
      subst hb0
      exact ⟨f.Resource, rfl, hf.2⟩
    | cons g rest1 =>
      simp only [List.map_cons] at hfb
      rw [← hfb] at hsub ⊢
      refine ⟨?_, by simp, by simp⟩
      intro _
      refine ⟨f.Bucket, f.Resource, rfl, hf.2, hf.1, ?_⟩
      intro b hb hsome
      have hmem : b ∈ buckets.filter (fun b => (lookup2 byBucket b token).isSome) := by
        rw [List.mem_filter]
        exact ⟨hb, hsome⟩
      rw [← hfb] at hmem
      rcases List.mem_cons.mp hmem with h1 | h1
      · rw [h1]; exact strLe_refl _
      · exact (List.pairwise_cons.mp hsub).1 b h1

/-- Witness of C6: the token `x/t` is in the indices of `b1` and `b2` and not of `b0`. -/
theorem resolveToken_deterministic_witness :
    ["b0", "b1", "b2"].Sorted strLe
      ∧ ∃ b0 r, resolveTokenAcrossBuckets ["b0", "b1", "b2"]
          [("b0", []), ("b1", [("x/t", ⟨"x/t", "T.decl", "T.decl.xml"⟩)]),
           ("b2", [("x/t", ⟨"x/t", "U.decl", "U.decl.xml"⟩)])] "x/t"
          = (some { Bucket := b0, Resource := r }, some (.ambiguous "x/t" b0))
        ∧ lookup2 [("b0", []), ("b1", [("x/t", ⟨"x/t", "T.decl", "T.decl.xml"⟩)]),
           ("b2", [("x/t", ⟨"x/t", "U.decl", "U.decl.xml"⟩)])] b0 "x/t" = some r
        ∧ b0 ∈ ["b0", "b1", "b2"]
        ∧ ∀ b ∈ ["b0", "b1", "b2"],
            (lookup2 [("b0", []), ("b1", [("x/t", ⟨"x/t", "T.decl", "T.decl.xml"⟩)]),
              ("b2", [("x/t", ⟨"x/t", "U.decl", "U.decl.xml"⟩)])] b "x/t").isSome → strLe b0 b :=
  ⟨by decide, (resolveToken_deterministic ["b0", "b1", "b2"]
    [("b0", []), ("b1", [("x/t", ⟨"x/t", "T.decl", "T.decl.xml"⟩)]),
     ("b2", [("x/t", ⟨"x/t", "U.decl", "U.decl.xml"⟩)])] "x/t" (by decide)).1 (by decide)⟩


/-! ### C1, C8, C9, C10: runs on concrete trees -/

/-- C1 at its failing input. On the tree with buckets `a` and `a::b`, `Run` succeeds with no
warning; the pair (`a::b`, `c/d`) is indexed and one reference away from the root
(`a`, `b::c/d`), yet it is not copied, because both pairs have the visited key
`a::b::c/d`. -/
theorem closure_misses_colliding_key :
    prepare collisionWorld collisionOpts = .ok collisionPrepared
      ∧ Run collisionWorld collisionOpts
        = ({ RootsProcessed := 1, VisitedNodes := 1, CopiedDecl := 1, CopiedXML := 1,
             UnresolvedUnique := 0, Unresolved := [], Warnings := [] }, none)
      ∧ runFinal collisionWorld collisionOpts = some collisionFinal
      ∧ ("a::b", "c/d") ∈ reachWithin collisionWorld collisionPrepared 1
      ∧ (lookup2 collisionPrepared.byBucket "a::b" "c/d").isSome = true
      ∧ ("a::b", "c/d") ∉ copiedPairs collisionFinal
      ∧ nodeKey "a" "b::c/d" = nodeKey "a::b" "c/d" := by
  decide

/-- C8 as stated fails: in scenario 1 `Result.Unresolved` is not the single entry
`sounds/ui/click.wav` and `UnresolvedUnique` is not 1. -/
theorem scenario1_unresolved_not_sole :
    (Run scenario1World scenario1Opts).1.Unresolved ≠ ["sounds/ui/click.wav"]
      ∧ (Run scenario1World scenario1Opts).1.UnresolvedUnique ≠ 1 := by
  decide

/-- C8 amended. In scenario 1 `Run` succeeds, copies exactly three pairs, one in `game1` and
two in `game2`, and `Result.Unresolved` is `//` (the token of `// no refs`) and
`sounds/ui/click.wav`, with `UnresolvedUnique = 2`. -/
theorem scenario1_outcome :
    Run scenario1World scenario1Opts
        = ({ RootsProcessed := 1, VisitedNodes := 3, CopiedDecl := 3, CopiedXML := 3,
             UnresolvedUnique := 2, Unresolved := ["//", "sounds/ui/click.wav"],
             Warnings := [] }, none)
      ∧ (runFinal scenario1World scenario1Opts).map copiedPairs
        = some [("game2", "models/c/c.png"), ("game2", "components/b/b.rulehandler"),
                ("game1", "models/a/a.asset")]
      ∧ Extract "// no refs" = ["//"] := by
  decide

/-- One iteration on a node that is popped unvisited, within the depth limit and indexed, and
whose decl cannot be read: when `copyOne` has succeeded, the iteration does not fail, appends
the one warning, leaves the stack and the expansion records as they were and puts the node
in the visited and the copied set; when `copyOne` fails, the iteration fails with that
error, and `copyOne` does fail when the decl file cannot be opened. -/
theorem loopBody_decl_read_failure (w : World) (maxDepth : Int) (buckets : List String)
    (byBucket : ByBucket) (st : TravState) (n : node) (stack : List node) (r : Resource)
    (hvis : nodeKey n.Bucket n.Name ∉ st.visited) (hcop : nodeKey n.Bucket n.Name ∉ st.copied)
    (hd : ¬ n.Depth > maxDepth) (hl : lookup2 byBucket n.Bucket n.Name = some r)
    (hread : w.readFile n.Bucket r.RelDeclPath = none) :
    (copyOne w n.Bucket r = none →
      loopBody w maxDepth buckets byBucket st n stack
        = .next { st with visited := nodeKey n.Bucket n.Name :: st.visited,
                          copied := nodeKey n.Bucket n.Name :: st.copied,
                          copyCalls := (n.Bucket, n.Name, r) :: st.copyCalls,
                          warnings := st.warnings ++ [.readFailed n.Bucket r.RelDeclPath] }
            stack)
    ∧ (∀ e, copyOne w n.Bucket r = some e →
      loopBody w maxDepth buckets byBucket st n stack
        = .fail { st with visited := nodeKey n.Bucket n.Name :: st.visited } e)
    ∧ (w.openSrc n.Bucket r.RelDeclPath = false →
      copyOne w n.Bucket r = some (.copyFailed n.Bucket r.RelDeclPath .openSrc)) := by
  refine ⟨?_, ?_, ?_⟩
  · intro hc
    unfold loopBody
    simp only [hvis, hcop, hd, hl, hc, if_false]
    unfold expandNode
    simp only [hread]
  · intro e hc
    unfold loopBody
    simp only [hvis, hcop, hd, hl, hc, if_false]
  · intro ho
    simp [copyOne, CopyFile, ho]

/-- C10 as stated fails. The entry is in two buckets and the decl file of the second is
absent: `Run` returns the error of `copyOne` together with a `Result` that is not empty,
`RootsProcessed` is 2 and `Warnings` holds the multiple-buckets warning. -/
theorem copy_failure_returns_partial_result :
    Run missingDeclWorld scenario1Opts
        = ({ RootsProcessed := 2, VisitedNodes := 0, CopiedDecl := 0, CopiedXML := 0,
             UnresolvedUnique := 0, Unresolved := [],
             Warnings := [.entryMultiple "models/a/a.asset"] },
           some (.copyFailed "game2" "A.decl" .openSrc))
      ∧ (Run missingDeclWorld scenario1Opts).1 ≠ Result.empty := by
  decide

/-- C10 amended. Whenever `Run` returns an error, `VisitedNodes`, `CopiedDecl`, `CopiedXML`
and `UnresolvedUnique` are 0 and `Unresolved` is empty. When the error arises before the
traversal the whole `Result` is empty; otherwise the error is a copy failure of the
traversal, `RootsProcessed` is the number of roots and `Warnings` holds the warnings
recorded up to the failure. -/
theorem result_on_failure (w : World) (opts : Options) (e : RunError)
    (h : (Run w opts).2 = some e) :
    (Run w opts).1.VisitedNodes = 0 ∧ (Run w opts).1.CopiedDecl = 0
      ∧ (Run w opts).1.CopiedXML = 0 ∧ (Run w opts).1.UnresolvedUnique = 0
      ∧ (Run w opts).1.Unresolved = []
      ∧ ((prepare w opts = .error e ∧ (Run w opts).1 = Result.empty)
        ∨ ∃ p st, prepare w opts = .ok p ∧ traverse w p = .failed st e
            ∧ (∃ b rel step, e = .copyFailed b rel step)
            ∧ (Run w opts).1.RootsProcessed = p.roots.length
            ∧ (Run w opts).1.Warnings = st.warnings) := by
  cases hp : prepare w opts with
  | error e1 =>
    have hrun : Run w opts = (Result.empty, some e1) := by
      unfold Run
      simp only [hp]
    rw [hrun] at h ⊢
    injection h with h
    subst h
    exact ⟨rfl, rfl, rfl, rfl, rfl, Or.inl ⟨rfl, rfl⟩⟩
  | ok p =>
    cases ht : traverse w p with
    | done st =>
      have hrun : Run w opts = (finish p st, none) := Run_of_done w opts p st hp ht
      rw [hrun] at h
      cases h
    | outOfFuel =>
      obtain ⟨st, hst⟩ := traverse_finalState_isSome w p
      simp [ht, LoopOut.finalState] at hst
    | failed st e1 =>
      have hrun : Run w opts
          = ({ Result.empty with RootsProcessed := p.roots.length, Warnings := st.warnings },
             some e1) := by
        unfold Run
        simp only [hp, ht]
      rw [hrun] at h ⊢
      injection h with h
      subst h
      exact ⟨rfl, rfl, rfl, rfl, rfl, Or.inr ⟨p, st, rfl, ht,
        forRoots_failed_error w _ _ _ _ _ _ st e1 ht, rfl, rfl⟩⟩

/-- Witness of C10 amended: the copy failure on the tree with the absent decl file. -/
theorem result_on_failure_witness :
    (Run missingDeclWorld scenario1Opts).2 = some (.copyFailed "game2" "A.decl" .openSrc)
      ∧ (Run missingDeclWorld scenario1Opts).1.VisitedNodes = 0
      ∧ (Run missingDeclWorld scenario1Opts).1.Unresolved = [] :=
  ⟨by decide,
    (result_on_failure missingDeclWorld scenario1Opts
      (.copyFailed "game2" "A.decl" .openSrc) (by decide)).1,
    (result_on_failure missingDeclWorld scenario1Opts
      (.copyFailed "game2" "A.decl" .openSrc) (by decide)).2.2.2.2.1⟩

/-! ### The reference graph -/

theorem reach_root (w : World) (p : Prepared) (n : node) (h : n ∈ p.roots) :
    Reach w p (n.Bucket, n.Name) :=
  ⟨0, by simp only [reachWithin, List.mem_map]; exact ⟨n, h, rfl⟩⟩

theorem reachWithin_mono (w : World) (p : Prepared) (k : Nat) (x : String × String)
    (h : x ∈ reachWithin w p k) : x ∈ reachWithin w p (k + 1) := by
  simp only [reachWithin, List.mem_append]
  exact Or.inl h

theorem reach_step (w : World) (p : Prepared) (x y : String × String) (hx : Reach w p x)
    (hy : y ∈ childPairs w p.buckets p.byBucket x) : Reach w p y := by
  obtain ⟨k, hk⟩ := hx
  refine ⟨k + 1, ?_⟩
  simp only [reachWithin, List.mem_append, List.mem_flatten, List.mem_map]
  exact Or.inr ⟨_, ⟨x, hk, rfl⟩, hy⟩

theorem reach_induction (w : World) (p : Prepared) (P : String × String → Prop)
    (hroot : ∀ n ∈ p.roots, P (n.Bucket, n.Name))
    (hstep : ∀ x y, Reach w p x → P x → y ∈ childPairs w p.buckets p.byBucket x → P y)
    (x : String × String) (hx : Reach w p x) : P x := by
  obtain ⟨k, hk⟩ := hx
  induction k generalizing x with
  | zero =>
    simp only [reachWithin, List.mem_map] at hk
    obtain ⟨n, hn, rfl⟩ := hk
    exact hroot n hn
  | succ k ih =>
    simp only [reachWithin, List.mem_append, List.mem_flatten, List.mem_map] at hk
    rcases hk with hk | ⟨l, ⟨x0, hx0, rfl⟩, hy⟩
    · exact ih x hk
    · exact hstep x0 x ⟨k, hx0⟩ (ih x0 hx0) hy

theorem childNodes_mem (buckets : List String) (byBucket : ByBucket) (depth : Int)
    (toks : List String) (m : node) (h : m ∈ childNodes buckets byBucket depth toks) :
    m.Bucket ∈ buckets ∧ m.Depth = depth + 1
      ∧ ∃ tok ∈ toks, ∃ rr, (resolveTokenAcrossBuckets buckets byBucket tok).1 = some rr
          ∧ m.Bucket = rr.Bucket ∧ m.Name = rr.Resource.Name := by
  simp only [childNodes, List.mem_filterMap] at h
  obtain ⟨tok, htok, hm⟩ := h
  cases hr : (resolveTokenAcrossBuckets buckets byBucket tok).1 with
  | none => simp [hr] at hm
  | some rr =>
    simp only [hr, Option.map_some', Option.some.injEq] at hm
    subst hm
    refine ⟨?_, rfl, tok, htok, rr, hr, rfl, rfl⟩
    unfold resolveTokenAcrossBuckets at hr
    have hfl := found_lookup buckets byBucket tok
    cases hfound : buckets.filterMap
        (fun b => (lookup2 byBucket b tok).map (fun r => resolved.mk b r)) with
    | nil => simp [hfound] at hr
    | cons f rest =>
      rw [hfound] at hfl hr
      have hf := (hfl f (List.mem_cons_self _ _)).1
      cases rest with
      | nil =>
        simp only [Option.some.injEq] at hr
        subst hr
        exact hf
      | cons g rest1 =>
        simp only [Option.some.injEq] at hr
        subst hr
        exact hf

theorem childNodes_pairs (buckets : List String) (byBucket : ByBucket) (d1 d2 : Int)
    (toks : List String) :
    (childNodes buckets byBucket d1 toks).map (fun c => (c.Bucket, c.Name))
      = (childNodes buckets byBucket d2 toks).map (fun c => (c.Bucket, c.Name)) := by
  induction toks with
  | nil => rfl
  | cons tok toks ih =>
    simp only [childNodes, List.filterMap_cons] at ih ⊢
    cases hr : (resolveTokenAcrossBuckets buckets byBucket tok).1 with
    | none => simpa [hr] using ih
    | some rr => simpa [hr] using ih

theorem childPairs_bucket (w : World) (buckets : List String) (byBucket : ByBucket)
    (x y : String × String) (h : y ∈ childPairs w buckets byBucket x) : y.1 ∈ buckets := by
  unfold childPairs at h
  cases hl : lookup2 byBucket x.1 x.2 with
  | none => simp [hl] at h
  | some r =>
    simp only [hl] at h
    cases hr : w.readFile x.1 r.RelDeclPath with
    | none => simp [hr] at h
    | some data =>
      simp only [hr, List.mem_map] at h
      obtain ⟨m, hm, rfl⟩ := h
      exact (childNodes_mem buckets byBucket 0 _ m hm).1

theorem reach_bucket (w : World) (p : Prepared)
    (hroots : ∀ n ∈ p.roots, n.Bucket ∈ p.buckets) (x : String × String)
    (hx : Reach w p x) : x.1 ∈ p.buckets := by
  refine reach_induction w p (fun x => x.1 ∈ p.buckets) hroots ?_ x hx
  intro x0 y _ _ hy
  exact childPairs_bucket w p.buckets p.byBucket x0 y hy

theorem nodesDistinct_of_keysDistinct (w : World) (p : Prepared)
    (hkeys : KeysDistinct p.buckets) (hroots : ∀ n ∈ p.roots, n.Bucket ∈ p.buckets) :
    NodesDistinct w p := by
  intro x y hx hy hk
  obtain ⟨h1, h2⟩ := hkeys x.1 (reach_bucket w p hroots x hx) y.1
    (reach_bucket w p hroots y hy) x.2 y.2 hk
  exact Prod.ext h1 h2

/-- When the pairs reachable by at most `k` edges are closed under references, they are all
the reachable pairs. -/
theorem reach_of_saturated (w : World) (p : Prepared) (k : Nat)
    (hsat : ∀ x ∈ reachWithin w p k, ∀ y ∈ childPairs w p.buckets p.byBucket x,
      y ∈ reachWithin w p k)
    (x : String × String) (hx : Reach w p x) : x ∈ reachWithin w p k := by
  refine reach_induction w p (fun x => x ∈ reachWithin w p k) ?_ ?_ x hx
  · intro n hn
    have h0 : (n.Bucket, n.Name) ∈ reachWithin w p 0 := by
      simp only [reachWithin, List.mem_map]
      exact ⟨n, hn, rfl⟩
    clear hsat
    induction k with
    | zero => exact h0
    | succ k ih => exact reachWithin_mono w p k _ ih
  · intro x0 y _ hx0 hy
    exact hsat x0 hx0 y hy

/-- A test of `NodesDistinct` on a finite list: the pairs reachable by at most `k` edges are
closed under references and no two of them share a key. -/
theorem nodesDistinct_of_saturated (w : World) (p : Prepared) (k : Nat)
    (hsat : ∀ x ∈ reachWithin w p k, ∀ y ∈ childPairs w p.buckets p.byBucket x,
      y ∈ reachWithin w p k)
    (hd : ∀ x ∈ reachWithin w p k, ∀ y ∈ reachWithin w p k,
      nodeKey x.1 x.2 = nodeKey y.1 y.2 → x = y) :
    NodesDistinct w p :=
  fun x y hx hy hk =>
    hd x (reach_of_saturated w p k hsat x hx) y (reach_of_saturated w p k hsat y hy) hk

/-! ### Growth of the warnings and of the visited set -/

theorem expandNode_warnings (w : World) (buckets : List String) (byBucket : ByBucket)
    (st : TravState) (n : node) (r : Resource) (stack : List node) :
    ∃ extra, (expandNode w buckets byBucket st n r stack).1.warnings = st.warnings ++ extra
      ∧ ∀ x ∈ extra, x.isDepthLimit = false := by
  unfold expandNode
  cases w.readFile n.Bucket r.RelDeclPath with
  | none =>
    refine ⟨[.readFailed n.Bucket r.RelDeclPath], rfl, ?_⟩
    intro x hx
    simp only [List.mem_singleton] at hx
    subst hx
    rfl
  | some data => exact pushTokens_warns _ _ _ _ _ _ _

theorem loopBody_warnings (w : World) (maxDepth : Int) (buckets : List String)
    (byBucket : ByBucket) (st : TravState) (n : node) (stack : List node)
    (st1 : TravState) (stack1 : List node)
    (h : loopBody w maxDepth buckets byBucket st n stack = .next st1 stack1) :
    ∃ extra, st1.warnings = st.warnings ++ extra := by
  rcases loopBody_next_cases w maxDepth buckets byBucket st n stack st1 stack1 h with
    ⟨_, h1, _⟩ | ⟨_, _, h1, _⟩ | ⟨_, _, _, h1, _⟩ | ⟨_, _, r, hl, st2, hst2, h1, _⟩
  · subst h1; exact ⟨[], by simp⟩
  · subst h1; exact ⟨_, rfl⟩
  · subst h1; exact ⟨[], by simp⟩
  · subst h1
    obtain ⟨extra, he, _⟩ := expandNode_warnings w buckets byBucket st2 n r stack
    refine ⟨extra, ?_⟩
    rw [he]
    rcases hst2 with ⟨_, h2⟩ | ⟨_, _, h2⟩ <;> subst h2 <;> rfl

theorem loop_warnings (w : World) (maxDepth : Int) (buckets : List String)
    (byBucket : ByBucket) (fuel : Nat) (st : TravState) (stack : List node) (st1 : TravState)
    (h : (loop w maxDepth buckets byBucket fuel st stack).finalState = some st1) :
    ∃ extra, st1.warnings = st.warnings ++ extra := by
  refine loop_induction w maxDepth buckets byBucket
    (fun s => ∃ extra, s.warnings = st.warnings ++ extra) ?_ ?_ fuel st stack ⟨[], by simp⟩ st1 h
  · intro s n stk s1 stk1 ⟨e0, h0⟩ hb
    obtain ⟨e1, h1⟩ := loopBody_warnings w maxDepth buckets byBucket s n stk s1 stk1 hb
    exact ⟨e0 ++ e1, by rw [h1, h0, List.append_assoc]⟩
  · intro s n stk s1 e ⟨e0, h0⟩ hb
    obtain ⟨_, _, r, _, _, h1⟩ := loopBody_fail_cases w maxDepth buckets byBucket s n stk s1 e hb
    subst h1
    exact ⟨e0, h0⟩

theorem noDepthWarning_of_append (ws extra : List Warning)
    (h : noDepthWarning (ws ++ extra)) : noDepthWarning ws := by
  intro x hx
  exact h x (List.mem_append.mpr (Or.inl hx))

theorem loopBody_visited (w : World) (maxDepth : Int) (buckets : List String)
    (byBucket : ByBucket) (st : TravState) (n : node) (stack : List node)
    (st1 : TravState) (stack1 : List node)
    (h : loopBody w maxDepth buckets byBucket st n stack = .next st1 stack1) :
    nodeKey n.Bucket n.Name ∈ st1.visited ∧ (∀ k ∈ st.visited, k ∈ st1.visited)
      ∧ ∀ m ∈ stack, m ∈ stack1 := by
  rcases loopBody_next_cases w maxDepth buckets byBucket st n stack st1 stack1 h with
    ⟨hv, h1, h2⟩ | ⟨_, _, h1, h2⟩ | ⟨_, _, _, h1, h2⟩ | ⟨_, _, r, hl, st2, hst2, h1, h2⟩
  · subst h1; subst h2; exact ⟨hv, fun _ hk => hk, fun _ hm => hm⟩
  · subst h1; subst h2
    exact ⟨List.mem_cons_self _ _, fun _ hk => List.mem_cons_of_mem _ hk, fun _ hm => hm⟩
  · subst h1; subst h2
    exact ⟨List.mem_cons_self _ _, fun _ hk => List.mem_cons_of_mem _ hk, fun _ hm => hm⟩
  · subst h1; subst h2
    have hv := (expandNode_visited w buckets byBucket st2 n r stack).1
    have hst : st2.visited = nodeKey n.Bucket n.Name :: st.visited := by
      rcases hst2 with ⟨_, h2⟩ | ⟨_, _, h2⟩ <;> subst h2 <;> rfl
    rw [hv, hst]
    refine ⟨List.mem_cons_self _ _, fun _ hk => List.mem_cons_of_mem _ hk, ?_⟩
    intro m hm
    unfold expandNode
    cases w.readFile n.Bucket r.RelDeclPath with
    | none => exact hm
    | some data =>
      simp only [pushTokens_stack]
      exact List.mem_append.mpr (Or.inr hm)

theorem loop_visits (w : World) (maxDepth : Int) (buckets : List String)
    (byBucket : ByBucket) (fuel : Nat) (st : TravState) (stack : List node) (st1 : TravState)
    (h : loop w maxDepth buckets byBucket fuel st stack = .done st1) :
    (∀ m ∈ stack, nodeKey m.Bucket m.Name ∈ st1.visited)
      ∧ ∀ k ∈ st.visited, k ∈ st1.visited := by
  induction fuel generalizing st stack with
  | zero =>
    cases stack with
    | nil => simp [loop] at h; subst h; simp
    | cons n stack => simp [loop] at h
  | succ fuel ih =>
    cases stack with
    | nil => simp [loop] at h; subst h; simp
    | cons n stack =>
      unfold loop at h
      cases hbody : loopBody w maxDepth buckets byBucket st n stack with
      | fail st2 e => rw [hbody] at h; cases h
      | next st2 stack2 =>
        rw [hbody] at h
        obtain ⟨h1, h2⟩ := ih st2 stack2 h
        obtain ⟨h3, h4, h5⟩ := loopBody_visited w maxDepth buckets byBucket st n stack
          st2 stack2 hbody
        constructor
        · intro m hm
          rcases List.mem_cons.mp hm with hm | hm
          · subst hm; exact h2 _ h3
          · exact h1 m (h5 m hm)
        · intro k hk
          exact h2 k (h4 k hk)


/-! ### The closure invariant -/

theorem expandNode_stack_mem (w : World) (buckets : List String) (byBucket : ByBucket)
    (st : TravState) (n : node) (r : Resource) (stack : List node) (m : node) :
    m ∈ (expandNode w buckets byBucket st n r stack).2 ↔
      m ∈ stack ∨ ∃ data, w.readFile n.Bucket r.RelDeclPath = some data
        ∧ m ∈ childNodes buckets byBucket n.Depth (Extract data) := by
  unfold expandNode
  cases hr : w.readFile n.Bucket r.RelDeclPath with
  | none => simp
  | some data =>
    simp only [pushTokens_stack, List.mem_append, List.mem_reverse, Option.some.injEq,
      exists_eq_left']
    exact Or.comm

theorem childPairs_iff (w : World) (buckets : List String) (byBucket : ByBucket)
    (n : node) (r : Resource) (hl : lookup2 byBucket n.Bucket n.Name = some r)
    (y : String × String) :
    y ∈ childPairs w buckets byBucket (n.Bucket, n.Name) ↔
      ∃ data, w.readFile n.Bucket r.RelDeclPath = some data
        ∧ ∃ m ∈ childNodes buckets byBucket n.Depth (Extract data), (m.Bucket, m.Name) = y := by
  unfold childPairs
  simp only [hl]
  cases hr : w.readFile n.Bucket r.RelDeclPath with
  | none => simp
  | some data =>
    simp only [Option.some.injEq, exists_eq_left']
    rw [childNodes_pairs buckets byBucket 0 n.Depth]
    simp only [List.mem_map]

theorem childPairs_of_unindexed (w : World) (buckets : List String) (byBucket : ByBucket)
    (x : String × String) (hl : lookup2 byBucket x.1 x.2 = none) :
    childPairs w buckets byBucket x = [] := by
  unfold childPairs
  simp only [hl]

theorem closure_old_child (stack stack1 : List node) (visited visited1 : List String)
    (n : node) (y : String × String)
    (hvis : ∀ k ∈ visited, k ∈ visited1) (hkey : nodeKey n.Bucket n.Name ∈ visited1)
    (hstack : ∀ m ∈ stack, m ∈ stack1)
    (h : nodeKey y.1 y.2 ∈ visited ∨ ∃ m ∈ n :: stack, (m.Bucket, m.Name) = y) :
    nodeKey y.1 y.2 ∈ visited1 ∨ ∃ m ∈ stack1, (m.Bucket, m.Name) = y := by
  rcases h with h | ⟨m, hm, hy⟩
  · exact Or.inl (hvis _ h)
  · rcases List.mem_cons.mp hm with hm | hm
    · subst hm
      subst hy
      exact Or.inl hkey
    · exact Or.inr ⟨m, hstack m hm, hy⟩

theorem loopBody_closure (w : World) (p : Prepared) (st : TravState) (n : node)
    (stack : List node) (st1 : TravState) (stack1 : List node)
    (hdist : NodesDistinct w p)
    (hbook : Book st) (hc : Closure w p st (n :: stack))
    (h : loopBody w p.maxDepth p.buckets p.byBucket st n stack = .next st1 stack1)
    (hnd : noDepthWarning st1.warnings) : Closure w p st1 stack1 := by
  have hnR : Reach w p (n.Bucket, n.Name) := hc.stackReach n (List.mem_cons_self _ _)
  have hkeyEq : ∀ x, Reach w p x → nodeKey x.1 x.2 = nodeKey n.Bucket n.Name →
      x = (n.Bucket, n.Name) :=
    fun x hx hk => hdist x (n.Bucket, n.Name) hx hnR hk
  have hstackR : ∀ m ∈ stack, Reach w p (m.Bucket, m.Name) :=
    fun m hm => hc.stackReach m (List.mem_cons_of_mem _ hm)
  rcases loopBody_next_cases w p.maxDepth p.buckets p.byBucket st n stack st1 stack1 h with
    ⟨hv, h1, h2⟩ | ⟨_, _, h1, _⟩ | ⟨hv, _, hl, h1, h2⟩ | ⟨hv, _, r, hl, st2, hst2, h1, h2⟩
  · subst h1; subst h2
    refine ⟨hstackR, hc.visitedReach, ?_, hc.copiedAll, hc.copiedSound⟩
    intro x hx hxv y hy
    exact closure_old_child _ _ _ _ n y (fun _ hk => hk) hv
      (fun _ hm => hm) (hc.closed x hx hxv y hy)
  · subst h1
    have := hnd (.depthLimit p.maxDepth n.Bucket n.Name)
      (List.mem_append.mpr (Or.inr (List.mem_singleton.mpr rfl)))
    simp [Warning.isDepthLimit] at this
  · subst h1; subst h2
    refine ⟨hstackR, ?_, ?_, ?_, hc.copiedSound⟩
    · intro k hk
      rcases List.mem_cons.mp hk with hk | hk
      · exact ⟨(n.Bucket, n.Name), hnR, hk.symm⟩
      · exact hc.visitedReach k hk
    · intro x hx hxv y hy
      rcases List.mem_cons.mp hxv with hxk | hxk
      · have hxe := hkeyEq x hx hxk
        subst hxe
        rw [childPairs_of_unindexed w p.buckets p.byBucket _ hl] at hy
        simp at hy
      · exact closure_old_child _ _ _ _ n y
          (fun _ hk => List.mem_cons_of_mem _ hk) (List.mem_cons_self _ _)
          (fun _ hm => hm) (hc.closed x hx hxk y hy)
    · intro x hx hxv hsome
      rcases List.mem_cons.mp hxv with hxk | hxk
      · have hxe := hkeyEq x hx hxk
        subst hxe
        simp [hl] at hsome
      · exact hc.copiedAll x hx hxk hsome
  · have hncop : nodeKey n.Bucket n.Name ∉ st.copied := fun hm => hv (hbook.copiedSub.subset hm)
    rcases hst2 with ⟨hcop, _⟩ | ⟨_, _, hst2⟩
    · exact absurd hcop hncop
    · obtain ⟨hev, _, hecc⟩ := expandNode_visited w p.buckets p.byBucket st2 n r stack
      have hvis1 : st1.visited = nodeKey n.Bucket n.Name :: st.visited := by
        rw [h1, hev, hst2]
      have hcc1 : st1.copyCalls = (n.Bucket, n.Name, r) :: st.copyCalls := by
        rw [h1, hecc, hst2]
      have hstk : ∀ m, m ∈ stack1 ↔ m ∈ stack ∨ ∃ data,
          w.readFile n.Bucket r.RelDeclPath = some data
            ∧ m ∈ childNodes p.buckets p.byBucket n.Depth (Extract data) := by
        intro m
        rw [h2]
        exact expandNode_stack_mem w p.buckets p.byBucket st2 n r stack m
      refine ⟨?_, ?_, ?_, ?_, ?_⟩
      · intro m hm
        rcases (hstk m).mp hm with hm | ⟨data, hr, hm⟩
        · exact hstackR m hm
        · exact reach_step w p _ _ hnR
            ((childPairs_iff w p.buckets p.byBucket n r hl _).mpr ⟨data, hr, m, hm, rfl⟩)
      · intro k hk
        rw [hvis1] at hk
        rcases List.mem_cons.mp hk with hk | hk
        · exact ⟨(n.Bucket, n.Name), hnR, hk.symm⟩
        · exact hc.visitedReach k hk
      · intro x hx hxv y hy
        rw [hvis1] at hxv ⊢
        rcases List.mem_cons.mp hxv with hxk | hxk
        · have hxe := hkeyEq x hx hxk
          subst hxe
          obtain ⟨data, hr, m, hm, hmy⟩ :=
            (childPairs_iff w p.buckets p.byBucket n r hl y).mp hy
          exact Or.inr ⟨m, (hstk m).mpr (Or.inr ⟨data, hr, hm⟩), hmy⟩
        · exact closure_old_child stack stack1 st.visited _ n y
            (fun _ hk => List.mem_cons_of_mem _ hk) (List.mem_cons_self _ _)
            (fun m hm => (hstk m).mpr (Or.inl hm)) (hc.closed x hx hxk y hy)
      · intro x hx hxv hsome
        rw [hvis1] at hxv
        simp only [copiedPairs, hcc1, List.map_cons, List.mem_cons]
        rcases List.mem_cons.mp hxv with hxk | hxk
        · exact Or.inl (hkeyEq x hx hxk)
        · exact Or.inr (hc.copiedAll x hx hxk hsome)
      · intro c hc1
        rw [hcc1] at hc1
        rcases List.mem_cons.mp hc1 with hc1 | hc1
        · subst hc1
          exact ⟨hnR, hl⟩
        · exact hc.copiedSound c hc1

theorem loop_closure (w : World) (p : Prepared) (fuel : Nat) (st : TravState)
    (stack : List node) (st1 : TravState)
    (hdist : NodesDistinct w p)
    (hbook : Book st) (hc : Closure w p st stack)
    (h : loop w p.maxDepth p.buckets p.byBucket fuel st stack = .done st1)
    (hnd : noDepthWarning st1.warnings) : Closure w p st1 [] := by
  induction fuel generalizing st stack with
  | zero =>
    cases stack with
    | nil => simp [loop] at h; subst h; exact hc
    | cons n stack => simp [loop] at h
  | succ fuel ih =>
    cases stack with
    | nil => simp [loop] at h; subst h; exact hc
    | cons n stack =>
      unfold loop at h
      cases hbody : loopBody w p.maxDepth p.buckets p.byBucket st n stack with
      | fail st2 e => rw [hbody] at h; cases h
      | next st2 stack2 =>
        rw [hbody] at h
        simp only at h
        obtain ⟨extra, hex⟩ := loop_warnings w p.maxDepth p.buckets p.byBucket fuel st2 stack2
          st1 (by rw [h]; rfl)
        have hnd2 : noDepthWarning st2.warnings := by
          rw [hex] at hnd
          exact noDepthWarning_of_append _ _ hnd
        exact ih st2 stack2
          ((loopBody_book w p.maxDepth p.buckets p.byBucket st n stack hbook).1 _ _ hbody)
          (loopBody_closure w p st n stack st2 stack2 hdist hbook hc hbody hnd2) h

theorem forRoots_warnings (w : World) (maxDepth : Int) (buckets : List String)
    (byBucket : ByBucket) (fuel : Nat) (st : TravState) (roots : List node) (st1 : TravState)
    (h : (forRoots w maxDepth buckets byBucket fuel st roots).finalState = some st1) :
    ∃ extra, st1.warnings = st.warnings ++ extra := by
  refine forRoots_induction w maxDepth buckets byBucket
    (fun s => ∃ extra, s.warnings = st.warnings ++ extra) ?_ ?_ fuel st roots ⟨[], by simp⟩ st1 h
  · intro s n stk s1 stk1 ⟨e0, h0⟩ hb
    obtain ⟨e1, h1⟩ := loopBody_warnings w maxDepth buckets byBucket s n stk s1 stk1 hb
    exact ⟨e0 ++ e1, by rw [h1, h0, List.append_assoc]⟩
  · intro s n stk s1 e ⟨e0, h0⟩ hb
    obtain ⟨_, _, r, _, _, h1⟩ := loopBody_fail_cases w maxDepth buckets byBucket s n stk s1 e hb
    subst h1
    exact ⟨e0, h0⟩

theorem forRoots_closure (w : World) (p : Prepared) (fuel : Nat) (st : TravState)
    (roots : List node) (st1 : TravState)
    (hdist : NodesDistinct w p)
    (hsub : ∀ n ∈ roots, n ∈ p.roots)
    (hbook : Book st) (hc : Closure w p st [])
    (h : forRoots w p.maxDepth p.buckets p.byBucket fuel st roots = .done st1)
    (hnd : noDepthWarning st1.warnings) :
    Closure w p st1 [] ∧ (∀ n ∈ roots, nodeKey n.Bucket n.Name ∈ st1.visited)
      ∧ ∀ k ∈ st.visited, k ∈ st1.visited := by
  induction roots generalizing st with
  | nil =>
    simp [forRoots] at h
    subst h
    exact ⟨hc, by simp, fun _ hk => hk⟩
  | cons root roots ih =>
    unfold forRoots at h
    cases hl : loop w p.maxDepth p.buckets p.byBucket fuel st
        [{ Bucket := root.Bucket, Name := root.Name, Depth := 0 }] with
    | failed st2 e => rw [hl] at h; cases h
    | outOfFuel => rw [hl] at h; cases h
    | done st2 =>
      rw [hl] at h
      simp only at h
      obtain ⟨extra, hex⟩ := forRoots_warnings w p.maxDepth p.buckets p.byBucket fuel st2
        roots st1 (by rw [h]; rfl)
      have hnd2 : noDepthWarning st2.warnings := by
        rw [hex] at hnd
        exact noDepthWarning_of_append _ _ hnd
      have hc0 : Closure w p st [{ Bucket := root.Bucket, Name := root.Name, Depth := 0 }] := by
        refine ⟨?_, hc.visitedReach, ?_, hc.copiedAll, hc.copiedSound⟩
        · intro m hm
          simp only [List.mem_singleton] at hm
          subst hm
          exact reach_root w p root (hsub root (List.mem_cons_self _ _))
        · intro x hx hxv y hy
          rcases hc.closed x hx hxv y hy with h1 | ⟨m, hm, _⟩
          · exact Or.inl h1
          · simp at hm
      have hc2 := loop_closure w p fuel st _ st2 hdist hbook hc0 hl hnd2
      have hb2 := loop_book w p.maxDepth p.buckets p.byBucket fuel st _ hbook st2
        (by rw [hl]; rfl)
      obtain ⟨hv1, hv2⟩ := loop_visits w p.maxDepth p.buckets p.byBucket fuel st _ st2 hl
      obtain ⟨r1, r2, r3⟩ := ih st2 (fun n hn => hsub n (List.mem_cons_of_mem _ hn)) hb2 hc2 h
      refine ⟨r1, ?_, fun k hk => r3 k (hv2 k hk)⟩
      intro n hn
      rcases List.mem_cons.mp hn with hn | hn
      · subst hn
        exact r3 _ (hv1 { Bucket := n.Bucket, Name := n.Name, Depth := 0 }
          (List.mem_singleton.mpr rfl))
      · exact r2 n hn

theorem initState_closure (w : World) (p : Prepared) : Closure w p (initState p.warns) [] := by
  refine ⟨?_, ?_, ?_, ?_, ?_⟩ <;> simp [initState]

/-- When no two reachable pairs share a key and nothing is pruned, the traversal visits
exactly the keys of the reachable pairs and copies exactly the indexed reachable pairs. -/
theorem traverse_closure (w : World) (p : Prepared) (st : TravState)
    (hdist : NodesDistinct w p)
    (h : traverse w p = .done st) (hnd : noDepthWarning st.warnings) :
    (∀ k, k ∈ st.visited ↔ ∃ x, Reach w p x ∧ nodeKey x.1 x.2 = k)
      ∧ ∀ x, x ∈ copiedPairs st ↔
          (Reach w p x ∧ (lookup2 p.byBucket x.1 x.2).isSome = true) := by
  obtain ⟨hc, hrv, _⟩ := forRoots_closure w p _ (initState p.warns) p.roots st hdist
    (fun _ hn => hn) (initState_book p.warns) (initState_closure w p) h hnd
  have hall : ∀ x, Reach w p x → nodeKey x.1 x.2 ∈ st.visited := by
    intro x hx
    refine reach_induction w p (fun x => nodeKey x.1 x.2 ∈ st.visited) hrv ?_ x hx
    intro x0 y hx0 hv0 hy
    rcases hc.closed x0 hx0 hv0 y hy with h1 | ⟨m, hm, _⟩
    · exact h1
    · simp at hm
  constructor
  · intro k
    constructor
    · exact hc.visitedReach k
    · rintro ⟨x, hx, rfl⟩
      exact hall x hx
  · intro x
    constructor
    · intro hx
      simp only [copiedPairs, List.mem_map] at hx
      obtain ⟨c, hcm, rfl⟩ := hx
      obtain ⟨h1, h2⟩ := hc.copiedSound c hcm
      exact ⟨h1, by simp [h2]⟩
    · rintro ⟨hx, hsome⟩
      exact hc.copiedAll x hx (hall x hx) hsome


/-! ### Depth of the visited nodes -/

theorem loop_stack_induction (w : World) (maxDepth : Int) (buckets : List String)
    (byBucket : ByBucket) (P : TravState → List node → Prop)
    (hnext : ∀ st n stack st1 stack1, P st (n :: stack) →
      loopBody w maxDepth buckets byBucket st n stack = .next st1 stack1 → P st1 stack1)
    (fuel : Nat) (st : TravState) (stack : List node) (h0 : P st stack) (st1 : TravState)
    (h : loop w maxDepth buckets byBucket fuel st stack = .done st1) : P st1 [] := by
  induction fuel generalizing st stack with
  | zero =>
    cases stack with
    | nil => simp [loop] at h; subst h; exact h0
    | cons n stack => simp [loop] at h
  | succ fuel ih =>
    cases stack with
    | nil => simp [loop] at h; subst h; exact h0
    | cons n stack =>
      unfold loop at h
      cases hbody : loopBody w maxDepth buckets byBucket st n stack with
      | fail st2 e => rw [hbody] at h; cases h
      | next st2 stack2 =>
        rw [hbody] at h
        exact ih st2 stack2 (hnext _ _ _ _ _ h0 hbody) h

theorem forRoots_stack_induction (w : World) (maxDepth : Int) (buckets : List String)
    (byBucket : ByBucket) (P : TravState → List node → Prop) (roots : List node)
    (hnext : ∀ st n stack st1 stack1, P st (n :: stack) →
      loopBody w maxDepth buckets byBucket st n stack = .next st1 stack1 → P st1 stack1)
    (hroot : ∀ st root, root ∈ roots → P st [] →
      P st [{ Bucket := root.Bucket, Name := root.Name, Depth := 0 }])
    (fuel : Nat) (st : TravState) (h0 : P st []) (st1 : TravState)
    (h : forRoots w maxDepth buckets byBucket fuel st roots = .done st1) : P st1 [] := by
  induction roots generalizing st with
  | nil => simp [forRoots] at h; subst h; exact h0
  | cons root roots ih =>
    unfold forRoots at h
    cases hl : loop w maxDepth buckets byBucket fuel st
        [{ Bucket := root.Bucket, Name := root.Name, Depth := 0 }] with
    | failed st2 e => rw [hl] at h; cases h
    | outOfFuel => rw [hl] at h; cases h
    | done st2 =>
      rw [hl] at h
      simp only at h
      exact ih (fun st r hr => hroot st r (List.mem_cons_of_mem _ hr)) st2
        (loop_stack_induction w maxDepth buckets byBucket P hnext fuel st _
          (hroot st root (List.mem_cons_self _ _) h0) st2 hl) h

theorem reachWithin_le (w : World) (p : Prepared) (k k1 : Nat) (hle : k ≤ k1)
    (x : String × String) (h : x ∈ reachWithin w p k) : x ∈ reachWithin w p k1 := by
  induction hle with
  | refl => exact h
  | step _ ih => exact reachWithin_mono w p _ x ih

theorem reachWithin_step (w : World) (p : Prepared) (k : Nat) (x y : String × String)
    (hx : x ∈ reachWithin w p k) (hy : y ∈ childPairs w p.buckets p.byBucket x) :
    y ∈ reachWithin w p (k + 1) := by
  simp only [reachWithin, List.mem_append, List.mem_flatten, List.mem_map]
  exact Or.inr ⟨_, ⟨x, hx, rfl⟩, hy⟩

theorem loopBody_depthReach (w : World) (p : Prepared) (st : TravState) (n : node)
    (stack : List node) (st1 : TravState) (stack1 : List node)
    (h0 : noDepthWarning st.warnings →
      (∀ m ∈ n :: stack, 0 ≤ m.Depth ∧ (m.Bucket, m.Name) ∈ reachWithin w p m.Depth.toNat)
        ∧ ∀ k ∈ st.visited, ∃ x ∈ reachWithin w p p.maxDepth.toNat, nodeKey x.1 x.2 = k)
    (h : loopBody w p.maxDepth p.buckets p.byBucket st n stack = .next st1 stack1) :
    noDepthWarning st1.warnings →
      (∀ m ∈ stack1, 0 ≤ m.Depth ∧ (m.Bucket, m.Name) ∈ reachWithin w p m.Depth.toNat)
        ∧ ∀ k ∈ st1.visited, ∃ x ∈ reachWithin w p p.maxDepth.toNat, nodeKey x.1 x.2 = k := by
  intro hnd1
  obtain ⟨extra, hex⟩ := loopBody_warnings w p.maxDepth p.buckets p.byBucket st n stack
    st1 stack1 h
  have hnd : noDepthWarning st.warnings := by
    rw [hex] at hnd1
    exact noDepthWarning_of_append _ _ hnd1
  obtain ⟨hs, hv⟩ := h0 hnd
  have hn := hs n (List.mem_cons_self _ _)
  have hstk : ∀ m ∈ stack, 0 ≤ m.Depth ∧ (m.Bucket, m.Name) ∈ reachWithin w p m.Depth.toNat :=
    fun m hm => hs m (List.mem_cons_of_mem _ hm)
  have hkey : ¬ n.Depth > p.maxDepth → ∀ k ∈ nodeKey n.Bucket n.Name :: st.visited,
      ∃ x ∈ reachWithin w p p.maxDepth.toNat, nodeKey x.1 x.2 = k := by
    intro hd k hk
    rcases List.mem_cons.mp hk with hk | hk
    · refine ⟨(n.Bucket, n.Name), ?_, hk.symm⟩
      exact reachWithin_le w p _ _ (Int.toNat_le_toNat (by omega)) _ hn.2
    · exact hv k hk
  rcases loopBody_next_cases w p.maxDepth p.buckets p.byBucket st n stack st1 stack1 h with
    ⟨_, h1, h2⟩ | ⟨_, _, h1, _⟩ | ⟨_, hd, _, h1, h2⟩ | ⟨_, hd, r, hl, st2, hst2, h1, h2⟩
  · subst h1; subst h2
    exact ⟨hstk, hv⟩
  · subst h1
    have := hnd1 (.depthLimit p.maxDepth n.Bucket n.Name)
      (List.mem_append.mpr (Or.inr (List.mem_singleton.mpr rfl)))
    simp [Warning.isDepthLimit] at this
  · subst h1; subst h2
    exact ⟨hstk, hkey hd⟩
  · have hvis1 : st1.visited = nodeKey n.Bucket n.Name :: st.visited := by
      rw [h1, (expandNode_visited w p.buckets p.byBucket st2 n r stack).1]
      rcases hst2 with ⟨_, h3⟩ | ⟨_, _, h3⟩ <;> subst h3 <;> rfl
    constructor
    · intro m hm
      rw [h2] at hm
      rcases (expandNode_stack_mem w p.buckets p.byBucket st2 n r stack m).mp hm with
        hm | ⟨data, hr, hm⟩
      · exact hstk m hm
      · have hmd := (childNodes_mem p.buckets p.byBucket n.Depth _ m hm).2.1
        have hy : (m.Bucket, m.Name) ∈ childPairs w p.buckets p.byBucket (n.Bucket, n.Name) :=
          (childPairs_iff w p.buckets p.byBucket n r hl _).mpr ⟨data, hr, m, hm, rfl⟩
        refine ⟨by omega, ?_⟩
        have hto : m.Depth.toNat = n.Depth.toNat + 1 := by omega
        rw [hto]
        exact reachWithin_step w p _ _ _ hn.2 hy
    · rw [hvis1]
      exact hkey hd

theorem traverse_depthReach (w : World) (p : Prepared) (st : TravState)
    (h : traverse w p = .done st) (hnd : noDepthWarning st.warnings) :
    ∀ k ∈ st.visited, ∃ x ∈ reachWithin w p p.maxDepth.toNat, nodeKey x.1 x.2 = k := by
  have := forRoots_stack_induction w p.maxDepth p.buckets p.byBucket
    (fun s stk => noDepthWarning s.warnings →
      (∀ m ∈ stk, 0 ≤ m.Depth ∧ (m.Bucket, m.Name) ∈ reachWithin w p m.Depth.toNat)
        ∧ ∀ k ∈ s.visited, ∃ x ∈ reachWithin w p p.maxDepth.toNat, nodeKey x.1 x.2 = k)
    p.roots
    (fun s n stk s1 stk1 h0 hb => loopBody_depthReach w p s n stk s1 stk1 h0 hb)
    (by
      intro s root hroot h0 hnds
      refine ⟨?_, (h0 hnds).2⟩
      intro m hm
      simp only [List.mem_singleton] at hm
      subst hm
      refine ⟨le_refl _, ?_⟩
      simp only [Int.toNat_zero, reachWithin, List.mem_map]
      exact ⟨root, hroot, rfl⟩)
    _ (initState p.warns) (by intro _; simp [initState]) st h
  exact (this hnd).2

/-! ### Distinct keys -/

theorem split_at_colon (l1 l2 r1 r2 : List Char) (h1 : ':' ∉ l1) (h2 : ':' ∉ l2)
    (h : l1 ++ ':' :: r1 = l2 ++ ':' :: r2) : l1 = l2 ∧ r1 = r2 := by
  induction l1 generalizing l2 with
  | nil =>
    cases l2 with
    | nil => simpa using h
    | cons c cs =>
      simp only [List.nil_append, List.cons_append, List.cons.injEq] at h
      exact absurd (h.1 ▸ List.mem_cons_self _ _) h2
  | cons a as ih =>
    cases l2 with
    | nil =>
      simp only [List.nil_append, List.cons_append, List.cons.injEq] at h
      exact absurd (h.1 ▸ List.mem_cons_self _ _) h1
    | cons c cs =>
      simp only [List.cons_append, List.cons.injEq] at h
      obtain ⟨e1, e2⟩ := ih cs (fun hm => h1 (List.mem_cons_of_mem _ hm))
        (fun hm => h2 (List.mem_cons_of_mem _ hm)) h.2
      exact ⟨by rw [h.1, e1], e2⟩

theorem nodeKey_data (b n : String) : (nodeKey b n).data = b.data ++ ':' :: ':' :: n.data := by
  unfold nodeKey
  rw [String.data_append, String.data_append]
  simp

/-- Keys are distinct when no bucket name holds a colon. -/
theorem keysDistinct_of_noColon (buckets : List String)
    (h : ∀ b ∈ buckets, ':' ∉ b.data) : KeysDistinct buckets := by
  intro b hb b1 hb1 n n1 hk
  have hd := congrArg String.data hk
  rw [nodeKey_data, nodeKey_data] at hd
  obtain ⟨e1, e2⟩ := split_at_colon _ _ _ _ (h b hb) (h b1 hb1) hd
  simp only [List.cons.injEq, true_and] at e2
  exact ⟨String.ext e1, String.ext e2⟩

/-! ### What `prepare` establishes -/

theorem foldl_invariant {α β : Type} (P : β → Prop) (f : β → α → β) (l : List α) (b : β)
    (h0 : P b) (hstep : ∀ b a, a ∈ l → P b → P (f b a)) : P (l.foldl f b) := by
  induction l generalizing b with
  | nil => exact h0
  | cons a l ih =>
    simp only [List.foldl_cons]
    exact ih _ (hstep b a (List.mem_cons_self _ _) h0)
      (fun b1 a1 ha1 hb1 => hstep b1 a1 (List.mem_cons_of_mem _ ha1) hb1)

theorem entryVisit_roots (w : World) (entry bucket : String) (acc : List node × ByBucket)
    (e : WalkEntry) (n : node) (h : n ∈ (entryVisit w entry bucket acc e).1) :
    n ∈ acc.1 ∨ (n.Bucket = bucket ∧ n.Name = entry ∧ n.Depth = 0) := by
  unfold entryVisit at h
  split at h
  · exact Or.inl h
  · split at h
    · exact Or.inl h
    · rename_i name _
      simp only at h
      split at h
      · rcases List.mem_append.mp h with h | h
        · exact Or.inl h
        · simp only [List.mem_singleton] at h
          subst h
          rename_i hname
          exact Or.inr ⟨rfl, hname, rfl⟩
      · exact Or.inl h

theorem entryScan_roots (w : World) (entry : String) (buckets : List String)
    (byBucket : ByBucket) (n : node) (h : n ∈ (entryScan w entry buckets byBucket).1) :
    n.Bucket ∈ buckets ∧ n.Name = entry ∧ n.Depth = 0 := by
  unfold entryScan at h
  have key := foldl_invariant
    (fun acc : List node × ByBucket =>
      ∀ n ∈ acc.1, n.Bucket ∈ buckets ∧ n.Name = entry ∧ n.Depth = 0)
    (fun acc b => (w.walkDir b).foldl (entryVisit w entry b) acc) buckets ([], byBucket)
    (by simp)
    (by
      intro acc b hb hacc
      refine foldl_invariant
        (fun acc : List node × ByBucket =>
          ∀ n ∈ acc.1, n.Bucket ∈ buckets ∧ n.Name = entry ∧ n.Depth = 0)
        (entryVisit w entry b) (w.walkDir b) acc hacc ?_
      intro acc1 e _ hacc1 n1 hn1
      rcases entryVisit_roots w entry b acc1 e n1 hn1 with h1 | ⟨h1, h2, h3⟩
      · exact hacc1 n1 h1
      · exact ⟨by rw [h1]; exact hb, h2, h3⟩)
  exact key n h

theorem entryFiles_roots (w : World) (entry : String) (bs : List String) (roots0 : List node)
    (roots : List node) (h : entryFiles w entry bs roots0 = .ok roots) (n : node)
    (hn : n ∈ roots) : n ∈ roots0 ∨ (n.Bucket ∈ bs ∧ n.Depth = 0) := by
  induction bs generalizing roots0 with
  | nil =>
    simp only [entryFiles, Except.ok.injEq] at h
    subst h
    exact Or.inl hn
  | cons b bs ih =>
    unfold entryFiles at h
    by_cases hs : w.stat b entry = true
    · simp only [hs, Bool.not_true, Bool.false_eq_true, if_false] at h
      cases hc : canonicalFromXML w b (entry ++ ".xml") with
      | none => simp [hc] at h
      | some canon =>
        simp only [hc] at h
        rcases ih _ h with h1 | ⟨h1, h2⟩
        · rcases List.mem_append.mp h1 with h1 | h1
          · exact Or.inl h1
          · simp only [List.mem_singleton] at h1
            subst h1
            exact Or.inr ⟨List.mem_cons_self _ _, rfl⟩
        · exact Or.inr ⟨List.mem_cons_of_mem _ h1, h2⟩
    · simp only [hs, Bool.not_false, if_true] at h
      rcases ih _ h with h1 | ⟨h1, h2⟩
      · exact Or.inl h1
      · exact Or.inr ⟨List.mem_cons_of_mem _ h1, h2⟩

theorem resolveEntry_roots (w : World) (buckets : List String) (byBucket : ByBucket)
    (entry0 : String) (roots : List node) (warns : List Warning) (byBucket1 : ByBucket)
    (h : resolveEntry w buckets byBucket entry0 = .ok (roots, warns, byBucket1)) :
    (∀ n ∈ roots, n.Bucket ∈ buckets ∧ n.Depth = 0) ∧ roots ≠ [] := by
  unfold resolveEntry at h
  by_cases hc : containsSlash (trimSpace entry0) = true
  · simp only [hc, if_true] at h
    have hr := entryScan_roots w (trimSpace entry0) buckets byBucket
    split at h
    · cases h
    · rename_i hlen
      have hne : (entryScan w (trimSpace entry0) buckets byBucket).1 ≠ [] := by
        intro he
        exact hlen (by rw [he]; rfl)
      split at h <;>
      · simp only [Except.ok.injEq, Prod.mk.injEq] at h
        obtain ⟨h1, _, _⟩ := h
        subst h1
        exact ⟨fun n hn => ⟨(hr n hn).1, (hr n hn).2.2⟩, hne⟩
  · simp only [hc, Bool.false_eq_true, if_false] at h
    cases hf : entryFiles w (trimSpace entry0) buckets [] with
    | error e => simp [hf] at h
    | ok roots1 =>
      simp only [hf] at h
      have hr := entryFiles_roots w (trimSpace entry0) buckets [] roots1 hf
      split at h
      · cases h
      · rename_i hlen
        have hne : roots1 ≠ [] := by
          intro he
          exact hlen (by rw [he]; rfl)
        split at h <;>
        · simp only [Except.ok.injEq, Prod.mk.injEq] at h
          obtain ⟨h1, _, _⟩ := h
          subst h1
          refine ⟨fun n hn => ?_, hne⟩
          rcases hr n hn with h2 | h2
          · simp at h2
          · exact h2

theorem prepare_ok (w : World) (opts : Options) (p : Prepared)
    (h : prepare w opts = .ok p) :
    p.maxDepth = (if opts.MaxDepth ≤ 0 then 10 else opts.MaxDepth)
      ∧ (∃ buckets0, listBuckets w = some buckets0 ∧ p.buckets = sortStrings buckets0)
      ∧ ∃ byBucket0, loadAll w p.buckets = .ok byBucket0
          ∧ resolveEntry w p.buckets byBucket0 opts.Entry = .ok (p.roots, p.warns, p.byBucket) := by
  unfold prepare at h
  split at h
  · cases h
  · split at h
    · cases h
    · split at h
      · cases h
      · cases hb : listBuckets w with
        | none => simp [hb] at h
        | some buckets0 =>
          simp only [hb] at h
          split at h
          · cases h
          · cases hl : loadAll w (sortStrings buckets0) with
            | error e => simp [hl] at h
            | ok byBucket0 =>
              simp only [hl] at h
              cases hr : resolveEntry w (sortStrings buckets0) byBucket0 opts.Entry with
              | error e => simp [hr] at h
              | ok v =>
                obtain ⟨roots, warns, byBucket⟩ := v
                simp only [hr, Except.ok.injEq] at h
                subst h
                exact ⟨rfl, ⟨buckets0, rfl, rfl⟩, byBucket0, hl, hr⟩

theorem prepare_roots (w : World) (opts : Options) (p : Prepared)
    (h : prepare w opts = .ok p) :
    (∀ n ∈ p.roots, n.Bucket ∈ p.buckets ∧ n.Depth = 0) ∧ p.roots ≠ [] := by
  obtain ⟨_, _, byBucket0, _, hr⟩ := prepare_ok w opts p h
  exact resolveEntry_roots w p.buckets byBucket0 opts.Entry p.roots p.warns p.byBucket hr


/-! ### C5: the visited count -/

/-- C5 as stated fails. On the chain `c/n0 -> c/n1 -> c/n2` (acyclic) with max depth 1, two
pairs are reachable from the root by a path of at most one edge, but `VisitedNodes` is 3:
the node pruned at depth 2 is counted. -/
theorem visited_counts_pruned_node :
    prepare chain3World chain3Opts = .ok chain3Prepared
      ∧ childPairs chain3World ["g"] chain3Prepared.byBucket ("g", "c/n0") = [("g", "c/n1")]
      ∧ childPairs chain3World ["g"] chain3Prepared.byBucket ("g", "c/n1") = [("g", "c/n2")]
      ∧ childPairs chain3World ["g"] chain3Prepared.byBucket ("g", "c/n2") = []
      ∧ (reachWithin chain3World chain3Prepared 1).dedup = [("g", "c/n0"), ("g", "c/n1")]
      ∧ (Run chain3World chain3Opts).1.VisitedNodes
        ≠ (reachWithin chain3World chain3Prepared chain3Prepared.maxDepth.toNat).dedup.length
      ∧ Run chain3World chain3Opts
        = ({ RootsProcessed := 1, VisitedNodes := 3, CopiedDecl := 2, CopiedXML := 2,
             UnresolvedUnique := 0, Unresolved := [],
             Warnings := [.depthLimit 1 "g" "c/n2"] }, none) := by
  decide

/-- C5 amended. When `Run` succeeds without a `depth limit exceeded` warning and no two nodes
of the reference graph (the pairs reachable from the roots) share a visited key,
`VisitedNodes` is the number of distinct pairs reachable from the roots by a reference path
of at most `MaxDepth` edges, and these are all the reachable pairs; the reference graph may
have cycles. -/
theorem visited_count_without_pruning (w : World) (opts : Options) (p : Prepared)
    (st : TravState) (hp : prepare w opts = .ok p) (ht : traverse w p = .done st)
    (hdist : NodesDistinct w p) (hnd : noDepthWarning (Run w opts).1.Warnings) :
    (Run w opts).1.VisitedNodes = (reachWithin w p p.maxDepth.toNat).dedup.length
      ∧ ∀ x, Reach w p x ↔ x ∈ reachWithin w p p.maxDepth.toNat := by
  rw [Run_of_done w opts p st hp ht] at hnd ⊢
  simp only [finish] at hnd ⊢
  obtain ⟨hvis, _⟩ := traverse_closure w p st hdist ht hnd
  have hdepth := traverse_depthReach w p st ht hnd
  have hbook := traverse_book w p st (by rw [ht]; rfl)
  have hinj : ∀ x, Reach w p x → ∀ y, Reach w p y → nodeKey x.1 x.2 = nodeKey y.1 y.2 →
      x = y := fun x hx y hy hk => hdist x y hx hy hk
  have hreach : ∀ x, Reach w p x ↔ x ∈ reachWithin w p p.maxDepth.toNat := by
    intro x
    constructor
    · intro hx
      obtain ⟨y, hy, hk⟩ := hdepth _ ((hvis _).mpr ⟨x, hx, rfl⟩)
      have := hinj y ⟨_, hy⟩ x hx hk
      rw [← this]
      exact hy
    · intro hx
      exact ⟨_, hx⟩
  refine ⟨?_, hreach⟩
  have hnd2 : ((reachWithin w p p.maxDepth.toNat).dedup.map
      (fun x => nodeKey x.1 x.2)).Nodup := by
    apply List.Nodup.map_on _ (List.nodup_dedup _)
    intro x hx y hy hk
    exact hinj x ((hreach x).mpr (List.mem_dedup.mp hx)) y
      ((hreach y).mpr (List.mem_dedup.mp hy)) hk
  have hperm : st.visited.Perm ((reachWithin w p p.maxDepth.toNat).dedup.map
      (fun x => nodeKey x.1 x.2)) := by
    rw [List.perm_ext_iff_of_nodup hbook.visNodup hnd2]
    intro k
    rw [hvis k]
    simp only [List.mem_map, List.mem_dedup]
    constructor
    · rintro ⟨x, hx, hk⟩
      exact ⟨x, (hreach x).mp hx, hk⟩
    · rintro ⟨x, hx, hk⟩
      exact ⟨x, (hreach x).mpr hx, hk⟩
  rw [hperm.length_eq, List.length_map]

/-- The bucket names `a` and `a::b` do not have distinct keys for all names. -/
theorem keysDistinct_fails_with_colon : ¬ KeysDistinct colonPrepared.buckets := by
  intro h
  have h1 := (h "a" (by decide) "a::b" (by decide) "b::c/d" "c/d" (by decide)).1
  exact absurd h1 (by decide)

/-- Witness of C5 amended on a tree with the buckets `a` and `a::b`, whose two nodes
`(a, x/e)` and `(a::b, c/d)` have different keys. -/
theorem visited_count_without_pruning_witness :
    prepare colonWorld colonOpts = .ok colonPrepared
      ∧ (Run colonWorld colonOpts).1.VisitedNodes = 2
      ∧ (Run colonWorld colonOpts).1.VisitedNodes
        = (reachWithin colonWorld colonPrepared colonPrepared.maxDepth.toNat).dedup.length :=
  ⟨by decide, by decide,
    (visited_count_without_pruning colonWorld colonOpts colonPrepared colonFinal (by decide)
      (by decide)
      (nodesDistinct_of_saturated colonWorld colonPrepared 1 (by decide) (by decide))
      (by decide)).1⟩


/-! ### Names of the indexed resources -/

theorem loadWalk_named (w : World) (bucket : String) (idx : Index) (es : List WalkEntry)
    (idx1 : Index) (h0 : ∀ kr ∈ idx, kr.2.Name = kr.1)
    (h : loadWalk w bucket idx es = .ok idx1) : ∀ kr ∈ idx1, kr.2.Name = kr.1 := by
  induction es generalizing idx with
  | nil =>
    simp only [loadWalk, Except.ok.injEq] at h
    subst h
    exact h0
  | cons e es ih =>
    unfold loadWalk at h
    cases hv : loadVisit w bucket idx e with
    | error rel => simp [hv] at h
    | ok idx2 =>
      simp only [hv] at h
      refine ih idx2 ?_ h
      unfold loadVisit at hv
      split at hv
      · injection hv with hv; subst hv; exact h0
      · split at hv
        · injection hv with hv; subst hv; exact h0
        · split at hv
          · injection hv with hv; subst hv; exact h0
          · split at hv
            · injection hv with hv; subst hv; exact h0
            · split at hv
              · injection hv with hv; subst hv; exact h0
              · simp only at hv
                split at hv
                · cases hv
                · injection hv with hv
                  subst hv
                  intro kr hkr
                  rcases List.mem_cons.mp hkr with hkr | hkr
                  · subst hkr; rfl
                  · exact h0 kr hkr

theorem loadAll_named (w : World) (bs : List String) (byBucket : ByBucket)
    (h : loadAll w bs = .ok byBucket) : IndexNamed byBucket := by
  induction bs generalizing byBucket with
  | nil =>
    simp only [loadAll, Except.ok.injEq] at h
    subst h
    intro e he
    simp at he
  | cons b bs ih =>
    unfold loadAll at h
    cases hl : Load w b with
    | error rel => simp [hl] at h
    | ok idx =>
      simp only [hl] at h
      cases hr : loadAll w bs with
      | error e => simp [hr] at h
      | ok rest =>
        simp only [hr, Except.ok.injEq] at h
        subst h
        intro e he
        rcases List.mem_cons.mp he with he | he
        · subst he
          exact loadWalk_named w b [] _ idx (by simp) hl
        · exact ih rest hr e he

theorem insertResource_named (byBucket : ByBucket) (bucket name : String) (r : Resource)
    (h : IndexNamed byBucket) (hr : r.Name = name) :
    IndexNamed (insertResource byBucket bucket name r) := by
  intro e he
  simp only [insertResource, List.mem_map] at he
  obtain ⟨e0, he0, rfl⟩ := he
  split
  · intro kr hkr
    rcases List.mem_cons.mp hkr with hkr | hkr
    · subst hkr; exact hr
    · exact h e0 he0 kr hkr
  · exact h e0 he0

theorem entryVisit_named (w : World) (entry bucket : String) (acc : List node × ByBucket)
    (e : WalkEntry) (h : IndexNamed acc.2) :
    IndexNamed (entryVisit w entry bucket acc e).2 := by
  unfold entryVisit
  split
  · exact h
  · split
    · exact h
    · simp only
      split
      · exact h
      · exact insertResource_named _ _ _ _ h rfl

theorem entryScan_named (w : World) (entry : String) (buckets : List String)
    (byBucket : ByBucket) (h : IndexNamed byBucket) :
    IndexNamed (entryScan w entry buckets byBucket).2 := by
  unfold entryScan
  refine foldl_invariant (fun acc : List node × ByBucket => IndexNamed acc.2) _ buckets
    ([], byBucket) h ?_
  intro acc b _ hacc
  refine foldl_invariant (fun acc : List node × ByBucket => IndexNamed acc.2)
    (entryVisit w entry b) (w.walkDir b) acc hacc ?_
  intro acc1 e _ hacc1
  exact entryVisit_named w entry b acc1 e hacc1

theorem resolveEntry_named (w : World) (buckets : List String) (byBucket : ByBucket)
    (entry0 : String) (roots : List node) (warns : List Warning) (byBucket1 : ByBucket)
    (h0 : IndexNamed byBucket)
    (h : resolveEntry w buckets byBucket entry0 = .ok (roots, warns, byBucket1)) :
    IndexNamed byBucket1 := by
  unfold resolveEntry at h
  by_cases hc : containsSlash (trimSpace entry0) = true
  · simp only [hc, if_true] at h
    have hn := entryScan_named w (trimSpace entry0) buckets byBucket h0
    split at h
    · cases h
    · split at h <;>
      · simp only [Except.ok.injEq, Prod.mk.injEq] at h
        obtain ⟨_, _, h3⟩ := h
        subst h3
        exact hn
  · simp only [hc, Bool.false_eq_true, if_false] at h
    cases hf : entryFiles w (trimSpace entry0) buckets [] with
    | error e => simp [hf] at h
    | ok roots1 =>
      simp only [hf] at h
      split at h
      · cases h
      · split at h <;>
        · simp only [Except.ok.injEq, Prod.mk.injEq] at h
          obtain ⟨_, _, h3⟩ := h
          subst h3
          exact h0

theorem prepare_named (w : World) (opts : Options) (p : Prepared)
    (h : prepare w opts = .ok p) : IndexNamed p.byBucket := by
  obtain ⟨_, _, byBucket0, hl, hr⟩ := prepare_ok w opts p h
  exact resolveEntry_named w p.buckets byBucket0 opts.Entry p.roots p.warns p.byBucket
    (loadAll_named w p.buckets byBucket0 hl) hr

theorem lookup2_named (byBucket : ByBucket) (h : IndexNamed byBucket) (b n : String)
    (r : Resource) (hl : lookup2 byBucket b n = some r) : r.Name = n := by
  unfold lookup2 at hl
  cases hb : byBucket.lookup b with
  | none => simp [hb] at hl
  | some idx =>
    simp only [hb] at hl
    exact h (b, idx) (lookup_mem b byBucket idx hb) (n, r) (lookup_mem n idx r hl)


/-! ### C7: depth pruning on a chain -/

theorem nodeKey_inj_name (b x y : String) (h : nodeKey b x = nodeKey b y) : x = y := by
  have hd := congrArg String.data h
  rw [nodeKey_data, nodeKey_data] at hd
  have := List.append_cancel_left hd
  simp only [List.cons.injEq, true_and] at this
  exact String.ext this

theorem chainState_visited (b : String) (r : Nat → String) (res : Nat → Resource)
    (warns : List Warning) (k : Nat) (x : String)
    (h : x ∈ (chainState b r res warns k).visited) : ∃ i, i < k ∧ x = nodeKey b (r i) := by
  induction k with
  | zero => simp [chainState, initState] at h
  | succ k ih =>
    simp only [chainState, List.mem_cons] at h
    rcases h with h | h
    · exact ⟨k, Nat.lt_succ_self k, h⟩
    · obtain ⟨i, hi, hx⟩ := ih h
      exact ⟨i, Nat.lt_succ_of_lt hi, hx⟩

theorem chainState_fields (b : String) (r : Nat → String) (res : Nat → Resource)
    (warns : List Warning) (k : Nat) :
    (chainState b r res warns k).copied = (chainState b r res warns k).visited
      ∧ (chainState b r res warns k).unresolvedSet = []
      ∧ (chainState b r res warns k).warnings = warns
      ∧ copiedPairs (chainState b r res warns k)
          = ((List.range k).map (fun i => (b, r i))).reverse := by
  induction k with
  | zero => simp [chainState, initState, copiedPairs]
  | succ k ih =>
    obtain ⟨h1, _, _, h4⟩ := ih
    refine ⟨by simp [chainState, h1], rfl, rfl, ?_⟩
    simp only [copiedPairs] at h4
    simp [chainState, copiedPairs, List.range_succ, h4]

theorem resolve_single (b : String) (byBucket : ByBucket) (tok : String) (r : Resource)
    (h : lookup2 byBucket b tok = some r) :
    resolveTokenAcrossBuckets [b] byBucket tok = (some { Bucket := b, Resource := r }, none) := by
  simp [resolveTokenAcrossBuckets, h]

theorem chain_step (w : World) (maxDepth : Int) (byBucket : ByBucket) (b : String)
    (r : Nat → String) (res : Nat → Resource) (warns : List Warning) (n k : Nat)
    (hinj : ∀ i, i < n → ∀ j, j < n → r i = r j → i = j)
    (hk : k + 1 < n) (hdepth : (k : Int) ≤ maxDepth)
    (hidx : lookup2 byBucket b (r k) = some (res k))
    (hidx1 : lookup2 byBucket b (r (k + 1)) = some (res (k + 1)))
    (hname : (res (k + 1)).Name = r (k + 1))
    (data : String) (hread : w.readFile b (res k).RelDeclPath = some data)
    (htoks : Extract data = [r (k + 1)])
    (hcopy : copyOne w b (res k) = none) :
    loopBody w maxDepth [b] byBucket (chainState b r res warns k)
        { Bucket := b, Name := r k, Depth := (k : Int) } []
      = .next (chainState b r res warns (k + 1))
          [{ Bucket := b, Name := r (k + 1), Depth := ((k + 1 : Nat) : Int) }] := by
  have hvis : nodeKey b (r k) ∉ (chainState b r res warns k).visited := by
    intro hm
    obtain ⟨i, hi, hx⟩ := chainState_visited b r res warns k _ hm
    have := hinj k (by omega) i (by omega) (nodeKey_inj_name b _ _ hx)
    omega
  obtain ⟨hc, hu, hw, _⟩ := chainState_fields b r res warns k
  have hcop : nodeKey b (r k) ∉ (chainState b r res warns k).copied := by rw [hc]; exact hvis
  have hd : ¬ (k : Int) > maxDepth := by omega
  unfold loopBody
  simp only [hvis, hcop, hd, hidx, hcopy, if_false]
  unfold expandNode
  simp only [hread, htoks, pushTokens, resolve_single b byBucket _ _ hidx1, hname, hu, hw]
  simp [chainState, setInsert]

theorem chain_prune (w : World) (byBucket : ByBucket) (b : String)
    (r : Nat → String) (res : Nat → Resource) (warns : List Warning) (n d : Nat)
    (hinj : ∀ i, i < n → ∀ j, j < n → r i = r j → i = j) (hn : d + 1 < n) :
    loopBody w (d : Int) [b] byBucket (chainState b r res warns (d + 1))
        { Bucket := b, Name := r (d + 1), Depth := ((d + 1 : Nat) : Int) } []
      = .next (chainFinal b r res warns d) [] := by
  have hvis : nodeKey b (r (d + 1)) ∉ (chainState b r res warns (d + 1)).visited := by
    intro hm
    obtain ⟨i, hi, hx⟩ := chainState_visited b r res warns (d + 1) _ hm
    have := hinj (d + 1) hn i (by omega) (nodeKey_inj_name b _ _ hx)
    omega
  obtain ⟨_, _, hw, _⟩ := chainState_fields b r res warns (d + 1)
  have hd : ((d + 1 : Nat) : Int) > (d : Int) := by omega
  unfold loopBody
  simp only [hvis, hd, if_false, if_true, chainFinal, hw]

theorem chain_loop (w : World) (byBucket : ByBucket) (b : String)
    (r : Nat → String) (res : Nat → Resource) (warns : List Warning) (n d : Nat)
    (hinj : ∀ i, i < n → ∀ j, j < n → r i = r j → i = j) (hn : d + 1 < n)
    (hidx : ∀ i, i < n → lookup2 byBucket b (r i) = some (res i))
    (hname : ∀ i, i < n → (res i).Name = r i)
    (data : Nat → String)
    (hdecl : ∀ i, i + 1 < n → w.readFile b (res i).RelDeclPath = some (data i)
      ∧ Extract (data i) = [r (i + 1)])
    (hcopy : ∀ i, i < n → copyOne w b (res i) = none)
    (j k : Nat) (hjk : k + j = d + 1) :
    loop w (d : Int) [b] byBucket (j + 2) (chainState b r res warns k)
        [{ Bucket := b, Name := r k, Depth := (k : Int) }]
      = .done (chainFinal b r res warns d) := by
  induction j generalizing k with
  | zero =>
    have hk : k = d + 1 := by omega
    subst hk
    rw [loop, chain_prune w byBucket b r res warns n d hinj hn]
    simp [loop]
  | succ j ih =>
    have hk : k + 1 < n := by omega
    rw [loop, chain_step w (d : Int) byBucket b r res warns n k hinj hk (by omega)
      (hidx k (by omega)) (hidx (k + 1) hk) (hname (k + 1) hk) (data k) (hdecl k hk).1
      (hdecl k hk).2 (hcopy k (by omega))]
    exact ih (k + 1) (by omega)

theorem loop_fuel_agree (w : World) (maxDepth : Int) (buckets : List String)
    (byBucket : ByBucket) (f1 f2 : Nat) (st : TravState) (stack : List node) (st1 : TravState)
    (h1 : loop w maxDepth buckets byBucket f1 st stack = .done st1)
    (h2 : loop w maxDepth buckets byBucket f2 st stack ≠ .outOfFuel) :
    loop w maxDepth buckets byBucket f2 st stack = .done st1 := by
  rcases Nat.le_total f1 f2 with hle | hle
  · rw [loop_fuel_le w maxDepth buckets byBucket f1 f2 st stack (by rw [h1]; simp) hle, h1]
  · rw [← loop_fuel_le w maxDepth buckets byBucket f2 f1 st stack h2 hle, h1]

/-- C7 (depth pruning on a chain). For a chain of `n` distinct resources `r 0 -> r 1 -> ...`
in the one bucket `b`, the decl of each holding the one reference to the next, with entry
`r 0`, max depth `d` (the depth `Run` works with), `n > d + 1` and copies that succeed:
`Run` succeeds, `Warnings` holds a `depth limit exceeded` warning, the copied pairs are
exactly `r 0` to `r d`, no resource behind them is copied, and `Unresolved` is empty. -/
theorem chain_depth_pruning (w : World) (opts : Options) (p : Prepared) (b : String)
    (n d : Nat) (r : Nat → String) (res : Nat → Resource) (data : Nat → String)
    (hp : prepare w opts = .ok p) (hmax : p.maxDepth = (d : Int))
    (hn : d + 1 < n) (hbuckets : p.buckets = [b])
    (hroots : p.roots = [{ Bucket := b, Name := r 0, Depth := 0 }])
    (hinj : ∀ i, i < n → ∀ j, j < n → r i = r j → i = j)
    (hidx : ∀ i, i < n → lookup2 p.byBucket b (r i) = some (res i))
    (hdecl : ∀ i, i + 1 < n → w.readFile b (res i).RelDeclPath = some (data i)
      ∧ Extract (data i) = [r (i + 1)])
    (hcopy : ∀ i, i < n → copyOne w b (res i) = none) :
    (Run w opts).2 = none
      ∧ (∃ x ∈ (Run w opts).1.Warnings, x.isDepthLimit = true)
      ∧ (∃ st, runFinal w opts = some st
          ∧ copiedPairs st = ((List.range (d + 1)).map (fun i => (b, r i))).reverse
          ∧ ∀ i, d < i → i < n → (b, r i) ∉ copiedPairs st)
      ∧ (Run w opts).1.Unresolved = [] := by
  have hnamed := prepare_named w opts p hp
  have hname : ∀ i, i < n → (res i).Name = r i :=
    fun i hi => lookup2_named p.byBucket hnamed b (r i) (res i) (hidx i hi)
  have hloop := chain_loop w p.byBucket b r res p.warns n d hinj hn hidx hname data hdecl
    hcopy (d + 1) 0 (by omega)
  have hterm := loop_terminates w (d : Int) [b] p.byBucket (fuelBound w p.byBucket)
    (chainState b r res p.warns 0) [{ Bucket := b, Name := r 0, Depth := ((0 : Nat) : Int) }]
    (by
      have := pendingTokens_le_fuelBound w p.byBucket (chainState b r res p.warns 0).visited
      simp only [List.length_singleton]
      omega)
  have hloop2 := loop_fuel_agree w (d : Int) [b] p.byBucket _ _ _ _ _ hloop hterm
  have htrav : traverse w p = .done (chainFinal b r res p.warns d) := by
    unfold traverse
    rw [hroots, hbuckets, hmax]
    unfold forRoots
    simp only [chainState, Nat.cast_zero] at hloop2
    rw [hloop2]
    simp [forRoots]
  obtain ⟨_, hu, _, hcp⟩ := chainState_fields b r res p.warns (d + 1)
  have hcp1 : copiedPairs (chainFinal b r res p.warns d)
      = ((List.range (d + 1)).map (fun i => (b, r i))).reverse := by
    rw [← hcp]
    rfl
  rw [Run_of_done w opts p _ hp htrav]
  refine ⟨rfl, ⟨.depthLimit d b (r (d + 1)), ?_, rfl⟩, ⟨chainFinal b r res p.warns d, ?_, hcp1, ?_⟩, ?_⟩
  · simp [finish, chainFinal]
  · simp only [runFinal, hp, htrav, LoopOut.finalState]
  · intro i hdi hi hm
    rw [hcp1] at hm
    simp only [List.mem_reverse, List.mem_map, List.mem_range, Prod.mk.injEq, true_and] at hm
    obtain ⟨j, hj, hrj⟩ := hm
    have := hinj j (by omega) i hi hrj
    omega
  · simp only [finish, chainFinal]
    rw [hu]
    rfl

/-- Witness of C7: the chain of `TestRun_DepthLimitWarns`, `n = 12` and `d = 10`. -/
theorem chain_depth_pruning_witness :
    prepare chain12World chain12Opts = .ok chain12Prepared
      ∧ (Run chain12World chain12Opts).2 = none
      ∧ (∃ x ∈ (Run chain12World chain12Opts).1.Warnings, x.isDepthLimit = true)
      ∧ (∃ st, runFinal chain12World chain12Opts = some st
          ∧ copiedPairs st
            = ((List.range (10 + 1)).map (fun i => ("game1", chain12Name i))).reverse
          ∧ ∀ i, 10 < i → i < 12 → ("game1", chain12Name i) ∉ copiedPairs st)
      ∧ (Run chain12World chain12Opts).1.Unresolved = [] :=
  ⟨by decide,
    chain_depth_pruning chain12World chain12Opts chain12Prepared "game1" 12 10 chain12Name
      chain12Res (fun i => "ref " ++ chain12Name (i + 1)) (by decide) (by decide)
      (by decide) (by decide) (by decide) (by decide) (by decide)
      (fun i hi => (by decide : ∀ i, i < 11 →
        chain12World.readFile "game1" (chain12Res i).RelDeclPath
            = some ("ref " ++ chain12Name (i + 1))
          ∧ Extract ("ref " ++ chain12Name (i + 1)) = [chain12Name (i + 1)]) i (by omega))
      (by decide)⟩


/-- The closure property of `Run` under distinct keys: when `Run` succeeds without a
`depth limit exceeded` warning and no two nodes share a visited key, the pairs for which
`copyOne` was called are exactly the indexed pairs reachable from the roots. -/
theorem run_closure (w : World) (opts : Options) (p : Prepared) (st : TravState)
    (hp : prepare w opts = .ok p) (ht : traverse w p = .done st)
    (hkeys : KeysDistinct p.buckets) (hnd : noDepthWarning st.warnings) (x : String × String) :
    x ∈ copiedPairs st ↔ (Reach w p x ∧ (lookup2 p.byBucket x.1 x.2).isSome = true) :=
  (traverse_closure w p st
    (nodesDistinct_of_keysDistinct w p hkeys
      (fun n hn => ((prepare_roots w opts p hp).1 n hn).1)) ht hnd).2 x


/-! ### The bucket list of `Run` is sorted -/

theorem leChars_total (a b : List Char) : leChars a b = true ∨ leChars b a = true := by
  induction a generalizing b with
  | nil => left; rfl
  | cons x xs ih =>
    cases b with
    | nil => right; rfl
    | cons y ys =>
      simp only [leChars, Bool.or_eq_true, Bool.and_eq_true, decide_eq_true_eq, beq_iff_eq]
      rcases Nat.lt_trichotomy x.toNat y.toNat with h | h | h
      · exact Or.inl (Or.inl h)
      · rcases ih ys with h1 | h1
        · exact Or.inl (Or.inr ⟨h, h1⟩)
        · exact Or.inr (Or.inr ⟨h.symm, h1⟩)
      · exact Or.inr (Or.inl h)

theorem leChars_trans (a b c : List Char) (h1 : leChars a b = true) (h2 : leChars b c = true) :
    leChars a c = true := by
  induction a generalizing b c with
  | nil => rfl
  | cons x xs ih =>
    cases b with
    | nil => simp [leChars] at h1
    | cons y ys =>
      cases c with
      | nil => simp [leChars] at h2
      | cons z zs =>
        simp only [leChars, Bool.or_eq_true, Bool.and_eq_true, decide_eq_true_eq,
          beq_iff_eq] at h1 h2 ⊢
        rcases h1 with h1 | ⟨h1, h1r⟩
        · rcases h2 with h2 | ⟨h2, _⟩
          · exact Or.inl (by omega)
          · exact Or.inl (by omega)
        · rcases h2 with h2 | ⟨h2, h2r⟩
          · exact Or.inl (by omega)
          · exact Or.inr ⟨by omega, ih ys zs h1r h2r⟩

theorem sortStrings_sorted (l : List String) : (sortStrings l).Sorted strLe :=
  @List.sorted_insertionSort String strLe _ ⟨fun a b => leChars_total a.data b.data⟩
    ⟨fun a b c => leChars_trans a.data b.data c.data⟩ l

theorem prepare_buckets_sorted (w : World) (opts : Options) (p : Prepared)
    (h : prepare w opts = .ok p) : p.buckets.Sorted strLe := by
  obtain ⟨_, ⟨buckets0, _, hb⟩, _⟩ := prepare_ok w opts p h
  rw [hb]
  exact sortStrings_sorted buckets0


/-! ### C13: `Extract` and its specification -/

theorem findAllRuns_eq_go (cs cur : List Char) :
    findAllRuns cs cur
      = (List.splitOnP.go (fun c => !isTokenChar c) cs cur).filter (fun r => !r.isEmpty) := by
  induction cs generalizing cur with
  | nil =>
    cases cur with
    | nil => simp [findAllRuns, List.splitOnP.go]
    | cons a as => simp [findAllRuns, List.splitOnP.go]
  | cons c cs ih =>
    by_cases hc : isTokenChar c = true
    · simp [findAllRuns, List.splitOnP.go, hc, ih]
    · cases cur with
      | nil => simp [findAllRuns, List.splitOnP.go, hc, ih]
      | cons a as => simp [findAllRuns, List.splitOnP.go, hc, ih]

theorem findAllRuns_eq_maximalRuns (cs : List Char) : findAllRuns cs [] = maximalRuns cs := by
  rw [findAllRuns_eq_go]
  rfl

theorem filterMap_extractOne (rs : List (List Char)) :
    rs.filterMap extractOne
      = (((rs.filter (fun r => r.contains '/')).map (trimChars isCutChar)).filter
          (fun r => !r.isEmpty)).map String.mk := by
  induction rs with
  | nil => rfl
  | cons r rs ih =>
    rw [List.filterMap_cons, ih]
    by_cases h1 : r.contains '/' = true
    · by_cases h2 : (trimChars isCutChar r).isEmpty = true
      · simp only [extractOne, h1, h2, Bool.not_true, Bool.false_eq_true, if_false, if_true,
          List.filter_cons, List.map_cons]
      · simp only [extractOne, h1, h2, Bool.not_true, Bool.false_eq_true, if_false,
          List.filter_cons, List.map_cons, if_true, Bool.not_false, Bool.not_eq_true]
    · simp only [extractOne, h1, Bool.not_false, if_true, List.filter_cons, Bool.false_eq_true,
        if_false]

/-- C13 (reference extraction equals its specification). For every text `Extract` returns,
in text order and with duplicates kept, the maximal runs of token characters that contain a
`/`, each stripped of the cutset characters at both ends, the empty results dropped. -/
theorem Extract_eq_spec (text : String) : Extract text = ExtractSpec text := by
  unfold Extract ExtractSpec
  rw [findAllRuns_eq_maximalRuns, filterMap_extractOne]


/-! ### C20: `Extract` on its own output -/

theorem findAllRuns_runs (cs cur : List Char) (hcur : ∀ c ∈ cur, isTokenChar c = true)
    (r : List Char) (h : r ∈ findAllRuns cs cur) :
    r ≠ [] ∧ ∀ c ∈ r, isTokenChar c = true := by
  induction cs generalizing cur with
  | nil =>
    cases cur with
    | nil => simp [findAllRuns] at h
    | cons a as =>
      simp only [findAllRuns, List.isEmpty_cons, Bool.false_eq_true, if_false,
        List.mem_singleton] at h
      subst h
      exact ⟨by simp, fun c hc => hcur c (List.mem_reverse.mp hc)⟩
  | cons c cs ih =>
    unfold findAllRuns at h
    by_cases hc : isTokenChar c = true
    · simp only [hc, if_true] at h
      refine ih (c :: cur) ?_ h
      intro x hx
      rcases List.mem_cons.mp hx with hx | hx
      · rw [hx]; exact hc
      · exact hcur x hx
    · simp only [hc, if_false] at h
      cases cur with
      | nil =>
        simp only [List.isEmpty_nil, if_true] at h
        exact ih [] (by simp) h
      | cons a as =>
        simp only [List.isEmpty_cons, Bool.false_eq_true, if_false, List.mem_cons] at h
        rcases h with h | h
        · subst h
          exact ⟨by simp, fun x hx => hcur x (List.mem_reverse.mp hx)⟩
        · exact ih [] (by simp) h

theorem not_cut_of_token (c : Char) (h : isTokenChar c = true) : isCutChar c = false := by
  cases hcut : isCutChar c with
  | false => rfl
  | true =>
    exfalso
    simp only [isCutChar, Bool.or_eq_true, beq_iff_eq] at hcut
    rcases hcut with ((((((((h1 | h1) | h1) | h1) | h1) | h1) | h1) | h1) | h1) | h1 <;>
      · subst h1
        revert h
        decide

theorem dropWhile_of_head {α : Type} (p : α → Bool) (l : List α)
    (h : ∀ c ∈ l, p c = false) : l.dropWhile p = l := by
  cases l with
  | nil => rfl
  | cons a as => simp [List.dropWhile, h a (List.mem_cons_self _ _)]

theorem trimChars_of_none {p : Char → Bool} (l : List Char) (h : ∀ c ∈ l, p c = false) :
    trimChars p l = l := by
  unfold trimChars
  rw [dropWhile_of_head p l h, dropWhile_of_head p l.reverse
    (fun c hc => h c (List.mem_reverse.mp hc)), List.reverse_reverse]

theorem extractOne_of_run (r : List Char) (hne : r ≠ [])
    (htok : ∀ c ∈ r, isTokenChar c = true) (hslash : '/' ∈ r) :
    extractOne r = some ⟨r⟩ := by
  have ht : trimChars isCutChar r = r :=
    trimChars_of_none r (fun c hc => not_cut_of_token c (htok c hc))
  have hcont : r.contains '/' = true := by simpa using hslash
  have hemp : r.isEmpty = false := by
    cases r with
    | nil => exact absurd rfl hne
    | cons a as => rfl
  simp only [extractOne, hcont, ht, hemp, Bool.not_true, Bool.false_eq_true, if_false]

theorem extractOne_some (r : List Char) (tok : String) (htok : ∀ c ∈ r, isTokenChar c = true)
    (h : extractOne r = some tok) : tok.data = r ∧ '/' ∈ r := by
  have ht : trimChars isCutChar r = r :=
    trimChars_of_none r (fun c hc => not_cut_of_token c (htok c hc))
  unfold extractOne at h
  by_cases hc : r.contains '/' = true
  · simp only [hc, Bool.not_true, Bool.false_eq_true, if_false, ht] at h
    split at h
    · cases h
    · injection h with h
      subst h
      exact ⟨rfl, by simpa using hc⟩
  · exfalso
    simp only [hc, Bool.not_false, if_true] at h
    cases h

theorem Extract_tokens (text tok : String) (h : tok ∈ Extract text) :
    tok.data ≠ [] ∧ (∀ c ∈ tok.data, isTokenChar c = true) ∧ '/' ∈ tok.data := by
  unfold Extract at h
  rw [List.mem_filterMap] at h
  obtain ⟨r, hr, he⟩ := h
  obtain ⟨hne, hall⟩ := findAllRuns_runs text.data [] (by simp) r hr
  obtain ⟨hd, hs⟩ := extractOne_some r tok hall he
  rw [hd]
  exact ⟨hne, hall, hs⟩

theorem findAllRuns_append_run (r rest cur : List Char)
    (hr : ∀ c ∈ r, isTokenChar c = true) :
    findAllRuns (r ++ rest) cur = findAllRuns rest (r.reverse ++ cur) := by
  induction r generalizing cur with
  | nil => rfl
  | cons a as ih =>
    have ha := hr a (List.mem_cons_self _ _)
    have h1 : findAllRuns (a :: as ++ rest) cur = findAllRuns (as ++ rest) (a :: cur) := by
      simp only [List.cons_append, findAllRuns, ha, if_true]
      rfl
    rw [h1, ih (a :: cur) (fun c hc => hr c (List.mem_cons_of_mem _ hc))]
    simp

theorem findAllRuns_intercalate (sep : Char) (hsep : isTokenChar sep = false)
    (rs : List (List Char)) (hrs : ∀ r ∈ rs, r ≠ [] ∧ ∀ c ∈ r, isTokenChar c = true) :
    findAllRuns (List.intercalate [sep] rs) [] = rs := by
  induction rs with
  | nil => rfl
  | cons r rs ih =>
    obtain ⟨hne, htok⟩ := hrs r (List.mem_cons_self _ _)
    have hrev : r.reverse.isEmpty = false := by
      cases hr : r.reverse with
      | nil => exact absurd (List.reverse_eq_nil_iff.mp hr) hne
      | cons a as => rfl
    cases rs with
    | nil =>
      have : List.intercalate [sep] [r] = r ++ [] := by simp [List.intercalate]
      rw [this, findAllRuns_append_run r [] [] htok]
      simp [findAllRuns, hrev]
    | cons r1 rs1 =>
      have : List.intercalate [sep] (r :: r1 :: rs1)
          = r ++ sep :: List.intercalate [sep] (r1 :: rs1) := by
        simp [List.intercalate]
      rw [this, findAllRuns_append_run r _ [] htok]
      simp only [List.append_nil, findAllRuns, hsep, Bool.false_eq_true, if_false, hrev,
        List.reverse_reverse]
      rw [ih (fun x hx => hrs x (List.mem_cons_of_mem _ hx))]

theorem Extract_joinTokens (sep : Char) (hsep : isTokenChar sep = false) (text : String) :
    Extract (joinTokens sep (Extract text)) = Extract text := by
  have hall := Extract_tokens text
  generalize Extract text = toks at hall
  unfold Extract joinTokens
  simp only
  rw [findAllRuns_intercalate sep hsep]
  · induction toks with
    | nil => rfl
    | cons t ts ih =>
      obtain ⟨h1, h2, h3⟩ := hall t (List.mem_cons_self _ _)
      rw [List.map_cons, List.filterMap_cons, extractOne_of_run t.data h1 h2 h3]
      simp only
      rw [ih (fun x hx => hall x (List.mem_cons_of_mem _ hx))]
  · intro r hr
    rw [List.mem_map] at hr
    obtain ⟨t, ht, rfl⟩ := hr
    exact ⟨(hall t ht).1, (hall t ht).2.1⟩

/-- C20 (`Extract` is stable on its own output). Every token `Extract` returns is non-empty,
consists of token characters only and contains a `/`; extracting again from the tokens
joined by one space, or by one newline, returns the same list. -/
theorem Extract_stable (text : String) :
    (∀ tok ∈ Extract text,
        tok ≠ "" ∧ (∀ c ∈ tok.data, isTokenChar c = true) ∧ '/' ∈ tok.data)
      ∧ Extract (joinTokens ' ' (Extract text)) = Extract text
      ∧ Extract (joinTokens '\n' (Extract text)) = Extract text := by
  refine ⟨?_, Extract_joinTokens ' ' (by decide) text, Extract_joinTokens '\n' (by decide) text⟩
  intro tok htok
  obtain ⟨h1, h2, h3⟩ := Extract_tokens text tok htok
  refine ⟨?_, h2, h3⟩
  intro he
  rw [he] at h1
  exact h1 rfl


/-! ### C14, C15: shape of the result, default depth -/

theorem Run_success (w : World) (opts : Options) (h : (Run w opts).2 = none) :
    ∃ p st, prepare w opts = .ok p ∧ traverse w p = .done st
      ∧ Run w opts = (finish p st, none) := by
  cases hp : prepare w opts with
  | error e =>
    have hrun : Run w opts = (Result.empty, some e) := by
      unfold Run
      simp only [hp]
    rw [hrun] at h
    cases h
  | ok p =>
    cases ht : traverse w p with
    | done st => exact ⟨p, st, rfl, ht, Run_of_done w opts p st hp ht⟩
    | failed st e =>
      have hrun : Run w opts
          = ({ Result.empty with RootsProcessed := p.roots.length, Warnings := st.warnings },
             some e) := by
        unfold Run
        simp only [hp, ht]
      rw [hrun] at h
      cases h
    | outOfFuel =>
      have hrun : Run w opts = (Result.empty, some .fuelExhausted) := by
        unfold Run
        simp only [hp, ht]
      rw [hrun] at h
      cases h

/-- C14 (shape of the unresolved output). In every successful run `Result.Unresolved` is
sorted in ascending string order and has no duplicates, and `Result.UnresolvedUnique` is its
length. -/
theorem unresolved_shape (w : World) (opts : Options) (h : (Run w opts).2 = none) :
    (Run w opts).1.Unresolved.Sorted strLe
      ∧ (Run w opts).1.Unresolved.Nodup
      ∧ (Run w opts).1.UnresolvedUnique = (Run w opts).1.Unresolved.length := by
  obtain ⟨p, st, _, ht, hrun⟩ := Run_success w opts h
  have hbook := traverse_book w p st (by rw [ht]; rfl)
  have hperm : (sortStrings st.unresolvedSet).Perm st.unresolvedSet :=
    List.perm_insertionSort _ _
  rw [hrun]
  exact ⟨sortStrings_sorted _, hperm.nodup_iff.mpr hbook.unresNodup, hperm.length_eq.symm⟩

/-- Witness of C14 on scenario 1, whose unresolved output has two entries. -/
theorem unresolved_shape_witness :
    (Run scenario1World scenario1Opts).2 = none
      ∧ (Run scenario1World scenario1Opts).1.Unresolved = ["//", "sounds/ui/click.wav"]
      ∧ (Run scenario1World scenario1Opts).1.Unresolved.Sorted strLe
      ∧ (Run scenario1World scenario1Opts).1.Unresolved.Nodup
      ∧ (Run scenario1World scenario1Opts).1.UnresolvedUnique
        = (Run scenario1World scenario1Opts).1.Unresolved.length :=
  ⟨by decide, by decide, unresolved_shape scenario1World scenario1Opts (by decide)⟩

theorem prepare_default_depth (w : World) (opts : Options) (h : opts.MaxDepth ≤ 0) :
    prepare w opts = prepare w { opts with MaxDepth := 10 } := by
  unfold prepare
  simp only [h, if_true]
  rfl

/-- C15 (default depth). For every configuration with `MaxDepth <= 0`, `Run` returns the
same `Result` and the same error, and its traversal ends in the same state, with the same
trace of `copyOne` calls, as for the same configuration with `MaxDepth = 10`. -/
theorem default_depth (w : World) (opts : Options) (h : opts.MaxDepth ≤ 0) :
    Run w opts = Run w { opts with MaxDepth := 10 }
      ∧ runFinal w opts = runFinal w { opts with MaxDepth := 10 } := by
  unfold Run runFinal
  rw [prepare_default_depth w opts h]
  exact ⟨rfl, rfl⟩

/-- Witness of C15: the chain of `TestRun_DepthLimitWarns` run with `MaxDepth = -3`. -/
theorem default_depth_witness :
    (-3 : Int) ≤ 0
      ∧ Run chain12World { chain12Opts with MaxDepth := -3 }
        = Run chain12World { chain12Opts with MaxDepth := 10 }
      ∧ runFinal chain12World { chain12Opts with MaxDepth := -3 }
        = runFinal chain12World { chain12Opts with MaxDepth := 10 } :=
  ⟨by decide, default_depth chain12World { chain12Opts with MaxDepth := -3 } (by decide)⟩


/-! ### C19, C17: what `index.Load` refuses and which paths the index holds -/

theorem loadVisit_eq (w : World) (bucket : String) (idx : Index) (e : WalkEntry) :
    loadVisit w bucket idx e
      = match loadName w bucket e with
        | none => .ok idx
        | some name =>
          if refusedPath e then .error (relPath e)
          else .ok ((name, { Name := name, RelDeclPath := trimSuffix (relPath e) ".xml",
                             RelXMLPath := relPath e }) :: idx) := by
  by_cases h1 : (e.walkErr || e.isDir) = true
  · simp [loadVisit, loadName, h1]
  · by_cases h2 : hasSuffix (relPath e) ".decl.xml" = true
    · cases hr : w.readFile bucket (relPath e) with
      | none => simp [loadVisit, loadName, h1, h2, hr]
      | some data =>
        cases hx : w.xmlDoc data with
        | none => simp [loadVisit, loadName, h1, h2, hr, hx]
        | some doc =>
          by_cases h3 : wrapperName doc = ""
          · simp [loadVisit, loadName, h1, h2, hr, hx, h3]
          · simp [loadVisit, loadName, refusedPath, h1, h2, hr, hx, h3]
    · simp [loadVisit, loadName, h1, h2]

theorem loadWalk_error_iff (w : World) (bucket : String) (idx : Index) (es : List WalkEntry) :
    (∃ rel, loadWalk w bucket idx es = .error rel)
      ↔ ∃ e ∈ es, (loadName w bucket e).isSome = true ∧ refusedPath e = true := by
  induction es generalizing idx with
  | nil => simp [loadWalk]
  | cons e es ih =>
    unfold loadWalk
    rw [loadVisit_eq]
    cases hn : loadName w bucket e with
    | none =>
      simp only [ih idx, List.mem_cons, exists_eq_or_imp, hn, Option.isSome_none,
        Bool.false_eq_true, false_and, false_or]
    | some name =>
      by_cases hr : refusedPath e = true
      · simp only [hr, if_true, List.mem_cons, exists_eq_or_imp, hn, Option.isSome_some,
          and_self, true_or, iff_true]
        exact ⟨_, rfl⟩
      · simp only [hr, if_false, Bool.false_eq_true, ih, List.mem_cons, exists_eq_or_imp, hn,
          Option.isSome_some, and_false, false_or]

/-- What `index.Load` fails on: it returns an error exactly when the walk meets an entry that
it would index and whose relative path, or that path without `.xml`, has the string prefix
`..`. -/
theorem Load_error_iff (w : World) (bucket : String) :
    (∃ rel, Load w bucket = .error rel)
      ↔ ∃ e ∈ w.walkDir bucket, (loadName w bucket e).isSome = true ∧ refusedPath e = true :=
  loadWalk_error_iff w bucket [] (w.walkDir bucket)

theorem intercalate_go_prefix (acc s : String) (l : List String) :
    acc.data.isPrefixOf (String.intercalate.go acc s l).data = true := by
  induction l generalizing acc with
  | nil => simp [String.intercalate.go]
  | cons a as ih =>
    simp only [String.intercalate.go]
    have h := ih (acc ++ s ++ a)
    rw [List.isPrefixOf_iff_prefix] at h ⊢
    refine List.IsPrefix.trans ?_ h
    rw [String.data_append, String.data_append, List.append_assoc]
    exact List.prefix_append _ _

/-- A path that escapes the bucket root is refused. -/
theorem refused_of_escapes (e : WalkEntry) (h : escapesRoot e = true) :
    refusedPath e = true := by
  unfold escapesRoot at h
  cases hrel : e.rel with
  | nil => simp [hrel] at h
  | cons c cs =>
    simp only [hrel, List.head?_cons, beq_iff_eq, Option.some.injEq] at h
    subst h
    unfold refusedPath hasPrefix relPath
    rw [hrel]
    simp only [String.intercalate, Bool.or_eq_true]
    left
    exact intercalate_go_prefix ".." "/" cs

theorem loadWalk_paths (w : World) (bucket : String) (es0 : List WalkEntry) (idx : Index)
    (es : List WalkEntry) (idx1 : Index)
    (h0 : ∀ kr ∈ idx, ∃ e ∈ es0, loadName w bucket e = some kr.1 ∧ kr.2.Name = kr.1
      ∧ kr.2.RelXMLPath = relPath e ∧ kr.2.RelDeclPath = trimSuffix (relPath e) ".xml")
    (hsub : ∀ e ∈ es, e ∈ es0)
    (h : loadWalk w bucket idx es = .ok idx1) :
    ∀ kr ∈ idx1, ∃ e ∈ es0, loadName w bucket e = some kr.1 ∧ kr.2.Name = kr.1
      ∧ kr.2.RelXMLPath = relPath e ∧ kr.2.RelDeclPath = trimSuffix (relPath e) ".xml" := by
  induction es generalizing idx with
  | nil =>
    simp only [loadWalk, Except.ok.injEq] at h
    subst h
    exact h0
  | cons e es ih =>
    unfold loadWalk at h
    rw [loadVisit_eq] at h
    cases hn : loadName w bucket e with
    | none =>
      simp only [hn] at h
      exact ih idx h0 (fun x hx => hsub x (List.mem_cons_of_mem _ hx)) h
    | some name =>
      simp only [hn] at h
      by_cases hr : refusedPath e = true
      · simp [hr] at h
      · simp only [hr, Bool.false_eq_true, if_false] at h
        refine ih _ ?_ (fun x hx => hsub x (List.mem_cons_of_mem _ hx)) h
        intro kr hkr
        rcases List.mem_cons.mp hkr with hkr | hkr
        · subst hkr
          exact ⟨e, hsub e (List.mem_cons_self _ _), hn, rfl, rfl, rfl⟩
        · exact h0 kr hkr

/-- The resources that `index.Load` builds mirror the relative path of their sidecar. -/
theorem Load_paths (w : World) (bucket : String) (idx : Index) (h : Load w bucket = .ok idx) :
    ∀ kr ∈ idx, ∃ e ∈ w.walkDir bucket, loadName w bucket e = some kr.1 ∧ kr.2.Name = kr.1
      ∧ kr.2.RelXMLPath = relPath e ∧ kr.2.RelDeclPath = trimSuffix (relPath e) ".xml" :=
  loadWalk_paths w bucket (w.walkDir bucket) [] (w.walkDir bucket) idx (by simp)
    (fun _ he => he) h

/-- C19 at its failing input. The bucket `game1` holds the sidecar `..a.decl.xml` directly in
the bucket directory: no path of the walk escapes the bucket root, yet `index.Load` returns
an error and `Run` fails with it. -/
theorem Load_refuses_dot_name :
    (∀ e ∈ dotNameWorld.walkDir "game1", escapesRoot e = false)
      ∧ loadName dotNameWorld "game1"
          { rel := ["..a.decl.xml"], isDir := false, walkErr := false } = some "m/a"
      ∧ Load dotNameWorld "game1" = .error "..a.decl.xml"
      ∧ Run dotNameWorld { ExportRoot := "Export", Entry := "m/a", OutDir := "out",
                            MaxDepth := 10 }
        = (Result.empty, some (.loadIndex "game1" "..a.decl.xml")) := by
  decide

/-- C17 at its failing input. The sidecar of the one asset is `sub/A.decl.xml`; the resource
that `resolveEntry` inserts for it has the base names `A.decl.xml` and `A.decl` as its
paths, and `copyOne`, which looks for `game1/A.decl`, fails. -/
theorem nested_sidecar_loses_directory :
    relPath { rel := ["sub", "A.decl.xml"], isDir := false, walkErr := false }
        = "sub/A.decl.xml"
      ∧ canonicalFromXML nestedWorld "game1" "sub/A.decl.xml" = some "models/a/a.asset"
      ∧ (prepare nestedWorld scenario1Opts).toOption.map
          (fun p => lookup2 p.byBucket "game1" "models/a/a.asset")
        = some (some { Name := "models/a/a.asset", RelDeclPath := "A.decl",
                       RelXMLPath := "A.decl.xml" })
      ∧ Run nestedWorld scenario1Opts
        = ({ Result.empty with RootsProcessed := 1 },
           some (.copyFailed "game1" "A.decl" .openSrc)) := by
  decide

/-! ### C11: the roots of canonical-name mode -/

theorem entryVisit_fst (w : World) (entry bucket : String) (acc : List node × ByBucket)
    (e : WalkEntry) :
    (entryVisit w entry bucket acc e).1
      = acc.1 ++ (if matchesEntry w entry bucket e
          then [{ Bucket := bucket, Name := entry, Depth := 0 }] else []) := by
  unfold entryVisit matchesEntry
  by_cases hg : (e.walkErr || e.isDir || !hasSuffix (relPath e) ".decl.xml") = true
  · simp [hg]
  · simp only [hg, if_false]
    cases hc : canonicalFromXML w bucket (relPath e) with
    | none => simp
    | some name =>
      by_cases hn : name = entry
      · subst hn; simp
      · simp [hn]

theorem entryWalk_roots (w : World) (entry bucket : String) (es : List WalkEntry)
    (acc : List node × ByBucket) :
    (es.foldl (entryVisit w entry bucket) acc).1
      = acc.1 ++ (es.filter (matchesEntry w entry bucket)).map
          (fun _ => { Bucket := bucket, Name := entry, Depth := 0 }) := by
  induction es generalizing acc with
  | nil => simp
  | cons e es ih =>
    rw [List.foldl_cons, ih, entryVisit_fst]
    by_cases hm : matchesEntry w entry bucket e = true
    · simp [hm, List.filter_cons]
    · simp [hm, List.filter_cons]

theorem entryBuckets_roots (w : World) (entry : String) (buckets : List String)
    (acc : List node × ByBucket) :
    (buckets.foldl (fun acc b => (w.walkDir b).foldl (entryVisit w entry b) acc) acc).1
      = acc.1 ++ (buckets.map (fun b => ((w.walkDir b).filter (matchesEntry w entry b)).map
          (fun _ => ({ Bucket := b, Name := entry, Depth := 0 } : node)))).flatten := by
  induction buckets generalizing acc with
  | nil => simp
  | cons b bs ih =>
    rw [List.foldl_cons, ih, entryWalk_roots]
    simp [List.append_assoc]

/-- In canonical-name mode `resolveEntry` collects one root for every matching sidecar, bucket
after bucket. -/
theorem entryScan_roots_eq (w : World) (entry : String) (buckets : List String)
    (byBucket : ByBucket) :
    (entryScan w entry buckets byBucket).1
      = (buckets.map (fun b => ((w.walkDir b).filter (matchesEntry w entry b)).map
          (fun _ => ({ Bucket := b, Name := entry, Depth := 0 } : node)))).flatten := by
  unfold entryScan
  rw [entryBuckets_roots]
  simp

/-- When no bucket holds the canonical name in more than one sidecar, the roots of
canonical-name mode are the matching buckets, one root each. -/
theorem entryScan_roots_of_unique (w : World) (entry : String) (buckets : List String)
    (byBucket : ByBucket)
    (h : ∀ b ∈ buckets, ((w.walkDir b).filter (matchesEntry w entry b)).length ≤ 1) :
    (entryScan w entry buckets byBucket).1
      = (matchingBuckets w entry buckets).map
          (fun b => { Bucket := b, Name := entry, Depth := 0 }) := by
  rw [entryScan_roots_eq]
  unfold matchingBuckets
  induction buckets with
  | nil => rfl
  | cons b bs ih =>
    have hb := h b (List.mem_cons_self _ _)
    have ih1 := ih (fun c hc => h c (List.mem_cons_of_mem _ hc))
    rw [List.map_cons, List.flatten_cons, ih1]
    cases hf : (w.walkDir b).filter (matchesEntry w entry b) with
    | nil =>
      have hany : (w.walkDir b).any (matchesEntry w entry b) = false := by
        rw [List.any_eq_false]
        intro x hx hm
        have : x ∈ (w.walkDir b).filter (matchesEntry w entry b) :=
          List.mem_filter.mpr ⟨hx, hm⟩
        rw [hf] at this
        cases this
      simp [List.filter_cons, hany]
    | cons x xs =>
      have hx : x ∈ (w.walkDir b).filter (matchesEntry w entry b) := by
        rw [hf]; exact List.mem_cons_self _ _
      have hany : (w.walkDir b).any (matchesEntry w entry b) = true := by
        rw [List.any_eq_true]
        exact ⟨x, (List.mem_filter.mp hx).1, (List.mem_filter.mp hx).2⟩
      rw [hf] at hb
      cases xs with
      | nil => simp [List.filter_cons, hany]
      | cons y ys => simp at hb

/-- C11 at its failing input. The one bucket `game1` holds two sidecars with the canonical
name `models/a/a.asset`: one bucket matches, yet `resolveEntry` returns two roots for it and
records the warning that the entry exists in multiple buckets, and `Run` reports two roots. -/
theorem duplicate_sidecars_two_roots :
    matchingBuckets duplicateWorld "models/a/a.asset" ["game1"] = ["game1"]
      ∧ loadAll duplicateWorld ["game1"] = .ok [("game1", [])]
      ∧ (resolveEntry duplicateWorld ["game1"] [("game1", [])] "models/a/a.asset").map
          (fun out => (out.1, out.2.1))
        = .ok ([{ Bucket := "game1", Name := "models/a/a.asset", Depth := 0 },
                { Bucket := "game1", Name := "models/a/a.asset", Depth := 0 }],
               [.entryMultiple "models/a/a.asset"])
      ∧ ((Run duplicateWorld scenario1Opts).1.RootsProcessed,
          (Run duplicateWorld scenario1Opts).1.Warnings, (Run duplicateWorld scenario1Opts).2)
        = (2, [.entryMultiple "models/a/a.asset"], none) := by
  decide

/-! ### C12: exported-filename mode on sidecars that are a lone root element -/

theorem loadName_rootOnly (w : World) (h : RootOnly w) (bucket : String) (e : WalkEntry) :
    loadName w bucket e = none := by
  unfold loadName
  by_cases h1 : (e.walkErr || e.isDir) = true
  · simp [h1]
  · by_cases h2 : (!hasSuffix (relPath e) ".decl.xml") = true
    · simp [h1, h2]
    · cases hr : w.readFile bucket (relPath e) with
      | none => simp [h1, h2]
      | some data =>
        cases hx : w.xmlDoc data with
        | none => simp [h1, h2, hx]
        | some doc =>
          have hc := h data doc hx
          simp [h1, h2, hx, wrapperName, hc]

theorem loadWalk_rootOnly (w : World) (h : RootOnly w) (bucket : String) (idx : Index)
    (es : List WalkEntry) : loadWalk w bucket idx es = .ok idx := by
  induction es with
  | nil => rfl
  | cons e es ih =>
    unfold loadWalk
    rw [loadVisit_eq, loadName_rootOnly w h]
    exact ih

/-- The index `index.Load` builds is empty when every sidecar is a lone root element. -/
theorem loadAll_rootOnly (w : World) (h : RootOnly w) (buckets : List String) :
    loadAll w buckets = .ok (buckets.map (fun b => (b, []))) := by
  induction buckets with
  | nil => rfl
  | cons b bs ih =>
    unfold loadAll
    have hl : Load w b = .ok [] := loadWalk_rootOnly w h b [] (w.walkDir b)
    rw [hl, ih]
    rfl

theorem lookup2_empty (buckets : List String) (b n : String) :
    lookup2 (buckets.map (fun b => (b, ([] : Index)))) b n = none := by
  unfold lookup2
  cases hb : (buckets.map (fun b => (b, ([] : Index)))).lookup b with
  | none => rfl
  | some idx =>
    have hm := lookup_mem b _ idx hb
    rw [List.mem_map] at hm
    obtain ⟨c, _, hc⟩ := hm
    have : idx = [] := by
      have := congrArg Prod.snd hc
      exact this.symm
    subst this
    rfl

theorem prepare_filename_index (w : World) (h : RootOnly w) (opts : Options) (p : Prepared)
    (hslash : containsSlash (trimSpace opts.Entry) = false) (hp : prepare w opts = .ok p) :
    ∀ b n, lookup2 p.byBucket b n = none := by
  obtain ⟨_, _, byBucket0, hl, hr⟩ := prepare_ok w opts p hp
  rw [loadAll_rootOnly w h] at hl
  have hb0 : byBucket0 = p.buckets.map (fun b => (b, [])) := by
    cases hl; rfl
  have hbb : p.byBucket = byBucket0 := by
    unfold resolveEntry at hr
    simp only [hslash, Bool.false_eq_true, if_false] at hr
    cases he : entryFiles w (trimSpace opts.Entry) p.buckets [] with
    | error e => simp [he] at hr
    | ok roots =>
      simp only [he] at hr
      by_cases h0 : roots.length = 0
      · simp [h0] at hr
      · by_cases h1 : roots.length > 1
        · simp only [h0, h1, if_false, if_true, Except.ok.injEq, Prod.mk.injEq] at hr
          exact hr.2.2.symm
        · simp only [h0, h1, if_false, Except.ok.injEq, Prod.mk.injEq] at hr
          exact hr.2.2.symm
  intro b n
  rw [hbb, hb0]
  exact lookup2_empty p.buckets b n
theorem loopBody_copies_nothing (w : World) (maxDepth : Int) (buckets : List String)
    (byBucket : ByBucket) (hidx : ∀ b n, lookup2 byBucket b n = none)
    (st : TravState) (n : node) (stack : List node) :
    (∀ st1 stack1, loopBody w maxDepth buckets byBucket st n stack = .next st1 stack1 →
        st1.copyCalls = st.copyCalls ∧ st1.copied = st.copied)
      ∧ ∀ st1 e, loopBody w maxDepth buckets byBucket st n stack ≠ .fail st1 e := by
  constructor
  · intro st1 stack1 h
    rcases loopBody_next_cases w maxDepth buckets byBucket st n stack st1 stack1 h with
      h1 | h1 | h1 | h1
    · obtain ⟨_, hs, _⟩ := h1
      subst hs; exact ⟨rfl, rfl⟩
    · obtain ⟨_, _, hs, _⟩ := h1
      subst hs; exact ⟨rfl, rfl⟩
    · obtain ⟨_, _, _, hs, _⟩ := h1
      subst hs; exact ⟨rfl, rfl⟩
    · obtain ⟨_, _, r, hr, _⟩ := h1
      rw [hidx] at hr
      cases hr
  · intro st1 e h
    obtain ⟨_, _, r, hr, _⟩ := loopBody_fail_cases w maxDepth buckets byBucket st n stack st1 e h
    rw [hidx] at hr
    cases hr

/-- With sidecars that are a lone root element and an exported filename as entry, the
traversal of `Run` calls `copyOne` for no node: nothing is copied, whatever the tree holds. -/
theorem filename_mode_copies_nothing (w : World) (h : RootOnly w) (opts : Options)
    (hslash : containsSlash (trimSpace opts.Entry) = false) :
    (∀ st, runFinal w opts = some st → st.copyCalls = [] ∧ st.copied = [])
      ∧ (Run w opts).1.CopiedDecl = 0 ∧ (Run w opts).1.CopiedXML = 0 := by
  have key : ∀ p, prepare w opts = .ok p → ∀ st, (traverse w p).finalState = some st →
      st.copyCalls = [] ∧ st.copied = [] := by
    intro p hp st hst
    have hidx := prepare_filename_index w h opts p hslash hp
    exact forRoots_induction w p.maxDepth p.buckets p.byBucket
      (fun s => s.copyCalls = [] ∧ s.copied = [])
      (fun s n stack s1 stack1 hs hb => by
        have := (loopBody_copies_nothing w p.maxDepth p.buckets p.byBucket hidx s n stack).1
          s1 stack1 hb
        exact ⟨this.1.trans hs.1, this.2.trans hs.2⟩)
      (fun s n stack s1 e _ hb =>
        absurd hb ((loopBody_copies_nothing w p.maxDepth p.buckets p.byBucket hidx s n stack).2
          s1 e))
      _ (initState p.warns) p.roots ⟨rfl, rfl⟩ st hst
  have hres : (Run w opts).1.CopiedDecl = (Run w opts).1.CopiedXML
      ∧ (Run w opts).1.CopiedDecl = 0 := by
    unfold Run
    cases hp : prepare w opts with
    | error e => exact ⟨rfl, rfl⟩
    | ok p =>
      simp only []
      cases ht : traverse w p with
      | done st =>
        have := key p hp st (by rw [ht]; rfl)
        simp [finish, this.2]
      | failed st e => simp [Result.empty]
      | outOfFuel => simp [Result.empty]
  refine ⟨?_, hres.2, hres.1 ▸ hres.2⟩
  intro st hst
  unfold runFinal at hst
  cases hp : prepare w opts with
  | error e => simp [hp] at hst
  | ok p =>
    simp only [hp] at hst
    exact key p hp st hst

/-- C12 at its failing input. The file `A.decl` is in the buckets `game1` and `game2`, each
with a readable sidecar written as the tests write them, and the entry is `A.decl`: `Run`
succeeds with two roots and the one warning, but `index.Load` has indexed no sidecar, both
roots end in `Unresolved`, and neither pair is copied. -/
theorem filename_entry_copies_nothing :
    RootOnly twinWorld
      ∧ twinWorld.stat "game1" "A.decl" = true ∧ twinWorld.stat "game2" "A.decl" = true
      ∧ canonicalFromXML twinWorld "game1" "A.decl.xml" = some "models/a/a.asset"
      ∧ canonicalFromXML twinWorld "game2" "A.decl.xml" = some "models/a/a.asset"
      ∧ loadAll twinWorld ["game1", "game2"] = .ok [("game1", []), ("game2", [])]
      ∧ Run twinWorld filenameOpts
        = ({ RootsProcessed := 2, VisitedNodes := 2, CopiedDecl := 0, CopiedXML := 0,
             UnresolvedUnique := 1, Unresolved := ["models/a/a.asset"],
             Warnings := [.entryFileMultiple "A.decl"] }, none) := by
  refine ⟨?_, by decide, by decide, by decide, by decide, by decide, by decide⟩
  intro data doc hd
  simp only [twinWorld, treeWorld, Option.map_eq_some'] at hd
  obtain ⟨a, _, ha⟩ := hd
  subst ha
  rfl

/-! ### C18: what `Unresolved` holds -/

theorem resolve_some_lookup (buckets : List String) (byBucket : ByBucket) (tok : String)
    (rr : resolved) (h : (resolveTokenAcrossBuckets buckets byBucket tok).1 = some rr) :
    rr.Bucket ∈ buckets ∧ lookup2 byBucket rr.Bucket tok = some rr.Resource := by
  unfold resolveTokenAcrossBuckets at h
  have hfl := found_lookup buckets byBucket tok
  cases hfound : buckets.filterMap
      (fun b => (lookup2 byBucket b tok).map (fun r => resolved.mk b r)) with
  | nil => simp [hfound] at h
  | cons f rest =>
    rw [hfound] at hfl h
    have hf := hfl f (List.mem_cons_self _ _)
    cases rest with
    | nil =>
      simp only [Option.some.injEq] at h
      subst h
      exact hf
    | cons g rest =>
      simp only [Option.some.injEq] at h
      subst h
      exact hf

theorem resolve_none_absent (buckets : List String) (byBucket : ByBucket) (tok : String)
    (h : (resolveTokenAcrossBuckets buckets byBucket tok).1 = none) :
    ∀ b ∈ buckets, lookup2 byBucket b tok = none := by
  unfold resolveTokenAcrossBuckets at h
  cases hfound : buckets.filterMap
      (fun b => (lookup2 byBucket b tok).map (fun r => resolved.mk b r)) with
  | nil =>
    rw [List.filterMap_eq_nil_iff] at hfound
    intro b hb
    have := hfound b hb
    cases hl : lookup2 byBucket b tok with
    | none => rfl
    | some r => simp [hl] at this
  | cons f rest =>
    rw [hfound] at h
    cases rest with
    | nil => simp at h
    | cons g rest => simp at h

theorem expandNode_cases (w : World) (buckets : List String) (byBucket : ByBucket)
    (st : TravState) (n : node) (r : Resource) (stack : List node) :
    ((expandNode w buckets byBucket st n r stack).1.unresolvedSet = st.unresolvedSet
        ∧ (expandNode w buckets byBucket st n r stack).2 = stack)
      ∨ ∃ data, w.readFile n.Bucket r.RelDeclPath = some data
          ∧ (expandNode w buckets byBucket st n r stack).1.unresolvedSet
              = (pushTokens buckets byBucket n.Depth (Extract data)
                  (st.unresolvedSet, st.warnings, stack)).1
          ∧ (expandNode w buckets byBucket st n r stack).2
              = (childNodes buckets byBucket n.Depth (Extract data)).reverse ++ stack := by
  unfold expandNode
  cases hr : w.readFile n.Bucket r.RelDeclPath with
  | none => left; exact ⟨rfl, rfl⟩
  | some data =>
    right
    exact ⟨data, rfl, rfl, pushTokens_stack _ _ _ _ _ _ _⟩

/-- The invariant behind C18: a string in the unresolved set is a key of no bucket index or
the name of a root missing from the index of its own bucket, and a node on the stack is a
root or a key of the index of its bucket. -/
theorem unresolved_step (w : World) (p : Prepared) (hnamed : IndexNamed p.byBucket)
    (st : TravState) (n : node) (stack : List node) (st1 : TravState) (stack1 : List node)
    (hP : (∀ u ∈ st.unresolvedSet, (∀ b ∈ p.buckets, lookup2 p.byBucket b u = none)
              ∨ ∃ root ∈ p.roots, root.Name = u ∧ lookup2 p.byBucket root.Bucket u = none)
        ∧ ∀ m ∈ n :: stack, (∃ root ∈ p.roots, root.Bucket = m.Bucket ∧ root.Name = m.Name)
              ∨ (lookup2 p.byBucket m.Bucket m.Name).isSome = true)
    (hb : loopBody w p.maxDepth p.buckets p.byBucket st n stack = .next st1 stack1) :
    (∀ u ∈ st1.unresolvedSet, (∀ b ∈ p.buckets, lookup2 p.byBucket b u = none)
        ∨ ∃ root ∈ p.roots, root.Name = u ∧ lookup2 p.byBucket root.Bucket u = none)
      ∧ ∀ m ∈ stack1, (∃ root ∈ p.roots, root.Bucket = m.Bucket ∧ root.Name = m.Name)
          ∨ (lookup2 p.byBucket m.Bucket m.Name).isSome = true := by
  obtain ⟨hU, hS⟩ := hP
  have hS1 : ∀ m ∈ stack, (∃ root ∈ p.roots, root.Bucket = m.Bucket ∧ root.Name = m.Name)
      ∨ (lookup2 p.byBucket m.Bucket m.Name).isSome = true :=
    fun m hm => hS m (List.mem_cons_of_mem _ hm)
  rcases loopBody_next_cases w p.maxDepth p.buckets p.byBucket st n stack st1 stack1 hb with
    h1 | h1 | h1 | h1
  · obtain ⟨_, hs, hk⟩ := h1
    subst hs hk
    exact ⟨hU, hS1⟩
  · obtain ⟨_, _, hs, hk⟩ := h1
    subst hs hk
    exact ⟨hU, hS1⟩
  · obtain ⟨_, _, hl, hs, hk⟩ := h1
    subst hs hk
    refine ⟨?_, hS1⟩
    intro u hu
    rcases mem_setInsert.mp hu with hu | hu
    · subst hu
      rcases hS n (List.mem_cons_self _ _) with ⟨root, hroot, hrb, hrn⟩ | hsome
      · right
        exact ⟨root, hroot, hrn, by rw [hrb]; exact hl⟩
      · rw [hl] at hsome
        cases hsome
    · exact hU u hu
  · obtain ⟨_, _, r, hl, st2, hst2, hs, hk⟩ := h1
    have hu2 : st2.unresolvedSet = st.unresolvedSet := by
      rcases hst2 with ⟨_, h2⟩ | ⟨_, _, h2⟩ <;> subst h2 <;> rfl
    subst hs hk
    rcases expandNode_cases w p.buckets p.byBucket st2 n r stack with ⟨he1, he2⟩ | ⟨data, _, he1, he2⟩
    · rw [he1, he2, hu2]
      exact ⟨hU, hS1⟩
    · rw [he1, he2]
      constructor
      · intro u hu
        rcases pushTokens_unres_sound _ _ _ _ _ _ _ u hu with h3 | ⟨_, h3⟩
        · rw [hu2] at h3
          exact hU u h3
        · left
          exact resolve_none_absent _ _ _ h3
      · intro m hm
        rcases List.mem_append.mp hm with hm | hm
        · right
          obtain ⟨_, _, tok, _, rr, hrr, hmb, hmn⟩ :=
            childNodes_mem _ _ _ _ m (List.mem_reverse.mp hm)
          obtain ⟨_, hlk⟩ := resolve_some_lookup _ _ _ rr hrr
          have hname := lookup2_named p.byBucket hnamed rr.Bucket tok rr.Resource hlk
          rw [hmb, hmn, hname, hlk]
          rfl
        · exact hS1 m hm

theorem lookup2_cons (k : String) (idx : Index) (rest : ByBucket) (b n : String) :
    lookup2 ((k, idx) :: rest) b n = if b = k then idx.lookup n else lookup2 rest b n := by
  unfold lookup2
  by_cases hk : b = k
  · subst hk
    simp [List.lookup]
  · have : (b == k) = false := by simpa using hk
    simp [List.lookup, this, hk]

theorem lookup2_insert_mono (byBucket : ByBucket) (bucket name : String) (r : Resource)
    (b n : String) (h : (lookup2 byBucket b n).isSome = true) :
    (lookup2 (insertResource byBucket bucket name r) b n).isSome = true := by
  induction byBucket with
  | nil => simp [lookup2, List.lookup] at h
  | cons e rest ih =>
    obtain ⟨k, idx⟩ := e
    rw [lookup2_cons] at h
    simp only [insertResource, List.map_cons]
    by_cases hk : k = bucket
    · simp only [hk, if_true]
      rw [lookup2_cons]
      by_cases hb : b = bucket
      · simp only [hb, if_true]
        rw [hk] at h
        simp only [hb, if_true] at h
        by_cases hn : n = name
        · subst hn; simp [List.lookup]
        · have : (n == name) = false := by simpa using hn
          simpa [List.lookup, this] using h
      · simp only [hb, if_false]
        rw [hk] at h
        simp only [hb, if_false] at h
        exact ih h
    · simp only [hk, if_false]
      rw [lookup2_cons]
      by_cases hb : b = k
      · simp only [hb, if_true] at h ⊢
        exact h
      · simp only [hb, if_false] at h ⊢
        exact ih h

theorem lookup2_insert_self (byBucket : ByBucket) (bucket name : String) (r : Resource)
    (h : bucket ∈ byBucket.map Prod.fst) :
    (lookup2 (insertResource byBucket bucket name r) bucket name).isSome = true := by
  induction byBucket with
  | nil => simp at h
  | cons e rest ih =>
    obtain ⟨k, idx⟩ := e
    simp only [insertResource, List.map_cons]
    by_cases hk : k = bucket
    · simp only [hk, if_true]
      rw [lookup2_cons]
      simp [List.lookup]
    · simp only [hk, if_false]
      rw [lookup2_cons]
      have hb : ¬ bucket = k := fun hh => hk hh.symm
      simp only [hb, if_false]
      apply ih
      simp only [List.map_cons, List.mem_cons] at h
      rcases h with h | h
      · exact absurd h hb
      · exact h

theorem insertResource_keys (byBucket : ByBucket) (bucket name : String) (r : Resource) :
    (insertResource byBucket bucket name r).map Prod.fst = byBucket.map Prod.fst := by
  induction byBucket with
  | nil => rfl
  | cons e rest ih =>
    simp only [insertResource, List.map_cons] at ih ⊢
    rw [ih]
    by_cases hk : e.1 = bucket <;> simp [hk]

/-- What the canonical-name scan keeps true: the buckets that have an index stay the same, and
every root found is a key of the index of its bucket. -/
theorem entryVisit_indexed (w : World) (entry bucket : String) (acc : List node × ByBucket)
    (e : WalkEntry) (keys : List String) (hb : bucket ∈ keys)
    (h : acc.2.map Prod.fst = keys
      ∧ ∀ n ∈ acc.1, (lookup2 acc.2 n.Bucket n.Name).isSome = true) :
    (entryVisit w entry bucket acc e).2.map Prod.fst = keys
      ∧ ∀ n ∈ (entryVisit w entry bucket acc e).1,
          (lookup2 (entryVisit w entry bucket acc e).2 n.Bucket n.Name).isSome = true := by
  obtain ⟨hk, hr⟩ := h
  unfold entryVisit
  by_cases hg : (e.walkErr || e.isDir || !hasSuffix (relPath e) ".decl.xml") = true
  · simp only [hg, if_true]
    exact ⟨hk, hr⟩
  · have hg1 : (e.walkErr || e.isDir || !hasSuffix (relPath e) ".decl.xml") = false := by
      simpa using hg
    simp only [hg1, Bool.false_eq_true, if_false]
    cases hc : canonicalFromXML w bucket (relPath e) with
    | none => exact ⟨hk, hr⟩
    | some name =>
      simp only []
      cases hl : lookup2 acc.2 bucket name with
      | some r0 =>
        simp only []
        refine ⟨hk, ?_⟩
        intro n hn
        by_cases hne : name = entry
        · simp only [hne, if_true] at hn
          rcases List.mem_append.mp hn with hn | hn
          · exact hr n hn
          · rw [List.mem_singleton] at hn
            subst hn
            simp only []
            rw [← hne, hl]
            rfl
        · simp only [hne, if_false] at hn
          exact hr n hn
      | none =>
        simp only []
        refine ⟨by rw [insertResource_keys]; exact hk, ?_⟩
        intro n hn
        by_cases hne : name = entry
        · simp only [hne, if_true] at hn
          rcases List.mem_append.mp hn with hn | hn
          · exact lookup2_insert_mono _ _ _ _ _ _ (hr n hn)
          · rw [List.mem_singleton] at hn
            subst hn
            simp only []
            rw [← hne]
            exact lookup2_insert_self _ _ _ _ (by rw [hk]; exact hb)
        · simp only [hne, if_false] at hn
          exact lookup2_insert_mono _ _ _ _ _ _ (hr n hn)

theorem entryScan_indexed (w : World) (entry : String) (buckets : List String)
    (byBucket : ByBucket) (hkeys : byBucket.map Prod.fst = buckets) :
    ∀ n ∈ (entryScan w entry buckets byBucket).1,
      (lookup2 (entryScan w entry buckets byBucket).2 n.Bucket n.Name).isSome = true := by
  unfold entryScan
  have key := foldl_invariant
    (fun acc : List node × ByBucket => acc.2.map Prod.fst = buckets
      ∧ ∀ n ∈ acc.1, (lookup2 acc.2 n.Bucket n.Name).isSome = true)
    (fun acc b => (w.walkDir b).foldl (entryVisit w entry b) acc) buckets ([], byBucket)
    ⟨hkeys, by simp⟩
    (by
      intro acc b hb hacc
      exact foldl_invariant
        (fun acc : List node × ByBucket => acc.2.map Prod.fst = buckets
          ∧ ∀ n ∈ acc.1, (lookup2 acc.2 n.Bucket n.Name).isSome = true)
        (entryVisit w entry b) (w.walkDir b) acc hacc
        (fun acc1 e _ h1 => entryVisit_indexed w entry b acc1 e buckets hb h1))
  exact key.2

theorem loadAll_keys (w : World) (bs : List String) (byBucket : ByBucket)
    (h : loadAll w bs = .ok byBucket) : byBucket.map Prod.fst = bs := by
  induction bs generalizing byBucket with
  | nil =>
    simp only [loadAll, Except.ok.injEq] at h
    subst h
    rfl
  | cons b bs ih =>
    unfold loadAll at h
    cases hl : Load w b with
    | error e => simp [hl] at h
    | ok idx =>
      simp only [hl] at h
      cases hr : loadAll w bs with
      | error e => simp [hr] at h
      | ok rest =>
        simp only [hr, Except.ok.injEq] at h
        subst h
        simp [ih rest hr]

/-- With a canonical name as entry, every root is a key of the index of its bucket when the
traversal starts. -/
theorem prepare_canonical_roots (w : World) (opts : Options) (p : Prepared)
    (hslash : containsSlash (trimSpace opts.Entry) = true) (hp : prepare w opts = .ok p) :
    ∀ root ∈ p.roots, (lookup2 p.byBucket root.Bucket root.Name).isSome = true := by
  obtain ⟨_, _, byBucket0, hl, hr⟩ := prepare_ok w opts p hp
  have hkeys := loadAll_keys w p.buckets byBucket0 hl
  have hidx := entryScan_indexed w (trimSpace opts.Entry) p.buckets byBucket0 hkeys
  unfold resolveEntry at hr
  simp only [hslash, if_true] at hr
  by_cases h0 : (entryScan w (trimSpace opts.Entry) p.buckets byBucket0).1.length = 0
  · simp [h0] at hr
  · by_cases h1 : (entryScan w (trimSpace opts.Entry) p.buckets byBucket0).1.length > 1
    · simp only [h0, h1, if_false, if_true, Except.ok.injEq, Prod.mk.injEq] at hr
      rw [← hr.1, ← hr.2.2]
      exact hidx
    · simp only [h0, h1, if_false, Except.ok.injEq, Prod.mk.injEq] at hr
      rw [← hr.1, ← hr.2.2]
      exact hidx

/-- C18 as stated fails. The entry `A.decl` is in bucket `game1`, whose index does not hold
the canonical name `models/a/a.asset` of its sidecar; the index of `game2` does. The run
succeeds and `Unresolved` holds `models/a/a.asset`, a key of the index of `game2`. -/
theorem unresolved_root_known_elsewhere :
    prepare strayWorld filenameOpts = .ok strayPrepared
      ∧ (Run strayWorld filenameOpts).2 = none
      ∧ "models/a/a.asset" ∈ (Run strayWorld filenameOpts).1.Unresolved
      ∧ "game2" ∈ strayPrepared.buckets
      ∧ lookup2 strayPrepared.byBucket "game2" "models/a/a.asset"
          = some { Name := "models/a/a.asset", RelDeclPath := "B.decl",
                   RelXMLPath := "B.decl.xml" } := by
  decide

/-- C18, amended. In a successful run every string in `Result.Unresolved` is a key of no
bucket index, or it is the name of a root node that is not a key of the index of the root's
own bucket; with a canonical name as entry only the first case occurs. -/
theorem unresolved_sound (w : World) (opts : Options) (h : (Run w opts).2 = none) :
    ∃ p, prepare w opts = .ok p
      ∧ (∀ u ∈ (Run w opts).1.Unresolved,
          (∀ b ∈ p.buckets, lookup2 p.byBucket b u = none)
            ∨ ∃ root ∈ p.roots, root.Name = u ∧ lookup2 p.byBucket root.Bucket u = none)
      ∧ (containsSlash (trimSpace opts.Entry) = true →
          ∀ u ∈ (Run w opts).1.Unresolved, ∀ b ∈ p.buckets, lookup2 p.byBucket b u = none) := by
  obtain ⟨p, st, hp, ht, hrun⟩ := Run_success w opts h
  have hnamed := prepare_named w opts p hp
  have key := forRoots_stack_induction w p.maxDepth p.buckets p.byBucket
    (fun s stack =>
      (∀ u ∈ s.unresolvedSet, (∀ b ∈ p.buckets, lookup2 p.byBucket b u = none)
          ∨ ∃ root ∈ p.roots, root.Name = u ∧ lookup2 p.byBucket root.Bucket u = none)
        ∧ ∀ m ∈ stack, (∃ root ∈ p.roots, root.Bucket = m.Bucket ∧ root.Name = m.Name)
            ∨ (lookup2 p.byBucket m.Bucket m.Name).isSome = true)
    p.roots
    (fun s n stack s1 stack1 hP hb => unresolved_step w p hnamed s n stack s1 stack1 hP hb)
    (fun s root hroot hP => ⟨hP.1, fun m hm => by
      rw [List.mem_singleton] at hm
      subst hm
      exact Or.inl ⟨root, hroot, rfl, rfl⟩⟩)
    (fuelBound w p.byBucket) (initState p.warns)
    ⟨fun u hu => by simp [initState] at hu, fun m hm => by cases hm⟩ st ht
  have hperm : (sortStrings st.unresolvedSet).Perm st.unresolvedSet :=
    List.perm_insertionSort _ _
  have hmain : ∀ u ∈ (Run w opts).1.Unresolved,
      (∀ b ∈ p.buckets, lookup2 p.byBucket b u = none)
        ∨ ∃ root ∈ p.roots, root.Name = u ∧ lookup2 p.byBucket root.Bucket u = none := by
    intro u hu
    rw [hrun] at hu
    exact key.1 u (hperm.mem_iff.mp hu)
  refine ⟨p, hp, hmain, ?_⟩
  intro hs u hu
  rcases hmain u hu with h1 | ⟨root, hroot, hn, hl⟩
  · exact h1
  · have := prepare_canonical_roots w opts p hs hp root hroot
    rw [hn, hl] at this
    cases this

/-- Witness of C18 (amended) on scenario 1. -/
theorem unresolved_sound_witness :
    ∃ p, prepare scenario1World scenario1Opts = .ok p
      ∧ (∀ u ∈ (Run scenario1World scenario1Opts).1.Unresolved,
          (∀ b ∈ p.buckets, lookup2 p.byBucket b u = none)
            ∨ ∃ root ∈ p.roots, root.Name = u ∧ lookup2 p.byBucket root.Bucket u = none)
      ∧ (containsSlash (trimSpace scenario1Opts.Entry) = true →
          ∀ u ∈ (Run scenario1World scenario1Opts).1.Unresolved, ∀ b ∈ p.buckets,
            lookup2 p.byBucket b u = none) :=
  unresolved_sound scenario1World scenario1Opts (by decide)

/-! ### C16: one work stack for all roots -/

theorem pushTokens_append (buckets : List String) (byBucket : ByBucket) (depth : Int)
    (toks : List String) (unres : List String) (warns : List Warning) (stack rest : List node) :
    pushTokens buckets byBucket depth toks (unres, warns, stack ++ rest)
      = ((pushTokens buckets byBucket depth toks (unres, warns, stack)).1,
         (pushTokens buckets byBucket depth toks (unres, warns, stack)).2.1,
         (pushTokens buckets byBucket depth toks (unres, warns, stack)).2.2 ++ rest) := by
  induction toks generalizing unres warns stack with
  | nil => rfl
  | cons tok toks ih =>
    unfold pushTokens
    cases h : (resolveTokenAcrossBuckets buckets byBucket tok).1 with
    | none => simp only [h]; exact ih _ _ _
    | some rr =>
      simp only [h]
      rw [← List.cons_append]
      exact ih _ _ _

theorem expandNode_append (w : World) (buckets : List String) (byBucket : ByBucket)
    (st : TravState) (n : node) (r : Resource) (stack rest : List node) :
    expandNode w buckets byBucket st n r (stack ++ rest)
      = ((expandNode w buckets byBucket st n r stack).1,
         (expandNode w buckets byBucket st n r stack).2 ++ rest) := by
  unfold expandNode
  cases hr : w.readFile n.Bucket r.RelDeclPath with
  | none => rfl
  | some data =>
    simp only []
    rw [pushTokens_append]

/-- One iteration of the loop touches only the top of the stack. -/
theorem loopBody_append (w : World) (maxDepth : Int) (buckets : List String)
    (byBucket : ByBucket) (st : TravState) (n : node) (stack rest : List node) :
    loopBody w maxDepth buckets byBucket st n (stack ++ rest)
      = match loopBody w maxDepth buckets byBucket st n stack with
        | .next st1 stack1 => .next st1 (stack1 ++ rest)
        | .fail st1 e => .fail st1 e := by
  unfold loopBody
  by_cases hvis : nodeKey n.Bucket n.Name ∈ st.visited
  · simp only [hvis, if_true]
  · simp only [hvis, if_false]
    by_cases hd : n.Depth > maxDepth
    · simp only [hd, if_true]
    · simp only [hd, if_false]
      cases hl : lookup2 byBucket n.Bucket n.Name with
      | none => rfl
      | some r =>
        simp only []
        by_cases hc : nodeKey n.Bucket n.Name ∈ st.copied
        · simp only [hc, if_true]
          rw [expandNode_append]
        · simp only [hc, if_false]
          cases hcp : copyOne w n.Bucket r with
          | some e => rfl
          | none =>
            simp only []
            rw [expandNode_append]

theorem loop_succ_cons (w : World) (maxDepth : Int) (buckets : List String)
    (byBucket : ByBucket) (fuel : Nat) (st : TravState) (n : node) (stack : List node) :
    loop w maxDepth buckets byBucket (fuel + 1) st (n :: stack)
      = match loopBody w maxDepth buckets byBucket st n stack with
        | .fail st1 e => .failed st1 e
        | .next st1 stack1 => loop w maxDepth buckets byBucket fuel st1 stack1 := rfl

theorem loop_fuel_agree_out (w : World) (maxDepth : Int) (buckets : List String)
    (byBucket : ByBucket) (f1 f2 : Nat) (st : TravState) (stack : List node)
    (h1 : loop w maxDepth buckets byBucket f1 st stack ≠ .outOfFuel)
    (h2 : loop w maxDepth buckets byBucket f2 st stack ≠ .outOfFuel) :
    loop w maxDepth buckets byBucket f2 st stack = loop w maxDepth buckets byBucket f1 st stack := by
  rcases Nat.le_total f1 f2 with hle | hle
  · exact loop_fuel_le w maxDepth buckets byBucket f1 f2 st stack h1 hle
  · exact (loop_fuel_le w maxDepth buckets byBucket f2 f1 st stack h2 hle).symm

/-- The loop on a stack that lies on top of other nodes first does what it does on the stack
alone: when that ends in a state, it goes on from there with the nodes below. -/
theorem loop_append_done (w : World) (maxDepth : Int) (buckets : List String)
    (byBucket : ByBucket) (f g : Nat) (st : TravState) (stack rest : List node)
    (st1 : TravState) (h : loop w maxDepth buckets byBucket f st stack = .done st1)
    (hg : loop w maxDepth buckets byBucket g st1 rest ≠ .outOfFuel) :
    loop w maxDepth buckets byBucket (f + g) st (stack ++ rest)
      = loop w maxDepth buckets byBucket g st1 rest := by
  induction f generalizing st stack with
  | zero =>
    cases stack with
    | nil =>
      simp only [loop, LoopOut.done.injEq] at h
      subst h
      simp
    | cons n stack => simp [loop] at h
  | succ f ih =>
    cases stack with
    | nil =>
      simp only [loop, LoopOut.done.injEq] at h
      subst h
      rw [List.nil_append]
      exact loop_fuel_le w maxDepth buckets byBucket g (f + 1 + g) st rest hg (by omega)
    | cons n stack =>
      have hfg : f + 1 + g = (f + g) + 1 := by omega
      rw [hfg, List.cons_append, loop_succ_cons, loopBody_append]
      rw [loop_succ_cons] at h
      cases hb : loopBody w maxDepth buckets byBucket st n stack with
      | fail st2 e => simp [hb] at h
      | next st2 stack2 =>
        simp only [hb] at h ⊢
        exact ih st2 stack2 h

theorem loop_append_failed (w : World) (maxDepth : Int) (buckets : List String)
    (byBucket : ByBucket) (f g : Nat) (st : TravState) (stack rest : List node)
    (st1 : TravState) (e : RunError)
    (h : loop w maxDepth buckets byBucket f st stack = .failed st1 e) :
    loop w maxDepth buckets byBucket (f + g) st (stack ++ rest) = .failed st1 e := by
  induction f generalizing st stack with
  | zero =>
    cases stack with
    | nil => simp [loop] at h
    | cons n stack => simp [loop] at h
  | succ f ih =>
    cases stack with
    | nil => simp [loop] at h
    | cons n stack =>
      have hfg : f + 1 + g = (f + g) + 1 := by omega
      rw [hfg, List.cons_append, loop_succ_cons, loopBody_append]
      rw [loop_succ_cons] at h
      cases hb : loopBody w maxDepth buckets byBucket st n stack with
      | fail st2 e2 =>
        simp only [hb] at h ⊢
        exact h
      | next st2 stack2 =>
        simp only [hb] at h ⊢
        exact ih st2 stack2 h

/-- The loop over the roots of `Run`, one stack per root, is the loop on one stack that holds
all roots with the first root on top. -/
theorem forRoots_eq_loop (w : World) (maxDepth : Int) (buckets : List String)
    (byBucket : ByBucket) (st : TravState) (roots : List node) :
    ∃ g, loop w maxDepth buckets byBucket g st (rootNodes roots)
      = forRoots w maxDepth buckets byBucket (fuelBound w byBucket) st roots := by
  induction roots generalizing st with
  | nil => exact ⟨0, by simp [rootNodes, loop, forRoots]⟩
  | cons root roots ih =>
    have hsplit : rootNodes (root :: roots)
        = [{ Bucket := root.Bucket, Name := root.Name, Depth := 0 }] ++ rootNodes roots := rfl
    have hterm := forRoots_terminates w maxDepth buckets byBucket st (root :: roots)
    rw [hsplit]
    unfold forRoots at hterm ⊢
    cases hl : loop w maxDepth buckets byBucket (fuelBound w byBucket) st
        [{ Bucket := root.Bucket, Name := root.Name, Depth := 0 }] with
    | done st1 =>
      simp only [hl] at hterm ⊢
      obtain ⟨g, hg⟩ := ih st1
      refine ⟨fuelBound w byBucket + g, ?_⟩
      rw [loop_append_done w maxDepth buckets byBucket _ g st _ _ st1 hl (by rw [hg]; exact hterm)]
      exact hg
    | failed st1 e =>
      simp only [hl]
      exact ⟨fuelBound w byBucket + 0,
        loop_append_failed w maxDepth buckets byBucket _ 0 st _ _ st1 e hl⟩
    | outOfFuel =>
      simp only [hl] at hterm
      exact absurd rfl hterm

/-- C16 as stated fails. The entry `x/e` is in `game1` and `game2` and the max depth is 1. `Run`
works off the root of `game1` first, meets `(game1, x/c)` at depth 2 and prunes it with a
warning; the one stack of spec 4.4 has the root of `game2` on top, meets `(game1, x/c)` at
depth 1 and copies it without a warning. -/
theorem single_stack_in_order_differs :
    prepare rootOrderWorld rootOrderOpts = .ok rootOrderPrepared
      ∧ (match traverse rootOrderWorld rootOrderPrepared with
          | .done st => some (st.copied, copiedPairs st, st.warnings)
          | _ => none)
        = some (["game2::x/e", "game1::x/a", "game1::x/e"],
                [("game2", "x/e"), ("game1", "x/a"), ("game1", "x/e")],
                [.entryMultiple "x/e", .depthLimit 1 "game1" "x/c"])
      ∧ (match specTraverse rootOrderWorld rootOrderPrepared with
          | .done st => some (st.copied, copiedPairs st, st.warnings)
          | _ => none)
        = some (["game1::x/a", "game1::x/e", "game1::x/c", "game2::x/e"],
                [("game1", "x/a"), ("game1", "x/e"), ("game1", "x/c"), ("game2", "x/e")],
                [.entryMultiple "x/e"]) := by
  decide

/-- C16, amended. The traversal of `Run` is the one-stack procedure of spec 4.4 started with
the first root on top of the stack (the roots pushed in reverse order): both end the same
way, in the same state. With at most one root the order does not matter. -/
theorem single_stack_first_root_on_top (w : World) (p : Prepared) :
    singleStack w p (rootNodes p.roots) = traverse w p
      ∧ (p.roots.length ≤ 1 → specTraverse w p = traverse w p) := by
  have hmain : singleStack w p (rootNodes p.roots) = traverse w p := by
    obtain ⟨g, hg⟩ := forRoots_eq_loop w p.maxDepth p.buckets p.byBucket (initState p.warns)
      p.roots
    have hterm := forRoots_terminates w p.maxDepth p.buckets p.byBucket (initState p.warns)
      p.roots
    have h2 := loop_terminates w p.maxDepth p.buckets p.byBucket
      (p.roots.length + fuelBound w p.byBucket) (initState p.warns) (rootNodes p.roots)
      (by
        have := pendingTokens_le_fuelBound w p.byBucket (initState p.warns).visited
        simp only [rootNodes, List.length_map]
        omega)
    unfold singleStack traverse
    rw [← hg]
    exact loop_fuel_agree_out w p.maxDepth p.buckets p.byBucket g _ _ _
      (by rw [hg]; exact hterm) h2
  refine ⟨hmain, ?_⟩
  intro hlen
  have hrev : (rootNodes p.roots).reverse = rootNodes p.roots := by
    cases hr : p.roots with
    | nil => rfl
    | cons a rest =>
      cases rest with
      | nil => rfl
      | cons b rest => rw [hr] at hlen; simp at hlen
  unfold specTraverse
  rw [hrev]
  exact hmain

/-! ### C9: decl read failures in a run -/

end VoidSlice
